import Mathlib

/-!
# Flash-KV: shallow embedding and verification of the storage-engine spec

This file embeds the core of the Flash-KV storage engine (a Bitcask-style
log-structured key-value store written in Rust) into Lean 4 and proves, or
refutes, a fixed list of claims about it.

Bytes are modelled as `Nat` (the encoders only ever emit values `< 256`),
byte strings as `List Nat`, machine integers as `Nat` with explicit
wrap-around where it matters, and fallible Rust code as `Except`
(a Rust panic is modelled as the `none` case of an outer `Option` layer).

The module structure follows the source layout:
 * record codec            — `src/data/log_record.rs`
 * data-file reads/writes  — `src/data/data_file.rs`
 * engine operations       — `src/db.rs`
 * write batches           — `src/batch.rs`
 * merge / compaction      — `src/merge.rs`
 * mmap I/O backend        — `src/fio/mmap.rs`
-/

deriving instance DecidableEq for Except

namespace FlashKV

/-! ## Error taxonomy

Modelled from the spec: the `Errors` enum lives in `src/errors.rs`, which is
not part of the provided sources; the constructor list below follows the
spec's §7 error taxonomy verbatim. -/

inductive Errors where
  | KeyIsEmpty
  | KeyNotFound
  | DataFileNotFound
  | DirPathIsEmpty
  | DataFileSizeTooSmall
  | InvalidMergeThreshold
  | FailedToCreateDatabaseDir
  | FailedToReadDatabaseDir
  | DatabaseDirectoryCorrupted
  | FailedToOpenDataFile
  | FailedToReadFromDataFile
  | FailedToWriteToDataFile
  | FailedToSyncDataFile
  | ReadDataFileEOF
  | InvalidLogRecordCrc
  | DatabaseIsUsing
  | UnableToUseWriteBatch
  | ExceedMaxBatchNum
  | MergeInProgress
  | MergeThresholdUnreached
  | MergeNoEnoughSpace
  | FailedToCopyDirectory
  deriving DecidableEq, Repr

/-! ## Varints (prost `encode_length_delimiter` / `decode_length_delimiter`)

`prost` length delimiters are unsigned LEB128 varints: seven payload bits per
byte, little-endian groups, high bit set on every byte except the last. -/

/-- Structural helper for `encodeVarint`; `fuel ≥ n` makes the fallback
branch unreachable. -/
def encodeVarintAux (fuel n : Nat) : List Nat :=
  match fuel with
  | 0 => [n % 128]
  | fuel + 1 =>
      if n < 128 then [n] else (n % 128 + 128) :: encodeVarintAux fuel (n / 128)

/-- Canonical LEB128 encoding of a natural number
(`prost::encode_length_delimiter` / `encode_varint`). -/
def encodeVarint (n : Nat) : List Nat := encodeVarintAux n n

theorem encodeVarintAux_congr (f1 : Nat) : ∀ f2 n, n ≤ f1 → n ≤ f2 →
    encodeVarintAux f1 n = encodeVarintAux f2 n := by
  induction f1 with
  | zero =>
    intro f2 n h1 _
    interval_cases n
    cases f2 <;> simp [encodeVarintAux]
  | succ f1 ih =>
    intro f2 n h1 h2
    cases f2 with
    | zero =>
      interval_cases n
      simp [encodeVarintAux]
    | succ f2 =>
      simp only [encodeVarintAux]
      by_cases h : n < 128
      · simp [h]
      · have hdiv : n / 128 < n := Nat.div_lt_self (by omega) (by omega)
        simp only [if_neg h]
        rw [ih f2 (n / 128) (by omega) (by omega)]

/-- The defining recursion of `encodeVarint`. -/
theorem encodeVarint_eq (n : Nat) :
    encodeVarint n = if n < 128 then [n] else (n % 128 + 128) :: encodeVarint (n / 128) := by
  unfold encodeVarint
  cases hn : n with
  | zero => simp [encodeVarintAux]
  | succ m =>
    simp only [encodeVarintAux]
    by_cases h : m + 1 < 128
    · simp [h]
    · have hdiv : (m + 1) / 128 < m + 1 := Nat.div_lt_self (by omega) (by omega)
      simp only [if_neg h]
      rw [encodeVarintAux_congr m ((m + 1) / 128) ((m + 1) / 128) (by omega) (le_refl _)]

/-- LEB128 decoding (`prost::decode_length_delimiter` / `decode_varint`),
returning the decoded value and the remaining bytes; `none` when the buffer
ends before a terminating byte (prost reports an error, which every call
site in the source unwraps — a panic). -/
def decodeVarint : List Nat → Option (Nat × List Nat)
  | [] => none
  | b :: rest =>
      if b < 128 then some (b, rest)
      else match decodeVarint rest with
        | none => none
        | some (v, r) => some (b % 128 + 128 * v, r)

/-- Byte length of the canonical varint (`prost::length_delimiter_len`). -/
def lengthDelimiterLen (n : Nat) : Nat := (encodeVarint n).length

theorem encodeVarint_ne_nil (n : Nat) : encodeVarint n ≠ [] := by
  rw [encodeVarint_eq]
  split <;> simp

/-- Decoding a canonical varint followed by arbitrary bytes recovers the
value and leaves exactly those bytes. -/
theorem decodeVarint_encodeVarint (n : Nat) (rest : List Nat) :
    decodeVarint (encodeVarint n ++ rest) = some (n, rest) := by
  induction n using Nat.strong_induction_on with
  | _ n ih =>
    rw [encodeVarint_eq]
    by_cases h : n < 128
    · simp [h, decodeVarint]
    · have hdiv : n / 128 < n := Nat.div_lt_self (by omega) (by omega)
      simp only [if_neg h, List.cons_append, decodeVarint]
      have h2 : ¬ (n % 128 + 128 < 128) := by omega
      simp only [if_neg h2, ih (n / 128) hdiv]
      have : n % 128 + 128 * (n / 128) = n := by
        have := Nat.mod_add_div n 128
        omega
      simp [Nat.add_mod_left, this]

/-- Every byte emitted by `encodeVarint` is below 256. -/
theorem encodeVarint_lt_256 (n : Nat) : ∀ b ∈ encodeVarint n, b < 256 := by
  induction n using Nat.strong_induction_on with
  | _ n ih =>
    rw [encodeVarint_eq]
    by_cases h : n < 128
    · simp [h]; omega
    · have hdiv : n / 128 < n := Nat.div_lt_self (by omega) (by omega)
      simp only [if_neg h, List.mem_cons]
      rintro b (rfl | hb)
      · have := Nat.mod_lt n (y := 128) (by omega)
        omega
      · exact ih (n / 128) hdiv b hb

/-- A varint of a value below `2^35` fits in at most five bytes
(the spec's "up to 5 bytes" bound backing the 11-byte max header). -/
theorem encodeVarint_length_le (n : Nat) (h : n < 2 ^ 35) :
    (encodeVarint n).length ≤ 5 := by
  have expand : ∀ m : Nat, m < 128 → (encodeVarint m).length = 1 := by
    intro m hm; rw [encodeVarint_eq]; simp [hm]
  rw [encodeVarint_eq]
  by_cases h1 : n < 128
  · simp [h1]
  · simp only [if_neg h1, List.length_cons]
    rw [encodeVarint_eq]
    by_cases h2 : n / 128 < 128
    · simp [h2]
    · simp only [if_neg h2, List.length_cons]
      rw [encodeVarint_eq]
      by_cases h3 : n / 128 / 128 < 128
      · simp [h3]
      · simp only [if_neg h3, List.length_cons]
        rw [encodeVarint_eq]
        by_cases h4 : n / 128 / 128 / 128 < 128
        · simp [h4]
        · simp only [if_neg h4, List.length_cons]
          have : n / 128 / 128 / 128 / 128 < 128 := by
            have hn : n < 2 ^ 35 := h
            omega
          rw [expand _ this]

/-! ## CRC32 (`crc32fast`: reflected CRC-32/ISO-HDLC, polynomial 0xEDB88320) -/

/-- One bit step of the reflected CRC-32 computation. -/
def crcBit (c : Nat) : Nat :=
  if c % 2 = 1 then (c / 2) ^^^ 0xEDB88320 else c / 2

/-- Process one byte: XOR it into the low bits, then eight bit steps. -/
def crcByte (c b : Nat) : Nat :=
  crcBit (crcBit (crcBit (crcBit (crcBit (crcBit (crcBit (crcBit (c ^^^ b))))))))

/-- CRC-32 of a byte list as computed by `crc32fast::Hasher`
(initial value `0xFFFFFFFF`, final complement). -/
def crc32 (data : List Nat) : Nat :=
  (data.foldl crcByte 0xFFFFFFFF) ^^^ 0xFFFFFFFF

/-! ## Record codec (`src/data/log_record.rs`) -/

/-- `LogRecordType`: discriminants Normal=1, Deleted=2, TxnFinished=3. -/
inductive LogRecordType where
  | normal
  | deleted
  | txnFinished
  deriving DecidableEq, Repr

/-- The on-disk discriminant byte (`self.rec_type as u8`). -/
def LogRecordType.toU8 : LogRecordType → Nat
  | .normal => 1
  | .deleted => 2
  | .txnFinished => 3

/-- `LogRecordType::from_u8`; the Rust function panics on any other byte,
modelled by `none`. -/
def LogRecordType.fromU8 : Nat → Option LogRecordType
  | 1 => some .normal
  | 2 => some .deleted
  | 3 => some .txnFinished
  | _ => none

structure LogRecord where
  key : List Nat
  value : List Nat
  recType : LogRecordType
  deriving DecidableEq, Repr

structure LogRecordPos where
  fileId : Nat
  offset : Nat
  size : Nat
  deriving DecidableEq, Repr

/-- Big-endian 4-byte serialization of a `u32` (`BytesMut::put_u32`). -/
def be32 (n : Nat) : List Nat :=
  [n / 2 ^ 24 % 256, n / 2 ^ 16 % 256, n / 2 ^ 8 % 256, n % 256]

/-- Big-endian read of a `u32` from the first four bytes (`Buf::get_u32`). -/
def readBE32 (l : List Nat) : Nat :=
  ((l.getD 0 0 * 256 + l.getD 1 0) * 256 + l.getD 2 0) * 256 + l.getD 3 0

/-- The CRC-covered payload of a record:
type byte, key-length varint, value-length varint, key, value. -/
def encodePayload (r : LogRecord) : List Nat :=
  r.recType.toU8 ::
    (encodeVarint r.key.length ++ (encodeVarint r.value.length ++ (r.key ++ r.value)))

/-- `LogRecord::encode`: payload followed by the big-endian CRC32 trailer. -/
def LogRecord.encode (r : LogRecord) : List Nat :=
  encodePayload r ++ be32 (crc32 (encodePayload r))

/-- `LogRecord::get_crc`. -/
def LogRecord.getCrc (r : LogRecord) : Nat := crc32 (encodePayload r)

/-- `LogRecordPos::encode`: three packed varints (file_id, offset, size). -/
def LogRecordPos.encode (p : LogRecordPos) : List Nat :=
  encodeVarint p.fileId ++ encodeVarint p.offset ++ encodeVarint p.size

/-- `decode_log_record_pos`; the source panics when a varint is malformed,
modelled by `none`. -/
def decodeLogRecordPos (bytes : List Nat) : Option LogRecordPos :=
  match decodeVarint bytes with
  | none => none
  | some (fid, r1) =>
    match decodeVarint r1 with
    | none => none
    | some (off, r2) =>
      match decodeVarint r2 with
      | none => none
      | some (sz, _) => some ⟨fid, off, sz⟩

/-- `max_log_record_header_size()` = 1 + 5 + 5 = 11. -/
def maxLogRecordHeaderSize : Nat := 11

/-! ## Data-file reads (`src/data/data_file.rs`)

`DataFile::read_log_record` reads through an `IOManager`. Modelled from the
spec for the standard file backend (`src/fio/file_io.rs` is not among the
provided sources): `read` is a positional `pread` into a zeroed buffer, so
byte `i` of a read at `offset` is the file byte at `offset + i`, or `0`
past the end of the file. -/

/-- Read `n` bytes starting at the head of `xs` into a zeroed buffer:
the available bytes followed by zero padding. -/
def takePad (n : Nat) (xs : List Nat) : List Nat :=
  xs.take n ++ List.replicate (n - xs.length) 0

/-- `DataFile::read_log_record`, reading at `offset` in a file whose bytes
are `content`. Returns the parsed record and its on-disk size;
`Errors.ReadDataFileEOF` at zero padding, `Errors.InvalidLogRecordCrc` on a
checksum mismatch; `none` models the panics (`decode_length_delimiter`
unwrap and `LogRecordType::from_u8`). -/
def readLogRecord (content : List Nat) (offset : Nat) :
    Option (Except Errors (LogRecord × Nat)) :=
  let headerBuf := takePad maxLogRecordHeaderSize (content.drop offset)
  let recTypeByte := headerBuf.headD 0
  match decodeVarint (headerBuf.drop 1) with
  | none => none
  | some (keySize, afterKey) =>
    match decodeVarint afterKey with
    | none => none
    | some (valueSize, _) =>
      if keySize = 0 ∧ valueSize = 0 then some (.error .ReadDataFileEOF)
      else
        let actualHeaderSize :=
          lengthDelimiterLen keySize + lengthDelimiterLen valueSize + 1
        let kvBuf := takePad (keySize + valueSize + 4)
          (content.drop (offset + actualHeaderSize))
        match LogRecordType.fromU8 recTypeByte with
        | none => none
        | some rt =>
          let record : LogRecord :=
            { key := kvBuf.take keySize
              value := (kvBuf.drop keySize).take valueSize
              recType := rt }
          if readBE32 (kvBuf.drop (keySize + valueSize)) ≠ record.getCrc then
            some (.error .InvalidLogRecordCrc)
          else
            some (.ok (record, actualHeaderSize + keySize + valueSize + 4))

/-! ### Codec round-trip lemmas -/

theorem takePad_zero (xs : List Nat) : takePad 0 xs = [] := by
  simp [takePad]

theorem takePad_append (n : Nat) (a b : List Nat) (h : a.length ≤ n) :
    takePad n (a ++ b) = a ++ takePad (n - a.length) b := by
  unfold takePad
  rw [List.take_append_eq_append_take, List.take_of_length_le h,
    List.length_append, List.append_assoc]
  have : n - (a.length + b.length) = n - a.length - b.length := by omega
  rw [this]

theorem takePad_cons (n : Nat) (x : Nat) (xs : List Nat) :
    takePad (n + 1) (x :: xs) = x :: takePad n xs := by
  have := takePad_append (n + 1) [x] xs (by simp)
  simpa using this

theorem takePad_self (a b : List Nat) : takePad a.length (a ++ b) = a := by
  rw [takePad_append _ _ _ (le_refl _)]
  simp [takePad_zero]

theorem decodeVarint_takePad (m n : Nat) (rest : List Nat)
    (h : (encodeVarint m).length ≤ n) :
    decodeVarint (takePad n (encodeVarint m ++ rest)) =
      some (m, takePad (n - (encodeVarint m).length) rest) := by
  rw [takePad_append _ _ _ h, decodeVarint_encodeVarint]

theorem fromU8_toU8 (t : LogRecordType) :
    LogRecordType.fromU8 t.toU8 = some t := by
  cases t <;> rfl

theorem crcBit_lt (c : Nat) (h : c < 2 ^ 32) : crcBit c < 2 ^ 32 := by
  unfold crcBit
  split
  · exact Nat.xor_lt_two_pow (by omega) (by norm_num)
  · omega

theorem crcByte_lt (c b : Nat) (hc : c < 2 ^ 32) (hb : b < 256) :
    crcByte c b < 2 ^ 32 := by
  unfold crcByte
  have h0 : c ^^^ b < 2 ^ 32 := Nat.xor_lt_two_pow hc (by omega)
  exact crcBit_lt _ (crcBit_lt _ (crcBit_lt _ (crcBit_lt _ (crcBit_lt _
    (crcBit_lt _ (crcBit_lt _ (crcBit_lt _ h0)))))))

theorem crc32_lt (data : List Nat) (h : ∀ b ∈ data, b < 256) :
    crc32 data < 2 ^ 32 := by
  unfold crc32
  have : ∀ acc, acc < 2 ^ 32 → data.foldl crcByte acc < 2 ^ 32 := by
    induction data with
    | nil => intro acc hacc; simpa using hacc
    | cons x xs ih =>
      intro acc hacc
      simp only [List.foldl_cons]
      exact ih (fun b hb => h b (List.mem_cons_of_mem _ hb)) _
        (crcByte_lt _ _ hacc (h x (List.mem_cons_self _ _)))
  exact Nat.xor_lt_two_pow (this _ (by norm_num)) (by norm_num)

theorem readBE32_be32 (n : Nat) (h : n < 2 ^ 32) : readBE32 (be32 n) = n := by
  show ((n / 2 ^ 24 % 256 * 256 + n / 2 ^ 16 % 256) * 256 + n / 2 ^ 8 % 256) * 256
      + n % 256 = n
  omega

theorem be32_length (n : Nat) : (be32 n).length = 4 := rfl

theorem be32_lt_256 (n : Nat) : ∀ b ∈ be32 n, b < 256 := by
  intro b hb
  simp only [be32, List.mem_cons] at hb
  rcases hb with rfl | rfl | rfl | rfl | hb
  · omega
  · omega
  · omega
  · omega
  · simp at hb

/-- Every byte of a record's CRC payload is below 256 when the key and value
are byte strings (type byte is 1/2/3, varint bytes are below 256). -/
theorem encodePayload_lt_256 (r : LogRecord)
    (hk : ∀ b ∈ r.key, b < 256) (hv : ∀ b ∈ r.value, b < 256) :
    ∀ b ∈ encodePayload r, b < 256 := by
  intro b hb
  simp only [encodePayload, List.mem_cons, List.mem_append] at hb
  rcases hb with rfl | hb | hb | hb | hb
  · cases r.recType <;> simp [LogRecordType.toU8]
  · exact encodeVarint_lt_256 _ b hb
  · exact encodeVarint_lt_256 _ b hb
  · exact hk b hb
  · exact hv b hb

/-- Reading at an offset where a record's full encoding is laid down
recovers the record and its encoded length (the codec round-trip). -/
theorem readLogRecord_at (r : LogRecord) (content : List Nat) (offset : Nat)
    (tail : List Nat)
    (hdrop : content.drop offset = r.encode ++ tail)
    (hne : ¬(r.key.length = 0 ∧ r.value.length = 0))
    (hkb : ∀ b ∈ r.key, b < 256) (hvb : ∀ b ∈ r.value, b < 256)
    (hkl : r.key.length < 2 ^ 35) (hvl : r.value.length < 2 ^ 35) :
    readLogRecord content offset = some (.ok (r, r.encode.length)) := by
  obtain ⟨key, value, rt⟩ := r
  simp only at hkb hvb hkl hvl hne
  have hkv5 : (encodeVarint key.length).length ≤ 5 := encodeVarint_length_le _ hkl
  have hvv5 : (encodeVarint value.length).length ≤ 5 := encodeVarint_length_le _ hvl
  have hL : content.drop offset =
      rt.toU8 :: (encodeVarint key.length ++ (encodeVarint value.length ++
        (key ++ (value ++
          (be32 (crc32 (encodePayload ⟨key, value, rt⟩)) ++ tail))))) := by
    rw [hdrop]
    simp [LogRecord.encode, encodePayload, List.append_assoc]
  unfold readLogRecord
  rw [hL]
  rw [show takePad maxLogRecordHeaderSize
      (rt.toU8 :: (encodeVarint key.length ++ (encodeVarint value.length ++
        (key ++ (value ++
          (be32 (crc32 (encodePayload ⟨key, value, rt⟩)) ++ tail)))))) =
      rt.toU8 :: takePad 10 (encodeVarint key.length ++ (encodeVarint value.length ++
        (key ++ (value ++
          (be32 (crc32 (encodePayload ⟨key, value, rt⟩)) ++ tail)))))
    from takePad_cons 10 _ _]
  simp only [List.headD_cons, List.drop_succ_cons, List.drop_zero]
  rw [decodeVarint_takePad _ _ _ (by omega)]
  dsimp only
  rw [decodeVarint_takePad _ _ _ (by omega)]
  dsimp only
  simp only [if_neg hne]
  have hdrop2 : content.drop
      (offset + (lengthDelimiterLen key.length + lengthDelimiterLen value.length + 1)) =
      (key ++ (value ++ be32 (crc32 (encodePayload ⟨key, value, rt⟩)))) ++ tail := by
    have hsplit : rt.toU8 :: (encodeVarint key.length ++ (encodeVarint value.length ++
        (key ++ (value ++
          (be32 (crc32 (encodePayload ⟨key, value, rt⟩)) ++ tail))))) =
        (rt.toU8 :: (encodeVarint key.length ++ encodeVarint value.length)) ++
          ((key ++ (value ++ be32 (crc32 (encodePayload ⟨key, value, rt⟩)))) ++ tail) := by
      simp [List.append_assoc]
    have hlen : lengthDelimiterLen key.length + lengthDelimiterLen value.length + 1 =
        (rt.toU8 :: (encodeVarint key.length ++ encodeVarint value.length)).length := by
      simp [lengthDelimiterLen]
    rw [← List.drop_drop, hL, hsplit, hlen, List.drop_left]
  rw [hdrop2]
  have hkvBuf : takePad (key.length + value.length + 4)
      ((key ++ (value ++ be32 (crc32 (encodePayload ⟨key, value, rt⟩)))) ++ tail) =
      key ++ (value ++ be32 (crc32 (encodePayload ⟨key, value, rt⟩))) := by
    have hlen : (key ++ (value ++ be32 (crc32 (encodePayload ⟨key, value, rt⟩)))).length =
        key.length + value.length + 4 := by
      simp [be32_length]; omega
    rw [← hlen, takePad_self]
  rw [hkvBuf, fromU8_toU8]
  dsimp only
  have htake : (key ++ (value ++ be32 (crc32 (encodePayload ⟨key, value, rt⟩)))).take
      key.length = key := List.take_left _ _
  have hdropk : (key ++ (value ++ be32 (crc32 (encodePayload ⟨key, value, rt⟩)))).drop
      key.length = value ++ be32 (crc32 (encodePayload ⟨key, value, rt⟩)) :=
    List.drop_left _ _
  have htakev : ((key ++ (value ++ be32 (crc32 (encodePayload ⟨key, value, rt⟩)))).drop
      key.length).take value.length = value := by
    rw [hdropk]; exact List.take_left _ _
  have hdropkv : (key ++ (value ++ be32 (crc32 (encodePayload ⟨key, value, rt⟩)))).drop
      (key.length + value.length) = be32 (crc32 (encodePayload ⟨key, value, rt⟩)) := by
    have hassoc : key ++ (value ++ be32 (crc32 (encodePayload ⟨key, value, rt⟩))) =
        (key ++ value) ++ be32 (crc32 (encodePayload ⟨key, value, rt⟩)) := by
      simp [List.append_assoc]
    rw [hassoc, ← List.length_append, List.drop_left]
  rw [htake, htakev, hdropkv]
  have hcrc : readBE32 (be32 (crc32 (encodePayload ⟨key, value, rt⟩))) =
      LogRecord.getCrc ⟨key, value, rt⟩ := by
    rw [readBE32_be32 _ (crc32_lt _ (encodePayload_lt_256 _ hkb hvb))]
    rfl
  rw [if_neg (by rw [hcrc]; simp)]
  have hsz : lengthDelimiterLen key.length + lengthDelimiterLen value.length + 1 +
      key.length + value.length + 4 =
      (LogRecord.encode ⟨key, value, rt⟩).length := by
    simp [LogRecord.encode, encodePayload, lengthDelimiterLen, be32_length]
    omega
  rw [hsz]

/-- C5: encoding a record with nonempty key produces the layout
1-byte type, varint key length, varint value length, key bytes, value
bytes, 4-byte big-endian CRC32 over all preceding bytes; and
`read_log_record` on a file containing that encoding at the given offset
returns the same record with reported size equal to the encoded length. -/
theorem c5_record_codec_roundtrip (r : LogRecord) (file : List Nat) (offset : Nat)
    (hkey : r.key ≠ [])
    (hkb : ∀ b ∈ r.key, b < 256) (hvb : ∀ b ∈ r.value, b < 256)
    (hkl : r.key.length < 2 ^ 35) (hvl : r.value.length < 2 ^ 35)
    (hat : ∃ tail, file.drop offset = r.encode ++ tail) :
    r.encode = (r.recType.toU8 ::
        (encodeVarint r.key.length ++ encodeVarint r.value.length ++ r.key ++ r.value)) ++
      be32 (crc32 (r.recType.toU8 ::
        (encodeVarint r.key.length ++ encodeVarint r.value.length ++ r.key ++ r.value))) ∧
    readLogRecord file offset = some (.ok (r, r.encode.length)) := by
  obtain ⟨tail, hdrop⟩ := hat
  constructor
  · simp [LogRecord.encode, encodePayload, List.append_assoc]
  · exact readLogRecord_at r file offset tail hdrop
      (fun ⟨h0, _⟩ => hkey (List.length_eq_zero.mp h0)) hkb hvb hkl hvl

/-- Witness for C5 at a concrete one-byte key and value. -/
theorem c5_record_codec_roundtrip_witness :
    readLogRecord (LogRecord.encode ⟨[107], [118], .normal⟩) 0 =
      some (.ok (⟨[107], [118], .normal⟩,
        (LogRecord.encode ⟨[107], [118], .normal⟩).length)) :=
  (c5_record_codec_roundtrip ⟨[107], [118], .normal⟩ _ 0 (by decide) (by decide)
    (by decide) (by decide) (by decide) ⟨[], by simp⟩).2

/-! ## Association maps

The source uses `BTreeMap`/`HashMap` containers (the in-memory index, the
old-files map, the pending-transactions buffer). All are finite maps
observed through lookup; they are realized here as association lists with
replace-or-append insertion. -/

/-- Map lookup. -/
def assocGet {ν : Type} {κ : Type} [DecidableEq κ] (l : List (κ × ν)) (k : κ) :
    Option ν :=
  (l.find? (fun e => decide (e.1 = k))).map (·.2)

/-- Map insertion (replace an existing binding or append a new one). -/
def assocInsert {ν : Type} {κ : Type} [DecidableEq κ] (l : List (κ × ν)) (k : κ)
    (v : ν) : List (κ × ν) :=
  match assocGet l k with
  | none => l ++ [(k, v)]
  | some _ => l.map (fun e => if e.1 = k then (k, v) else e)

/-- Map removal. -/
def assocErase {ν : Type} {κ : Type} [DecidableEq κ] (l : List (κ × ν)) (k : κ) :
    List (κ × ν) :=
  l.filter (fun e => decide (e.1 ≠ k))

theorem assocGet_nil {ν κ : Type} [DecidableEq κ] (k : κ) :
    assocGet ([] : List (κ × ν)) k = none := rfl

theorem assocGet_cons {ν κ : Type} [DecidableEq κ] (e : κ × ν) (l : List (κ × ν))
    (k : κ) : assocGet (e :: l) k = if e.1 = k then some e.2 else assocGet l k := by
  unfold assocGet
  by_cases h : e.1 = k
  · rw [List.find?_cons_of_pos _ (by simpa using h), if_pos h]
    rfl
  · rw [List.find?_cons_of_neg _ (by simpa using h), if_neg h]

theorem assocGet_append_single_self {ν κ : Type} [DecidableEq κ]
    (l : List (κ × ν)) (k : κ) (v : ν) (hg : assocGet l k = none) :
    assocGet (l ++ [(k, v)]) k = some v := by
  induction l with
  | nil => rw [List.nil_append, assocGet_cons, if_pos rfl]
  | cons e l ih =>
    rw [assocGet_cons] at hg
    by_cases he : e.1 = k
    · rw [if_pos he] at hg; exact absurd hg (by simp)
    · rw [if_neg he] at hg
      rw [List.cons_append, assocGet_cons, if_neg he]
      exact ih hg

theorem assocGet_append_single_other {ν κ : Type} [DecidableEq κ]
    (l : List (κ × ν)) (k k' : κ) (v : ν) (h : k' ≠ k) :
    assocGet (l ++ [(k, v)]) k' = assocGet l k' := by
  induction l with
  | nil =>
    rw [List.nil_append, assocGet_cons, if_neg (fun hh => h hh.symm)]
  | cons e l ih =>
    rw [List.cons_append, assocGet_cons, assocGet_cons]
    by_cases he' : e.1 = k'
    · rw [if_pos he', if_pos he']
    · rw [if_neg he', if_neg he']
      exact ih

theorem assocGet_map_replace_self {ν κ : Type} [DecidableEq κ]
    (l : List (κ × ν)) (k : κ) (v : ν) (old : ν) (hg : assocGet l k = some old) :
    assocGet (l.map (fun e => if e.1 = k then (k, v) else e)) k = some v := by
  induction l with
  | nil => exact absurd hg (by simp [assocGet])
  | cons e l ih =>
    rw [assocGet_cons] at hg
    rw [List.map_cons, assocGet_cons]
    by_cases he : e.1 = k
    · rw [if_pos he, if_pos rfl]
    · rw [if_neg he] at hg
      rw [if_neg he, if_neg he]
      exact ih hg

theorem assocGet_map_replace_other {ν κ : Type} [DecidableEq κ]
    (l : List (κ × ν)) (k k' : κ) (v : ν) (h : k' ≠ k) :
    assocGet (l.map (fun e => if e.1 = k then (k, v) else e)) k' = assocGet l k' := by
  induction l with
  | nil => rfl
  | cons e l ih =>
    rw [List.map_cons, assocGet_cons, assocGet_cons]
    by_cases he : e.1 = k
    · have he' : ¬ e.1 = k' := by rw [he]; exact fun hh => h hh.symm
      rw [if_pos he, if_neg (fun hh => h hh.symm), if_neg he']
      exact ih
    · rw [if_neg he]
      by_cases he' : e.1 = k'
      · rw [if_pos he', if_pos he']
      · rw [if_neg he', if_neg he']
        exact ih

theorem assocGet_insert_self {ν κ : Type} [DecidableEq κ] (l : List (κ × ν))
    (k : κ) (v : ν) : assocGet (assocInsert l k v) k = some v := by
  unfold assocInsert
  cases hg : assocGet l k with
  | none => exact assocGet_append_single_self l k v hg
  | some old => exact assocGet_map_replace_self l k v old hg

theorem assocGet_insert_other {ν κ : Type} [DecidableEq κ] (l : List (κ × ν))
    (k k' : κ) (v : ν) (h : k' ≠ k) :
    assocGet (assocInsert l k v) k' = assocGet l k' := by
  unfold assocInsert
  cases assocGet l k with
  | none => exact assocGet_append_single_other l k k' v h
  | some old => exact assocGet_map_replace_other l k k' v h

theorem assocGet_erase_self {ν κ : Type} [DecidableEq κ] (l : List (κ × ν))
    (k : κ) : assocGet (assocErase l k) k = none := by
  unfold assocErase
  induction l with
  | nil => rfl
  | cons e l ih =>
    rw [List.filter_cons]
    by_cases he : e.1 = k
    · rw [if_neg (by simp [he])]
      exact ih
    · rw [if_pos (by simp [he]), assocGet_cons, if_neg he]
      exact ih

theorem assocGet_erase_other {ν κ : Type} [DecidableEq κ] (l : List (κ × ν))
    (k k' : κ) (h : k' ≠ k) :
    assocGet (assocErase l k) k' = assocGet l k' := by
  unfold assocErase
  induction l with
  | nil => rfl
  | cons e l ih =>
    rw [List.filter_cons]
    by_cases he : e.1 = k
    · have he' : ¬ e.1 = k' := by rw [he]; exact fun hh => h hh.symm
      rw [if_neg (by simp [he]), assocGet_cons, if_neg he']
      exact ih
    · rw [if_pos (by simp [he]), assocGet_cons, assocGet_cons]
      by_cases he' : e.1 = k'
      · rw [if_pos he', if_pos he']
      · rw [if_neg he', if_neg he']
        exact ih

/-! ## In-memory index (`src/index/mod.rs`)

Modelled from the spec §4.D for the concrete map behaviour: the index
implementations (`btree.rs`, `skiplist.rs`, `bptree.rs`) are not among the
provided sources; the `Indexer` trait in `src/index/mod.rs` specifies a
finite map from byte keys to positions where `put` and `delete` return the
previous position. -/

abbrev Index := List (List Nat × LogRecordPos)

/-- `Indexer::get`. -/
def idxGet (idx : Index) (k : List Nat) : Option LogRecordPos := assocGet idx k

/-- `Indexer::put`: store `k ↦ p`, returning the previous position. -/
def idxPut (idx : Index) (k : List Nat) (p : LogRecordPos) :
    Index × Option LogRecordPos :=
  (assocInsert idx k p, assocGet idx k)

/-- `Indexer::delete`: remove `k`, returning the previous position. -/
def idxDelete (idx : Index) (k : List Nat) : Index × Option LogRecordPos :=
  (assocErase idx k, assocGet idx k)

theorem idxGet_put_self (idx : Index) (k : List Nat) (p : LogRecordPos) :
    idxGet (idxPut idx k p).1 k = some p := assocGet_insert_self idx k p

theorem idxGet_put_other (idx : Index) (k k' : List Nat) (p : LogRecordPos)
    (h : k' ≠ k) : idxGet (idxPut idx k p).1 k' = idxGet idx k' :=
  assocGet_insert_other idx k k' p h

theorem idxGet_delete_self (idx : Index) (k : List Nat) :
    idxGet (idxDelete idx k).1 k = none := assocGet_erase_self idx k

theorem idxGet_delete_other (idx : Index) (k k' : List Nat) (h : k' ≠ k) :
    idxGet (idxDelete idx k).1 k' = idxGet idx k' :=
  assocGet_erase_other idx k k' h

/-! ## Transaction key prefix (`src/batch.rs`) -/

/-- `NON_TXN_SEQ_NO`: sequence number 0 marks non-transactional records. -/
def NON_TXN_SEQ_NO : Nat := 0

/-- `TXN_FIN_KEY`: the bytes of "txn-fin". -/
def TXN_FIN_KEY : List Nat := [116, 120, 110, 45, 102, 105, 110]

/-- `log_record_key_with_seq`: prepend the varint sequence number. -/
def logRecordKeyWithSeq (key : List Nat) (seqNo : Nat) : List Nat :=
  encodeVarint seqNo ++ key

/-- `parse_log_record_key`: split a stored key into (real key, seq_no);
the source unwraps the varint decode, so a malformed prefix panics
(`none`). -/
def parseLogRecordKey (key : List Nat) : Option (List Nat × Nat) :=
  match decodeVarint key with
  | none => none
  | some (seqNo, rest) => some (rest, seqNo)

theorem parseLogRecordKey_withSeq (key : List Nat) (seqNo : Nat) :
    parseLogRecordKey (logRecordKeyWithSeq key seqNo) = some (key, seqNo) := by
  unfold parseLogRecordKey logRecordKeyWithSeq
  rw [decodeVarint_encodeVarint]

/-! ## Data files and the engine (`src/data/data_file.rs`, `src/db.rs`)

A `DataFile` models one on-disk segment: its id, the bytes on disk, the
in-memory `write_off` counter, and whether all written bytes have been
synced to durable storage. -/

structure DataFile where
  fileId : Nat
  content : List Nat
  writeOff : Nat
  synced : Bool
  deriving DecidableEq, Repr

/-- `DataFile::new` for a fresh file (create or open-empty). -/
def DataFile.new (fileId : Nat) : DataFile := ⟨fileId, [], 0, true⟩

/-- `DataFile::write`: append bytes and advance `write_off`. -/
def DataFile.write (f : DataFile) (buf : List Nat) : DataFile :=
  { f with
    content := f.content ++ buf
    writeOff := f.writeOff + buf.length
    synced := false }

/-- `DataFile::sync`. -/
def DataFile.sync (f : DataFile) : DataFile := { f with synced := true }

structure EngineOptions where
  dataFileSize : Nat
  syncWrites : Bool
  bytesPerSync : Nat
  deriving DecidableEq, Repr

/-- The engine state relevant to the modelled operations (`struct Engine`).
The directory lock, io-manager type and B+tree-only fields are omitted. -/
structure EngineState where
  active : DataFile
  oldFiles : List (Nat × DataFile)
  index : Index
  seqNo : Nat
  bytesWrite : Nat
  reclaimSize : Nat
  options : EngineOptions
  deriving DecidableEq, Repr

/-- Lookup in the old-files map (`HashMap<u32, DataFile>::get`). -/
def oldLookup (olds : List (Nat × DataFile)) (fid : Nat) : Option DataFile :=
  assocGet olds fid

/-- Insert into the old-files map (`HashMap::insert`). -/
def oldInsert (olds : List (Nat × DataFile)) (fid : Nat) (f : DataFile) :
    List (Nat × DataFile) :=
  assocInsert olds fid f

theorem oldLookup_insert_self (olds : List (Nat × DataFile)) (fid : Nat)
    (f : DataFile) : oldLookup (oldInsert olds fid f) fid = some f :=
  assocGet_insert_self olds fid f

theorem oldLookup_insert_other (olds : List (Nat × DataFile)) (fid fid' : Nat)
    (f : DataFile) (h : fid' ≠ fid) :
    oldLookup (oldInsert olds fid f) fid' = oldLookup olds fid' :=
  assocGet_insert_other olds fid fid' f h

/-- `Engine::append_log_record` (`src/db.rs` lines 481–536): rotate the
active segment when the encoded record would overflow `data_file_size`,
append, maintain the `bytes_write` counter and sync policy, and return the
position of the appended record. -/
def appendLogRecord (st : EngineState) (r : LogRecord) :
    EngineState × LogRecordPos :=
  let encRecord := r.encode
  let recordLen := encRecord.length
  let st1 :=
    if st.active.writeOff + recordLen > st.options.dataFileSize then
      let syncedActive := st.active.sync
      let currentFid := syncedActive.fileId
      { st with
        active := DataFile.new (currentFid + 1),
        oldFiles := oldInsert st.oldFiles currentFid
          ⟨currentFid, syncedActive.content, 0, true⟩ }
    else st
  let writeOff := st1.active.writeOff
  let written := st1.active.write encRecord
  let previous := st1.bytesWrite
  let needSync : Bool := st1.options.syncWrites ||
    (decide (0 < st1.options.bytesPerSync) &&
     decide (st1.options.bytesPerSync ≤ previous + recordLen))
  let active2 := if needSync then written.sync else written
  ({ st1 with
      active := active2
      bytesWrite := if needSync then 0 else previous + recordLen },
   { fileId := active2.fileId, offset := writeOff, size := recordLen })

/-- `Engine::put` (`src/db.rs` lines 342–365). -/
def Engine.put (st : EngineState) (key value : List Nat) :
    Except Errors EngineState :=
  if key = [] then .error .KeyIsEmpty
  else
    let record : LogRecord :=
      { key := logRecordKeyWithSeq key NON_TXN_SEQ_NO,
        value := value, recType := .normal }
    let ap := appendLogRecord st record
    match idxPut ap.1.index key ap.2 with
    | (idx, some oldPos) =>
        .ok { ap.1 with
              index := idx
              reclaimSize := ap.1.reclaimSize + oldPos.size }
    | (idx, none) => .ok { ap.1 with index := idx }

/-- `Engine::delete` (`src/db.rs` lines 383–415). -/
def Engine.delete (st : EngineState) (key : List Nat) :
    Except Errors EngineState :=
  if key = [] then .error .KeyIsEmpty
  else match idxGet st.index key with
  | none => .ok st
  | some _ =>
    let record : LogRecord :=
      { key := logRecordKeyWithSeq key NON_TXN_SEQ_NO,
        value := [], recType := .deleted }
    let ap := appendLogRecord st record
    let st2 := { ap.1 with reclaimSize := ap.1.reclaimSize + ap.2.size }
    match idxDelete st2.index key with
    | (idx, some oldPos) =>
        .ok { st2 with
              index := idx
              reclaimSize := st2.reclaimSize + oldPos.size }
    | (idx, none) => .ok { st2 with index := idx }

/-- `Engine::get_value_by_position` (`src/db.rs` lines 452–478). -/
def Engine.getValueByPosition (st : EngineState) (pos : LogRecordPos) :
    Option (Except Errors (List Nat)) :=
  let readRes :=
    if st.active.fileId = pos.fileId then
      readLogRecord st.active.content pos.offset
    else match oldLookup st.oldFiles pos.fileId with
      | none => some (.error .DataFileNotFound)
      | some f => readLogRecord f.content pos.offset
  match readRes with
  | none => none
  | some (.error e) => some (.error e)
  | some (.ok (record, _)) =>
    if record.recType = .deleted then some (.error .KeyNotFound)
    else some (.ok record.value)

/-- `Engine::get` (`src/db.rs` lines 433–449). -/
def Engine.get (st : EngineState) (key : List Nat) :
    Option (Except Errors (List Nat)) :=
  if key = [] then some (.error .KeyIsEmpty)
  else match idxGet st.index key with
    | none => some (.error .KeyNotFound)
    | some pos => Engine.getValueByPosition st pos

/-! ### Append-path lemmas -/

theorem iteSync_content (b : Bool) (f : DataFile) :
    (if b = true then f.sync else f).content = f.content := by
  cases b <;> rfl

theorem iteSync_fileId (b : Bool) (f : DataFile) :
    (if b = true then f.sync else f).fileId = f.fileId := by
  cases b <;> rfl

theorem iteSync_writeOff (b : Bool) (f : DataFile) :
    (if b = true then f.sync else f).writeOff = f.writeOff := by
  cases b <;> rfl

/-- The rotated-or-unchanged state the append path continues with. -/
def rotatedState (st : EngineState) (r : LogRecord) : EngineState :=
  if st.active.writeOff + r.encode.length > st.options.dataFileSize then
    { st with
      active := DataFile.new (st.active.sync.fileId + 1),
      oldFiles := oldInsert st.oldFiles st.active.sync.fileId
        ⟨st.active.sync.fileId, st.active.sync.content, 0, true⟩ }
  else st

theorem appendLogRecord_as_rotated (st : EngineState) (r : LogRecord) :
    appendLogRecord st r =
      (let st1 := rotatedState st r
       let written := st1.active.write r.encode
       let needSync : Bool := st1.options.syncWrites ||
         (decide (0 < st1.options.bytesPerSync) &&
          decide (st1.options.bytesPerSync ≤ st1.bytesWrite + r.encode.length))
       ({ st1 with
          active := if needSync then written.sync else written
          bytesWrite := if needSync then 0 else st1.bytesWrite + r.encode.length },
        { fileId := (if needSync then written.sync else written).fileId
          offset := st1.active.writeOff, size := r.encode.length })) := by
  unfold appendLogRecord rotatedState
  dsimp only

theorem appendLogRecord_pos_fileId (st : EngineState) (r : LogRecord) :
    (appendLogRecord st r).2.fileId = (appendLogRecord st r).1.active.fileId := by
  rw [appendLogRecord_as_rotated]

theorem appendLogRecord_pos_size (st : EngineState) (r : LogRecord) :
    (appendLogRecord st r).2.size = r.encode.length := by
  rw [appendLogRecord_as_rotated]

theorem appendLogRecord_index (st : EngineState) (r : LogRecord) :
    (appendLogRecord st r).1.index = st.index := by
  rw [appendLogRecord_as_rotated]
  dsimp only
  unfold rotatedState
  by_cases hrot : st.active.writeOff + r.encode.length > st.options.dataFileSize
  · rw [if_pos hrot]
  · rw [if_neg hrot]

theorem appendLogRecord_oldFiles (st : EngineState) (r : LogRecord) :
    (appendLogRecord st r).1.oldFiles = (rotatedState st r).oldFiles := by
  rw [appendLogRecord_as_rotated]

theorem rotatedState_writeOff_inv (st : EngineState) (r : LogRecord)
    (hwo : st.active.writeOff = st.active.content.length) :
    (rotatedState st r).active.writeOff = (rotatedState st r).active.content.length := by
  unfold rotatedState
  by_cases hrot : st.active.writeOff + r.encode.length > st.options.dataFileSize
  · rw [if_pos hrot]
    rfl
  · rw [if_neg hrot]; exact hwo

theorem appendLogRecord_content (st : EngineState) (r : LogRecord) :
    (appendLogRecord st r).1.active.content =
      (rotatedState st r).active.content ++ r.encode := by
  rw [appendLogRecord_as_rotated]
  dsimp only
  rw [iteSync_content]
  rfl

theorem appendLogRecord_offset (st : EngineState) (r : LogRecord) :
    (appendLogRecord st r).2.offset = (rotatedState st r).active.writeOff := by
  rw [appendLogRecord_as_rotated]

theorem appendLogRecord_writeOff_inv (st : EngineState) (r : LogRecord)
    (hwo : st.active.writeOff = st.active.content.length) :
    (appendLogRecord st r).1.active.writeOff =
      (appendLogRecord st r).1.active.content.length := by
  rw [appendLogRecord_as_rotated]
  dsimp only
  rw [iteSync_content, iteSync_writeOff]
  show ((rotatedState st r).active.write r.encode).writeOff = _
  unfold DataFile.write
  dsimp only
  rw [rotatedState_writeOff_inv st r hwo, List.length_append]

/-- The new record starts exactly at the returned offset of the grown
active segment. -/
theorem appendLogRecord_drop (st : EngineState) (r : LogRecord)
    (hwo : st.active.writeOff = st.active.content.length) :
    (appendLogRecord st r).1.active.content.drop (appendLogRecord st r).2.offset =
      r.encode := by
  rw [appendLogRecord_content, appendLogRecord_offset,
    rotatedState_writeOff_inv st r hwo, List.drop_left]

/-- C6: on every append, if the active segment's `write_off` plus the
encoded record length exceeds `data_file_size`, the active segment is
synced and moved into the old-files map under its id and a new active
segment with id+1 is created before appending; the returned position has
offset equal to the active segment's `write_off` before the append (0 when
a rotation just occurred) and size equal to the encoded length. -/
theorem c6_append_rotation_position (st : EngineState) (r : LogRecord) :
    (appendLogRecord st r).2.size = r.encode.length ∧
    (if st.active.writeOff + r.encode.length > st.options.dataFileSize then
      (appendLogRecord st r).1.active.fileId = st.active.fileId + 1 ∧
      oldLookup (appendLogRecord st r).1.oldFiles st.active.fileId =
        some ⟨st.active.fileId, st.active.content, 0, true⟩ ∧
      (appendLogRecord st r).2.offset = 0
    else
      (appendLogRecord st r).1.active.fileId = st.active.fileId ∧
      (appendLogRecord st r).2.offset = st.active.writeOff) := by
  refine ⟨appendLogRecord_pos_size st r, ?_⟩
  by_cases hrot : st.active.writeOff + r.encode.length > st.options.dataFileSize
  · rw [if_pos hrot]
    refine ⟨?_, ?_, ?_⟩
    · rw [← appendLogRecord_pos_fileId, appendLogRecord_as_rotated]
      dsimp only
      rw [iteSync_fileId]
      unfold rotatedState
      rw [if_pos hrot]
      rfl
    · rw [appendLogRecord_oldFiles]
      unfold rotatedState
      rw [if_pos hrot]
      exact oldLookup_insert_self _ _ _
    · rw [appendLogRecord_offset]
      unfold rotatedState
      rw [if_pos hrot]
      rfl
  · rw [if_neg hrot]
    constructor
    · rw [← appendLogRecord_pos_fileId, appendLogRecord_as_rotated]
      dsimp only
      rw [iteSync_fileId]
      unfold rotatedState
      rw [if_neg hrot]
      rfl
    · rw [appendLogRecord_offset]
      unfold rotatedState
      rw [if_neg hrot]

/-- A `get` that hits the index and reads a non-deleted record from the
active segment returns that record's value. -/
theorem engineGet_of_read (st : EngineState) (key : List Nat)
    (pos : LogRecordPos) (r : LogRecord) (n : Nat)
    (hkey : key ≠ [])
    (hidx : idxGet st.index key = some pos)
    (hfid : st.active.fileId = pos.fileId)
    (hread : readLogRecord st.active.content pos.offset = some (.ok (r, n)))
    (hnd : r.recType ≠ .deleted) :
    Engine.get st key = some (.ok r.value) := by
  unfold Engine.get
  rw [if_neg hkey, hidx]
  dsimp only
  unfold Engine.getValueByPosition
  rw [if_pos hfid, hread]
  dsimp only
  rw [if_neg hnd]

/-- C4: for every nonempty byte key and byte value, `put` followed by
`get` on the same engine returns the value. -/
theorem c4_put_then_get (st : EngineState) (key value : List Nat)
    (hkey : key ≠ [])
    (hkb : ∀ b ∈ key, b < 256) (hvb : ∀ b ∈ value, b < 256)
    (hkl : key.length + 1 < 2 ^ 35) (hvl : value.length < 2 ^ 35)
    (hwo : st.active.writeOff = st.active.content.length) :
    ∃ st', Engine.put st key value = .ok st' ∧
      Engine.get st' key = some (.ok value) := by
  have hread : readLogRecord
      (appendLogRecord st
        ⟨logRecordKeyWithSeq key NON_TXN_SEQ_NO, value, .normal⟩).1.active.content
      (appendLogRecord st
        ⟨logRecordKeyWithSeq key NON_TXN_SEQ_NO, value, .normal⟩).2.offset =
      some (.ok (⟨logRecordKeyWithSeq key NON_TXN_SEQ_NO, value, .normal⟩,
        (LogRecord.encode
          ⟨logRecordKeyWithSeq key NON_TXN_SEQ_NO, value, .normal⟩).length)) := by
    apply readLogRecord_at _ _ _ []
    · rw [List.append_nil]
      exact appendLogRecord_drop st _ hwo
    · intro hh
      obtain ⟨h0, _⟩ := hh
      simp only [logRecordKeyWithSeq, NON_TXN_SEQ_NO, List.length_append] at h0
      have := encodeVarint_ne_nil 0
      have : (encodeVarint 0).length ≠ 0 := fun hc => this (List.length_eq_zero.mp hc)
      omega
    · intro b hb
      simp only [logRecordKeyWithSeq, NON_TXN_SEQ_NO, List.mem_append] at hb
      rcases hb with hb | hb
      · exact encodeVarint_lt_256 0 b hb
      · exact hkb b hb
    · exact hvb
    · show (logRecordKeyWithSeq key NON_TXN_SEQ_NO).length < 2 ^ 35
      have h0 : logRecordKeyWithSeq key NON_TXN_SEQ_NO = [0] ++ key := rfl
      rw [h0]
      simpa using hkl
    · exact hvl
  unfold Engine.put
  rw [if_neg hkey]
  dsimp only
  unfold idxPut
  cases hold : assocGet (appendLogRecord st
      ⟨logRecordKeyWithSeq key NON_TXN_SEQ_NO, value, .normal⟩).1.index key with
  | none =>
    refine ⟨_, rfl, ?_⟩
    refine engineGet_of_read _ key
      (appendLogRecord st
        ⟨logRecordKeyWithSeq key NON_TXN_SEQ_NO, value, .normal⟩).2
      ⟨logRecordKeyWithSeq key NON_TXN_SEQ_NO, value, .normal⟩
      (LogRecord.encode
        ⟨logRecordKeyWithSeq key NON_TXN_SEQ_NO, value, .normal⟩).length
      hkey ?_ ?_ ?_ (by simp)
    · show idxGet (assocInsert _ key _) key = some _
      exact assocGet_insert_self _ _ _
    · exact (appendLogRecord_pos_fileId st _).symm
    · exact hread
  | some oldPos =>
    refine ⟨_, rfl, ?_⟩
    refine engineGet_of_read _ key
      (appendLogRecord st
        ⟨logRecordKeyWithSeq key NON_TXN_SEQ_NO, value, .normal⟩).2
      ⟨logRecordKeyWithSeq key NON_TXN_SEQ_NO, value, .normal⟩
      (LogRecord.encode
        ⟨logRecordKeyWithSeq key NON_TXN_SEQ_NO, value, .normal⟩).length
      hkey ?_ ?_ ?_ (by simp)
    · show idxGet (assocInsert _ key _) key = some _
      exact assocGet_insert_self _ _ _
    · exact (appendLogRecord_pos_fileId st _).symm
    · exact hread

/-- Witness for C4 on a fresh engine at a concrete key and value. -/
theorem c4_put_then_get_witness :
    ∃ st', Engine.put
        { active := DataFile.new 0, oldFiles := [], index := [], seqNo := 1,
          bytesWrite := 0, reclaimSize := 0,
          options := { dataFileSize := 256, syncWrites := false, bytesPerSync := 0 } }
        [104] [119] = .ok st' ∧
      Engine.get st' [104] = some (.ok [119]) :=
  c4_put_then_get _ [104] [119] (by decide) (by decide) (by decide) (by decide)
    (by decide) (by decide)

/-! ## Write batches (`src/batch.rs`) -/

abbrev PendingWrites := List (List Nat × LogRecord)

/-- `WriteBatch::put`: buffer a normal record under the raw key. -/
def WriteBatch.put (pending : PendingWrites) (key value : List Nat) :
    Except Errors PendingWrites :=
  if key = [] then .error .KeyIsEmpty
  else .ok (assocInsert pending key ⟨key, value, .normal⟩)

/-- `WriteBatch::delete` (`src/batch.rs` lines 64–87): when the key is
absent from the engine index, drop any pending write for it and return Ok
without staging a tombstone; otherwise buffer a `Deleted` record. -/
def WriteBatch.delete (engineIndex : Index) (pending : PendingWrites)
    (key : List Nat) : Except Errors PendingWrites :=
  if key = [] then .error .KeyIsEmpty
  else match idxGet engineIndex key with
    | none =>
        if (assocGet pending key).isSome then .ok (assocErase pending key)
        else .ok pending
    | some _ => .ok (assocInsert pending key ⟨key, [], .deleted⟩)

/-- The record `WriteBatch::commit` appends for a buffered put of
`(key, value)` under transaction `seqNo` (commit protocol step 3,
`src/batch.rs` lines 106–115). -/
def batchDataRecord (key value : List Nat) (seqNo : Nat) : LogRecord :=
  ⟨logRecordKeyWithSeq key seqNo, value, .normal⟩

/-- The `TxnFinished` marker `WriteBatch::commit` appends last
(commit protocol step 4, `src/batch.rs` lines 117–125). -/
def batchFinRecord (seqNo : Nat) : LogRecord :=
  ⟨logRecordKeyWithSeq TXN_FIN_KEY seqNo, [], .txnFinished⟩

/-- C9: deleting, through a write batch, a key that is absent from the
engine index removes any pending buffered write for that key, stages no
tombstone, and returns Ok; neither the batch nor the engine holds an entry
for the key afterwards. -/
theorem c9_batch_delete_missing_key (engineIndex : Index)
    (pending : PendingWrites) (key : List Nat)
    (hkey : key ≠ []) (hmiss : idxGet engineIndex key = none) :
    ∃ pending', WriteBatch.delete engineIndex pending key = .ok pending' ∧
      assocGet pending' key = none ∧ idxGet engineIndex key = none := by
  unfold WriteBatch.delete
  rw [if_neg hkey, hmiss]
  dsimp only
  by_cases hp : (assocGet pending key).isSome
  · rw [if_pos hp]
    exact ⟨_, rfl, assocGet_erase_self _ _, rfl⟩
  · rw [if_neg hp]
    refine ⟨_, rfl, ?_, rfl⟩
    cases hg : assocGet pending key with
    | none => rfl
    | some v => rw [hg] at hp; simp at hp

/-- Witness for C9: a pending put for key `[5]` is dropped when the engine
index does not contain `[5]`. -/
theorem c9_batch_delete_missing_key_witness :
    ∃ pending', WriteBatch.delete [] [([5], ⟨[5], [6], .normal⟩)] [5] = .ok pending' ∧
      assocGet pending' [5] = none ∧ idxGet [] [5] = none :=
  c9_batch_delete_missing_key [] [([5], ⟨[5], [6], .normal⟩)] [5]
    (by decide) (by decide)

/-! ## Read-only memory-mapped I/O backend (`src/fio/mmap.rs`) -/

/-- `MMapIO::read`: bounds-check against the mapped length, then copy. -/
def mmapRead (mapContent : List Nat) (bufLen offset : Nat) :
    Except Errors (List Nat × Nat) :=
  if offset + bufLen > mapContent.length then .error .ReadDataFileEOF
  else .ok ((mapContent.drop offset).take bufLen, bufLen)

/-- `MMapIO::write` is `unimplemented!()`: invoking it panics and aborts
the process (`none`); no error value is ever produced. -/
def mmapWrite (_buf : List Nat) : Option (Except Errors Nat) := none

/-- `MMapIO::sync` is `unimplemented!()` as well. -/
def mmapSync : Option (Except Errors Unit) := none

/-- C8 counterexample: `MMapIO::write` (here on the empty buffer) does not
return an error value at all — the call panics — so it does not fail by
returning `InvalidOperation` (no such variant exists in the §7 taxonomy). -/
theorem c8_counterexample : ¬ ∃ e : Errors, mmapWrite [] = some (.error e) := by
  intro hex
  obtain ⟨e, h⟩ := hex
  simp [mmapWrite] at h

/-- C8 amended: invoking `write` or `sync` on the read-only mmap backend
panics, aborting the process, rather than returning an error value. -/
theorem c8_mmap_write_sync_panic :
    (∀ buf, mmapWrite buf = none) ∧ mmapSync = none :=
  ⟨fun _ => rfl, rfl⟩

/-! ## Merge free-space precondition (`src/merge.rs` lines 46–49) -/

/-- The merge space check: `merge` bails out with `MergeNoEnoughSpace`
when `total_size - reclaim_size >= available_space` (`u64` arithmetic). -/
def mergeSpaceCheckFails (totalSize reclaimSize availableSpace : Nat) : Bool :=
  decide (totalSize - reclaimSize ≥ availableSpace)

/-- C7 counterexample: with `disk_size = 1`, `reclaim_size = 0` and
`available = 1`, free space equals the live bytes — the claim says the
check passes — yet the code's check fails (`1 - 0 >= 1`). -/
theorem c7_counterexample :
    ¬ (mergeSpaceCheckFails 1 0 1 = true ↔ 1 < 1 - 0) := by decide

/-- C7 amended: provided `reclaim_size ≤ disk_size`, the space check fails
exactly when available free space is less than **or equal to** the live
bytes `disk_size − reclaim_size`; it passes exactly when free space
strictly exceeds the live bytes. -/
theorem c7_space_check_iff (totalSize reclaimSize availableSpace : Nat)
    (_h : reclaimSize ≤ totalSize) :
    mergeSpaceCheckFails totalSize reclaimSize availableSpace = true ↔
      availableSpace ≤ totalSize - reclaimSize := by
  unfold mergeSpaceCheckFails
  simp

/-- Witness for the amended C7 at the boundary point. -/
theorem c7_space_check_iff_witness :
    mergeSpaceCheckFails 1 0 1 = true ↔ 1 ≤ 1 - 0 :=
  c7_space_check_iff 1 0 1 (by decide)

/-! ## Index rebuild at open (`src/db.rs` lines 540–645)

`Engine::load_index_from_data_files` iterates the records of the data
files in file order and offset order; the fold below is the body of that
loop acting on the sequence of records it reads. -/

/-- `TransactionRecord` (`src/data/log_record.rs`). -/
structure TransactionRecord where
  record : LogRecord
  pos : LogRecordPos
  deriving DecidableEq, Repr

abbrev Pending := List (Nat × List TransactionRecord)

/-- The loop state of `load_index_from_data_files`: the index and
`reclaim_size` being built, the per-transaction buffer
`transaction_records`, and the running `current_seq_no`. -/
structure ReplaySt where
  index : Index
  reclaimSize : Nat
  pending : Pending
  maxSeq : Nat
  deriving DecidableEq, Repr

def initReplaySt : ReplaySt := ⟨[], 0, [], 0⟩

/-- `Engine::update_index` (`src/db.rs` lines 674–696). -/
def updateIndexOnLoad (st : ReplaySt) (key : List Nat) (recType : LogRecordType)
    (pos : LogRecordPos) : ReplaySt :=
  if recType = .normal then
    match idxPut st.index key pos with
    | (idx, some oldPos) =>
        { st with index := idx, reclaimSize := st.reclaimSize + oldPos.size }
    | (idx, none) => { st with index := idx }
  else if recType = .deleted then
    match idxDelete st.index key with
    | (idx, some oldPos) =>
        { st with
          index := idx
          reclaimSize := st.reclaimSize + (pos.size + oldPos.size) }
    | (idx, none) =>
        { st with index := idx, reclaimSize := st.reclaimSize + pos.size }
  else st

/-- `transaction_records.entry(seq_no).or_insert_with(Vec::new).push(..)`. -/
def pendingPush (p : Pending) (seqNo : Nat) (tr : TransactionRecord) : Pending :=
  match assocGet p seqNo with
  | none => assocInsert p seqNo [tr]
  | some l => assocInsert p seqNo (l ++ [tr])

/-- `if seq_no > current_seq_no { current_seq_no = seq_no }`. -/
def bumpMax (st : ReplaySt) (seqNo : Nat) : ReplaySt :=
  if seqNo > st.maxSeq then { st with maxSeq := seqNo } else st

/-- One iteration of the recovery loop body (`src/db.rs` lines 601–636):
parse the stored key into (real key, seq_no); apply non-transactional
records to the index immediately; on `TxnFinished` flush the buffered
records of that transaction in recorded order and erase the buffer (the
source looks the buffer up with an unchecked `unwrap` — `none` models that
panic); otherwise buffer the record under its seq_no. Finally track the
maximal seq_no. -/
def replayStep (st : ReplaySt) (entry : LogRecord × LogRecordPos) :
    Option ReplaySt :=
  match parseLogRecordKey entry.1.key with
  | none => none
  | some (realKey, seqNo) =>
    if seqNo = NON_TXN_SEQ_NO then
      some (bumpMax (updateIndexOnLoad st realKey entry.1.recType entry.2) seqNo)
    else if entry.1.recType = .txnFinished then
      match assocGet st.pending seqNo with
      | none => none
      | some records =>
        let st1 := records.foldl
          (fun acc tr =>
            updateIndexOnLoad acc tr.record.key tr.record.recType tr.pos) st
        some (bumpMax { st1 with pending := assocErase st1.pending seqNo } seqNo)
    else
      some (bumpMax
        { st with
          pending := pendingPush st.pending seqNo
            ⟨⟨realKey, entry.1.value, entry.1.recType⟩, entry.2⟩ } seqNo)

/-- The recovery fold over the sequence of replayed records. -/
def replay : List (LogRecord × LogRecordPos) → ReplaySt → Option ReplaySt
  | [], st => some st
  | e :: rest, st =>
    match replayStep st e with
    | none => none
    | some st' => replay rest st'

/-- After the scan, `Engine::open` (`src/db.rs` lines 195–202) stores
`curr_seq_no + 1` when the scan saw a positive seq_no, keeping the initial
value 1 otherwise. -/
def openSeqNo (maxSeq : Nat) : Nat := if maxSeq > 0 then maxSeq + 1 else 1

/-- An index miss surfaces as `KeyNotFound` from `Engine::get`. -/
theorem engineGet_miss (st : EngineState) (key : List Nat) (hkey : key ≠ [])
    (hmiss : idxGet st.index key = none) :
    Engine.get st key = some (.error .KeyNotFound) := by
  unfold Engine.get
  rw [if_neg hkey, hmiss]

/-- C3 counterexample: replaying the single unfinished-transaction record
that a crashed `commit` of a fresh engine leaves behind (sequence number 1)
yields engine seq_no 2, not 1 as the claim states. -/
theorem c3_counterexample :
    (replay [(batchDataRecord [107] [118] 1, ⟨0, 0, 14⟩)] initReplaySt).map
      (fun st => openSeqNo st.maxSeq) ≠ some 1 := by decide

/-- C3 amended: if a write-batch commit on a fresh engine (which allocates
sequence number 1) crashes after appending a data record but before the
`TxnFinished` marker, reopen discards the record — `get` on the key
returns `KeyNotFound` — and the engine's seq_no equals 2
(the observed maximum 1, plus one). -/
theorem c3_crash_before_finish (key value : List Nat) (pos : LogRecordPos)
    (hkey : key ≠ []) :
    ∃ st, replay [(batchDataRecord key value 1, pos)] initReplaySt = some st ∧
      idxGet st.index key = none ∧
      openSeqNo st.maxSeq = 2 ∧
      ∀ est : EngineState, est.index = st.index →
        Engine.get est key = some (.error .KeyNotFound) := by
  unfold replay replayStep batchDataRecord
  dsimp only
  rw [parseLogRecordKey_withSeq]
  dsimp only
  rw [if_neg (by simp [NON_TXN_SEQ_NO]), if_neg (by simp)]
  refine ⟨_, rfl, rfl, rfl, ?_⟩
  intro est hest
  apply engineGet_miss est key hkey
  rw [hest]
  rfl

/-- Witness for the amended C3 at a concrete key and value. -/
theorem c3_crash_before_finish_witness :
    ∃ st, replay [(batchDataRecord [107] [118] 1, ⟨0, 0, 14⟩)] initReplaySt =
        some st ∧
      idxGet st.index [107] = none ∧
      openSeqNo st.maxSeq = 2 ∧
      ∀ est : EngineState, est.index = st.index →
        Engine.get est [107] = some (.error .KeyNotFound) :=
  c3_crash_before_finish [107] [118] ⟨0, 0, 14⟩ (by decide)

/-! ### Replay-state bookkeeping lemmas -/

theorem bumpMax_index (st : ReplaySt) (q : Nat) : (bumpMax st q).index = st.index := by
  unfold bumpMax
  split <;> rfl

theorem bumpMax_pending (st : ReplaySt) (q : Nat) :
    (bumpMax st q).pending = st.pending := by
  unfold bumpMax
  split <;> rfl

theorem updateIndexOnLoad_pending (st : ReplaySt) (k : List Nat)
    (t : LogRecordType) (p : LogRecordPos) :
    (updateIndexOnLoad st k t p).pending = st.pending := by
  unfold updateIndexOnLoad
  by_cases h1 : t = .normal
  · rw [if_pos h1]
    rcases hp : idxPut st.index k p with ⟨idx, o⟩
    cases o <;> rfl
  · rw [if_neg h1]
    by_cases h2 : t = .deleted
    · rw [if_pos h2]
      rcases hp : idxDelete st.index k with ⟨idx, o⟩
      cases o <;> rfl
    · rw [if_neg h2]

/-- The pure index effect of `update_index`. -/
def updIdx (idx : Index) (k : List Nat) (t : LogRecordType) (p : LogRecordPos) :
    Index :=
  if t = .normal then (idxPut idx k p).1
  else if t = .deleted then (idxDelete idx k).1
  else idx

theorem updateIndexOnLoad_index (st : ReplaySt) (k : List Nat)
    (t : LogRecordType) (p : LogRecordPos) :
    (updateIndexOnLoad st k t p).index = updIdx st.index k t p := by
  unfold updateIndexOnLoad updIdx
  by_cases h1 : t = .normal
  · rw [if_pos h1, if_pos h1]
    rcases hp : idxPut st.index k p with ⟨idx, o⟩
    cases o <;> simp [hp]
  · rw [if_neg h1, if_neg h1]
    by_cases h2 : t = .deleted
    · rw [if_pos h2, if_pos h2]
      rcases hp : idxDelete st.index k with ⟨idx, o⟩
      cases o <;> simp [hp]
    · rw [if_neg h2, if_neg h2]

theorem foldl_updateIndex_pending (l : List TransactionRecord) :
    ∀ st : ReplaySt,
      (l.foldl (fun acc tr =>
        updateIndexOnLoad acc tr.record.key tr.record.recType tr.pos) st).pending =
      st.pending := by
  induction l with
  | nil => intro st; rfl
  | cons tr l ih =>
    intro st
    rw [List.foldl_cons, ih, updateIndexOnLoad_pending]

/-- The pure index effect of flushing a buffered transaction. -/
def flushIdx (idx : Index) (l : List TransactionRecord) : Index :=
  l.foldl (fun i tr => updIdx i tr.record.key tr.record.recType tr.pos) idx

theorem foldl_updateIndex_index (l : List TransactionRecord) :
    ∀ st : ReplaySt,
      (l.foldl (fun acc tr =>
        updateIndexOnLoad acc tr.record.key tr.record.recType tr.pos) st).index =
      flushIdx st.index l := by
  induction l with
  | nil => intro st; rfl
  | cons tr l ih =>
    intro st
    rw [List.foldl_cons, ih, updateIndexOnLoad_index]
    rfl

theorem pendingPush_lookup_other (p : Pending) (q s : Nat)
    (tr : TransactionRecord) (h : s ≠ q) :
    assocGet (pendingPush p q tr) s = assocGet p s := by
  unfold pendingPush
  cases assocGet p q with
  | none => exact assocGet_insert_other _ _ _ _ h
  | some l => exact assocGet_insert_other _ _ _ _ h

theorem pendingPush_lookup_self (p : Pending) (q : Nat) (tr : TransactionRecord) :
    assocGet (pendingPush p q tr) q =
      some ((assocGet p q).getD [] ++ [tr]) := by
  unfold pendingPush
  cases hg : assocGet p q with
  | none =>
    rw [assocGet_insert_self]
    rfl
  | some l =>
    rw [assocGet_insert_self]
    rfl

/-- Where a pending buffer entry can come from in one replay step: it was
already pending, or this very record is a buffered (non-finish) record of
the same transaction. -/
theorem replayStep_pending_source (st0 st1 : ReplaySt)
    (e : LogRecord × LogRecordPos) (h : replayStep st0 e = some st1) (s : Nat)
    (hne : assocGet st1.pending s ≠ none) :
    assocGet st0.pending s ≠ none ∨
    ((parseLogRecordKey e.1.key).map (fun q => q.2) = some s ∧
      e.1.recType ≠ .txnFinished) := by
  unfold replayStep at h
  cases hp : parseLogRecordKey e.1.key with
  | none => rw [hp] at h; cases h
  | some rq =>
    obtain ⟨realKey, seqNo⟩ := rq
    rw [hp] at h
    dsimp only at h
    by_cases h0 : seqNo = NON_TXN_SEQ_NO
    · rw [if_pos h0] at h
      injection h with h
      left
      rw [← h, bumpMax_pending, updateIndexOnLoad_pending] at hne
      exact hne
    · rw [if_neg h0] at h
      by_cases hfin : e.1.recType = .txnFinished
      · rw [if_pos hfin] at h
        cases hg : assocGet st0.pending seqNo with
        | none => rw [hg] at h; cases h
        | some records =>
          rw [hg] at h
          dsimp only at h
          injection h with h
          rw [← h, bumpMax_pending] at hne
          dsimp only at hne
          rw [foldl_updateIndex_pending] at hne
          by_cases hsq : s = seqNo
          · rw [hsq, assocGet_erase_self] at hne
            exact absurd rfl hne
          · rw [assocGet_erase_other _ _ _ hsq] at hne
            exact Or.inl hne
      · rw [if_neg hfin] at h
        injection h with h
        rw [← h, bumpMax_pending] at hne
        dsimp only at hne
        by_cases hsq : s = seqNo
        · right
          refine ⟨?_, hfin⟩
          simp [hsq]
        · rw [pendingPush_lookup_other _ _ _ _ hsq] at hne
          exact Or.inl hne

/-- `replay` over a concatenation runs the pieces in order. -/
theorem replay_append (xs ys : List (LogRecord × LogRecordPos)) :
    ∀ st, replay (xs ++ ys) st =
      (replay xs st).bind (fun st' => replay ys st') := by
  induction xs with
  | nil => intro st; rfl
  | cons e xs ih =>
    intro st
    have hL : replay ((e :: xs) ++ ys) st =
        (match replayStep st e with
          | none => none
          | some st' => replay (xs ++ ys) st') := rfl
    have hR : replay (e :: xs) st =
        (match replayStep st e with
          | none => none
          | some st' => replay xs st') := rfl
    rw [hL, hR]
    cases replayStep st e with
    | none => rfl
    | some st1 =>
      dsimp only
      exact ih st1

/-- A nonempty pending buffer for `s` after a successful replay traces
back to the initial state or to some buffered record of `s` in the list. -/
theorem replay_pending_source (L : List (LogRecord × LogRecordPos)) :
    ∀ (st0 st : ReplaySt), replay L st0 = some st →
    ∀ s, assocGet st.pending s ≠ none →
      assocGet st0.pending s ≠ none ∨
      ∃ e ∈ L, (parseLogRecordKey e.1.key).map (fun q => q.2) = some s ∧
        e.1.recType ≠ .txnFinished := by
  induction L with
  | nil =>
    intro st0 st h s hne
    unfold replay at h
    injection h with h
    left
    rw [h]
    exact hne
  | cons e L ih =>
    intro st0 st h s hne
    unfold replay at h
    cases hstep : replayStep st0 e with
    | none => rw [hstep] at h; cases h
    | some st1 =>
      rw [hstep] at h
      dsimp only at h
      rcases ih st1 st h s hne with h1 | h2
      · rcases replayStep_pending_source st0 st1 e hstep s h1 with h2 | h2
        · exact Or.inl h2
        · exact Or.inr ⟨e, List.mem_cons_self _ _, h2⟩
      · obtain ⟨e', he', hs⟩ := h2
        exact Or.inr ⟨e', List.mem_cons_of_mem _ he', hs⟩

/-- A `TxnFinished` hitting an empty buffer makes the recovery loop panic
(`transaction_records.get(&seq_no).unwrap()` on `None`). -/
theorem replayStep_fin_no_buffer (st : ReplaySt) (s : Nat) (pos : LogRecordPos)
    (hs : s ≠ 0) (hnone : assocGet st.pending s = none) :
    replayStep st (batchFinRecord s, pos) = none := by
  unfold replayStep batchFinRecord
  dsimp only
  rw [parseLogRecordKey_withSeq]
  dsimp only
  rw [if_neg (by simpa [NON_TXN_SEQ_NO] using hs), if_pos rfl, hnone]

/-- C10: a `TxnFinished` record with nonzero seq_no that is replayed
successfully must be preceded, in replay order, by a buffered record of
the same transaction; and replaying a `TxnFinished` whose transaction has
no buffered records makes open panic (the recovery loop's unchecked
`unwrap`) rather than return an error. -/
theorem c10_txnfin_panics_without_buffer :
    (∀ (A B : List (LogRecord × LogRecordPos)) (s : Nat) (pos : LogRecordPos)
        (st : ReplaySt), s ≠ 0 →
      replay (A ++ (batchFinRecord s, pos) :: B) initReplaySt = some st →
      ∃ e ∈ A, (parseLogRecordKey e.1.key).map (fun q => q.2) = some s ∧
        e.1.recType ≠ .txnFinished) ∧
    (∀ (st0 : ReplaySt) (s : Nat) (pos : LogRecordPos), s ≠ 0 →
      assocGet st0.pending s = none →
      replayStep st0 (batchFinRecord s, pos) = none) := by
  constructor
  · intro A B s pos st hs h
    rw [replay_append] at h
    cases hA : replay A initReplaySt with
    | none => rw [hA] at h; cases h
    | some stA =>
      rw [hA] at h
      rw [Option.some_bind] at h
      unfold replay at h
      cases hstep : replayStep stA (batchFinRecord s, pos) with
      | none => rw [hstep] at h; cases h
      | some st1 =>
        have hpend : assocGet stA.pending s ≠ none := by
          intro hn
          rw [replayStep_fin_no_buffer stA s pos hs hn] at hstep
          cases hstep
        rcases replay_pending_source A initReplaySt stA hA s hpend with h1 | h2
        · exact absurd rfl h1
        · exact h2
  · exact fun st0 s pos hs hn => replayStep_fin_no_buffer st0 s pos hs hn

/-- Witness for C10: a one-record buffered transaction before its finish
marker, and the panic on a finish marker with no buffered records. -/
theorem c10_txnfin_panics_without_buffer_witness :
    (∃ e ∈ [(batchDataRecord [107] [118] 1, (⟨0, 0, 14⟩ : LogRecordPos))],
      (parseLogRecordKey e.1.key).map (fun q => q.2) = some 1 ∧
      e.1.recType ≠ .txnFinished) ∧
    replayStep initReplaySt (batchFinRecord 1, ⟨0, 0, 8⟩) = none :=
  ⟨c10_txnfin_panics_without_buffer.1
      [(batchDataRecord [107] [118] 1, ⟨0, 0, 14⟩)] [] 1 ⟨0, 0, 18⟩
      ⟨[([107], ⟨0, 0, 14⟩)], 0, [], 1⟩ (by decide) (by decide),
   c10_txnfin_panics_without_buffer.2 initReplaySt 1 ⟨0, 0, 8⟩
      (by decide) (by decide)⟩

/-! ### Replay branch characterizations -/

theorem replay_cons (e : LogRecord × LogRecordPos)
    (L : List (LogRecord × LogRecordPos)) (st : ReplaySt) :
    replay (e :: L) st = (replayStep st e).bind (fun st' => replay L st') := by
  have heq : replay (e :: L) st =
      (match replayStep st e with
        | none => none
        | some st' => replay L st') := rfl
  rw [heq]
  cases replayStep st e <;> rfl

theorem replayStep_seq0 (st : ReplaySt) (e : LogRecord × LogRecordPos)
    (rk : List Nat) (hp : parseLogRecordKey e.1.key = some (rk, 0)) :
    replayStep st e =
      some (bumpMax (updateIndexOnLoad st rk e.1.recType e.2) 0) := by
  unfold replayStep
  rw [hp]
  dsimp only
  rw [if_pos (show (0 : Nat) = NON_TXN_SEQ_NO from rfl)]

theorem replayStep_push (st : ReplaySt) (e : LogRecord × LogRecordPos)
    (rk : List Nat) (q : Nat) (hp : parseLogRecordKey e.1.key = some (rk, q))
    (hq : q ≠ 0) (hfin : e.1.recType ≠ .txnFinished) :
    replayStep st e = some (bumpMax
      { st with pending := (pendingPush st.pending q
          ⟨⟨rk, e.1.value, e.1.recType⟩, e.2⟩) } q) := by
  unfold replayStep
  rw [hp]
  dsimp only
  rw [if_neg (show ¬ q = NON_TXN_SEQ_NO from hq), if_neg hfin]

theorem replayStep_fin (st : ReplaySt) (e : LogRecord × LogRecordPos)
    (rk : List Nat) (q : Nat) (recs : List TransactionRecord)
    (hp : parseLogRecordKey e.1.key = some (rk, q)) (hq : q ≠ 0)
    (hfin : e.1.recType = .txnFinished)
    (hg : assocGet st.pending q = some recs) :
    replayStep st e = some (bumpMax
      { (recs.foldl (fun acc tr =>
          updateIndexOnLoad acc tr.record.key tr.record.recType tr.pos) st) with
        pending := assocErase (recs.foldl (fun acc tr =>
          updateIndexOnLoad acc tr.record.key tr.record.recType tr.pos) st).pending
          q } q) := by
  unfold replayStep
  rw [hp]
  dsimp only
  rw [if_neg (show ¬ q = NON_TXN_SEQ_NO from hq), if_pos hfin, hg]

/-- A replay step of a record whose seq_no is not `s` does not change the
pending buffer of `s`. -/
theorem replayStep_pending_untouched (st0 st1 : ReplaySt)
    (e : LogRecord × LogRecordPos) (s : Nat) (h : replayStep st0 e = some st1)
    (hq : (parseLogRecordKey e.1.key).map (fun q => q.2) ≠ some s) :
    assocGet st1.pending s = assocGet st0.pending s := by
  unfold replayStep at h
  cases hp : parseLogRecordKey e.1.key with
  | none => rw [hp] at h; cases h
  | some rq =>
    obtain ⟨rk, q⟩ := rq
    rw [hp] at h
    dsimp only at h
    have hqs : q ≠ s := by
      intro hh
      apply hq
      rw [hp, hh]
      rfl
    by_cases h0 : q = NON_TXN_SEQ_NO
    · rw [if_pos h0] at h
      injection h with h
      rw [← h, bumpMax_pending, updateIndexOnLoad_pending]
    · rw [if_neg h0] at h
      by_cases hfin : e.1.recType = .txnFinished
      · rw [if_pos hfin] at h
        cases hg : assocGet st0.pending q with
        | none => rw [hg] at h; cases h
        | some recs =>
          rw [hg] at h
          dsimp only at h
          injection h with h
          rw [← h, bumpMax_pending]
          dsimp only
          rw [foldl_updateIndex_pending,
            assocGet_erase_other _ _ _ (fun hh => hqs hh.symm)]
      · rw [if_neg hfin] at h
        injection h with h
        rw [← h, bumpMax_pending]
        dsimp only
        rw [pendingPush_lookup_other _ _ _ _ (fun hh => hqs hh.symm)]

/-- Records whose seq_no never equals `s` leave the pending buffer of `s`
unchanged across a whole replay. -/
theorem replay_pending_untouched (s : Nat)
    (L : List (LogRecord × LogRecordPos)) :
    ∀ st0 st : ReplaySt,
      (∀ e ∈ L, (parseLogRecordKey e.1.key).map (fun q => q.2) ≠ some s) →
      replay L st0 = some st →
      assocGet st.pending s = assocGet st0.pending s := by
  induction L with
  | nil =>
    intro st0 st _ h
    injection h with h
    rw [h]
  | cons e L ih =>
    intro st0 st hA h
    rw [replay_cons] at h
    cases hstep : replayStep st0 e with
    | none => rw [hstep] at h; cases h
    | some st1 =>
      rw [hstep, Option.some_bind] at h
      rw [ih st1 st (fun e' he' => hA e' (List.mem_cons_of_mem _ he')) h]
      exact replayStep_pending_untouched st0 st1 e s hstep
        (hA e (List.mem_cons_self _ _))

/-- Simulation between a full replay and the replay with every record of a
never-finished transaction `s` removed: the filtered run succeeds and
produces the same index. The two replay states agree on the index and on
every pending buffer except `s`, which the filtered run never populates. -/
theorem replay_filter_unfinished (s : Nat) (hs : s ≠ 0)
    (L : List (LogRecord × LogRecordPos)) :
    ∀ (st1 st2 stF : ReplaySt),
      st2.index = st1.index →
      (∀ t, t ≠ s → assocGet st2.pending t = assocGet st1.pending t) →
      assocGet st2.pending s = none →
      (∀ e ∈ L, ¬((parseLogRecordKey e.1.key).map (fun q => q.2) = some s ∧
        e.1.recType = .txnFinished)) →
      replay L st1 = some stF →
      ∃ stF', replay (L.filter (fun e =>
          decide ((parseLogRecordKey e.1.key).map (fun q => q.2) ≠ some s)))
          st2 = some stF' ∧ stF'.index = stF.index := by
  induction L with
  | nil =>
    intro st1 st2 stF hidx hpend hps hnof h
    injection h with h
    exact ⟨st2, rfl, by rw [hidx, h]⟩
  | cons e L ih =>
    intro st1 st2 stF hidx hpend hps hnof h
    rw [replay_cons] at h
    cases hstep : replayStep st1 e with
    | none => rw [hstep] at h; cases h
    | some st1' =>
      rw [hstep, Option.some_bind] at h
      cases hp : parseLogRecordKey e.1.key with
      | none =>
        unfold replayStep at hstep
        rw [hp] at hstep
        cases hstep
      | some rq =>
        obtain ⟨rk, q⟩ := rq
        rw [List.filter_cons]
        by_cases hqs : q = s
        · -- a buffered record of transaction s: dropped by the filter
          have hfin : e.1.recType ≠ .txnFinished := by
            intro hf
            exact hnof e (List.mem_cons_self _ _) ⟨by rw [hp, hqs]; rfl, hf⟩
          have hstep1 := replayStep_push st1 e rk q hp (hqs ▸ hs) hfin
          rw [hstep1] at hstep
          injection hstep with hstep
          rw [if_neg (by simp [hp, hqs])]
          refine ih st1' st2 stF ?_ ?_ hps
            (fun e' he' => hnof e' (List.mem_cons_of_mem _ he')) h
          · rw [← hstep, bumpMax_index]
            exact hidx
          · intro t ht
            rw [← hstep, bumpMax_pending]
            dsimp only
            rw [pendingPush_lookup_other _ _ _ _ (fun hh => ht (hh.trans hqs))]
            exact hpend t ht
        · -- a record of some other sequence number: kept by the filter
          rw [if_pos (by simp [hp, hqs])]
          rw [replay_cons]
          by_cases h0 : q = 0
          · have hstep1 := replayStep_seq0 st1 e rk (h0 ▸ hp)
            rw [hstep1] at hstep
            injection hstep with hstep
            rw [replayStep_seq0 st2 e rk (h0 ▸ hp), Option.some_bind]
            refine ih st1' _ stF ?_ ?_ ?_
              (fun e' he' => hnof e' (List.mem_cons_of_mem _ he')) h
            · rw [← hstep, bumpMax_index, bumpMax_index,
                updateIndexOnLoad_index, updateIndexOnLoad_index, hidx]
            · intro t ht
              rw [← hstep, bumpMax_pending, bumpMax_pending,
                updateIndexOnLoad_pending, updateIndexOnLoad_pending]
              exact hpend t ht
            · rw [bumpMax_pending, updateIndexOnLoad_pending]
              exact hps
          · by_cases hfin : e.1.recType = .txnFinished
            · cases hg1 : assocGet st1.pending q with
              | none =>
                unfold replayStep at hstep
                rw [hp] at hstep
                dsimp only at hstep
                rw [if_neg (show ¬ q = NON_TXN_SEQ_NO from h0), if_pos hfin,
                  hg1] at hstep
                cases hstep
              | some recs =>
                have hg2 : assocGet st2.pending q = some recs := by
                  rw [hpend q hqs, hg1]
                have hstep1 := replayStep_fin st1 e rk q recs hp h0 hfin hg1
                rw [hstep1] at hstep
                injection hstep with hstep
                rw [replayStep_fin st2 e rk q recs hp h0 hfin hg2,
                  Option.some_bind]
                refine ih st1' _ stF ?_ ?_ ?_
                  (fun e' he' => hnof e' (List.mem_cons_of_mem _ he')) h
                · rw [← hstep, bumpMax_index, bumpMax_index]
                  dsimp only
                  rw [foldl_updateIndex_index, foldl_updateIndex_index, hidx]
                · intro t ht
                  rw [← hstep, bumpMax_pending, bumpMax_pending]
                  dsimp only
                  rw [foldl_updateIndex_pending, foldl_updateIndex_pending]
                  by_cases htq : t = q
                  · rw [htq, assocGet_erase_self, assocGet_erase_self]
                  · rw [assocGet_erase_other _ _ _ htq,
                      assocGet_erase_other _ _ _ htq]
                    exact hpend t ht
                · rw [bumpMax_pending]
                  dsimp only
                  rw [foldl_updateIndex_pending,
                    assocGet_erase_other _ _ _ (fun hh => hqs hh.symm)]
                  exact hps
            · have hstep1 := replayStep_push st1 e rk q hp h0 hfin
              rw [hstep1] at hstep
              injection hstep with hstep
              rw [replayStep_push st2 e rk q hp h0 hfin, Option.some_bind]
              refine ih st1' _ stF ?_ ?_ ?_
                (fun e' he' => hnof e' (List.mem_cons_of_mem _ he')) h
              · rw [← hstep, bumpMax_index, bumpMax_index]
                exact hidx
              · intro t ht
                rw [← hstep, bumpMax_pending, bumpMax_pending]
                dsimp only
                by_cases htq : t = q
                · rw [htq, pendingPush_lookup_self, pendingPush_lookup_self,
                    hpend q hqs]
                · rw [pendingPush_lookup_other _ _ _ _ htq,
                    pendingPush_lookup_other _ _ _ _ htq]
                  exact hpend t ht
              · rw [bumpMax_pending]
                dsimp only
                rw [pendingPush_lookup_other _ _ _ _ (fun hh => hqs hh.symm)]
                exact hps

/-! ### Committed transactions apply like non-transactional writes -/

/-- One buffered mutation of a transaction: real key, value, record type
and the position its record was appended at. -/
structure TxnOp where
  realKey : List Nat
  value : List Nat
  recType : LogRecordType
  pos : LogRecordPos
  deriving DecidableEq, Repr

/-- The on-log record of a transaction mutation under sequence number `s`
(as `WriteBatch::commit` writes it). -/
def txnRecordOf (s : Nat) (t : TxnOp) : LogRecord × LogRecordPos :=
  (⟨logRecordKeyWithSeq t.realKey s, t.value, t.recType⟩, t.pos)

/-- The buffered form the recovery loop stores for a transaction record. -/
def toTxnRecord (t : TxnOp) : TransactionRecord :=
  ⟨⟨t.realKey, t.value, t.recType⟩, t.pos⟩

theorem flushIdx_cons (idx : Index) (tr : TransactionRecord)
    (l : List TransactionRecord) :
    flushIdx idx (tr :: l) =
      flushIdx (updIdx idx tr.record.key tr.record.recType tr.pos) l := rfl

theorem flushIdx_append (idx : Index) (l1 l2 : List TransactionRecord) :
    flushIdx idx (l1 ++ l2) = flushIdx (flushIdx idx l1) l2 := by
  unfold flushIdx
  rw [List.foldl_append]

/-- Replaying the records of a transaction `s` only grows its pending
buffer, in order, and touches nothing else. -/
theorem replay_txn_buffered_some (s : Nat) (hs : s ≠ 0) (T : List TxnOp) :
    ∀ st0 : ReplaySt, (∀ t ∈ T, t.recType ≠ .txnFinished) →
    ∀ l : List TransactionRecord, assocGet st0.pending s = some l →
    ∃ st1, replay (T.map (txnRecordOf s)) st0 = some st1 ∧
      st1.index = st0.index ∧
      assocGet st1.pending s = some (l ++ T.map toTxnRecord) ∧
      (∀ u, u ≠ s → assocGet st1.pending u = assocGet st0.pending u) := by
  induction T with
  | nil =>
    intro st0 _ l hg
    refine ⟨st0, rfl, rfl, ?_, fun u _ => rfl⟩
    rw [List.map_nil, List.append_nil]
    exact hg
  | cons t T ih =>
    intro st0 hT l hg
    have hp : parseLogRecordKey (txnRecordOf s t).1.key = some (t.realKey, s) :=
      parseLogRecordKey_withSeq _ _
    have hfin : (txnRecordOf s t).1.recType ≠ .txnFinished :=
      hT t (List.mem_cons_self _ _)
    have hstep := replayStep_push st0 (txnRecordOf s t) t.realKey s hp hs hfin
    have hg1 : assocGet (bumpMax
        { st0 with pending := (pendingPush st0.pending s
            ⟨⟨t.realKey, (txnRecordOf s t).1.value, (txnRecordOf s t).1.recType⟩,
              (txnRecordOf s t).2⟩) } s).pending s =
        some (l ++ [toTxnRecord t]) := by
      rw [bumpMax_pending]
      dsimp only
      rw [pendingPush_lookup_self, hg]
      rfl
    obtain ⟨st1, hrep, hidx, hgT, hout⟩ :=
      ih _ (fun t' ht' => hT t' (List.mem_cons_of_mem _ ht'))
        (l ++ [toTxnRecord t]) hg1
    refine ⟨st1, ?_, ?_, ?_, ?_⟩
    · rw [List.map_cons, replay_cons, hstep, Option.some_bind]
      exact hrep
    · rw [hidx, bumpMax_index]
    · rw [hgT, List.map_cons, List.append_assoc]
      rfl
    · intro u hu
      rw [hout u hu, bumpMax_pending]
      dsimp only
      rw [pendingPush_lookup_other _ _ _ _ hu]

/-- Replaying the same mutations with sequence number 0 applies them to
the index immediately, exactly as `update_index` would. -/
theorem replay_txn_seq0 (T : List TxnOp) :
    ∀ st0 : ReplaySt,
    ∃ st1, replay (T.map (txnRecordOf 0)) st0 = some st1 ∧
      st1.index = flushIdx st0.index (T.map toTxnRecord) ∧
      st1.pending = st0.pending := by
  induction T with
  | nil => intro st0; exact ⟨st0, rfl, rfl, rfl⟩
  | cons t T ih =>
    intro st0
    have hp : parseLogRecordKey (txnRecordOf 0 t).1.key = some (t.realKey, 0) :=
      parseLogRecordKey_withSeq _ _
    have hstep := replayStep_seq0 st0 (txnRecordOf 0 t) t.realKey hp
    obtain ⟨st1, hrep, hidx, hpend⟩ :=
      ih (bumpMax (updateIndexOnLoad st0 t.realKey (txnRecordOf 0 t).1.recType
        (txnRecordOf 0 t).2) 0)
    refine ⟨st1, ?_, ?_, ?_⟩
    · rw [List.map_cons, replay_cons, hstep, Option.some_bind]
      exact hrep
    · rw [hidx, bumpMax_index, updateIndexOnLoad_index, List.map_cons,
        flushIdx_cons]
      rfl
    · rw [hpend, bumpMax_pending, updateIndexOnLoad_pending]

/-- C1: for every sequence of records replayed at open, the index
mutations of a transaction with nonzero sequence number s are applied iff
a TxnFinished record with that s is encountered during replay.
Part 1: when no TxnFinished with s appears before the end of the replayed
sequence, removing all records of transaction s yields the same final
index — the never-finished transaction's records are discarded and leave
the index unchanged. Part 2: when the TxnFinished of s does appear, the
transaction's mutations contribute to the index exactly as the same
mutations replayed non-transactionally (sequence number 0) would. -/
theorem c1_txn_applied_iff_finished :
    (∀ (L : List (LogRecord × LogRecordPos)) (s : Nat) (st : ReplaySt),
      s ≠ 0 →
      (∀ e ∈ L, ¬((parseLogRecordKey e.1.key).map (fun q => q.2) = some s ∧
        e.1.recType = .txnFinished)) →
      replay L initReplaySt = some st →
      ∃ st', replay (L.filter (fun e =>
          decide ((parseLogRecordKey e.1.key).map (fun q => q.2) ≠ some s)))
          initReplaySt = some st' ∧ st'.index = st.index) ∧
    (∀ (A : List (LogRecord × LogRecordPos)) (T : List TxnOp) (s : Nat)
        (pos : LogRecordPos) (st : ReplaySt),
      s ≠ 0 →
      (∀ e ∈ A, (parseLogRecordKey e.1.key).map (fun q => q.2) ≠ some s) →
      (∀ t ∈ T, t.recType ≠ .txnFinished) →
      replay (A ++ T.map (txnRecordOf s) ++ [(batchFinRecord s, pos)])
        initReplaySt = some st →
      ∃ st', replay (A ++ T.map (txnRecordOf 0)) initReplaySt = some st' ∧
        st'.index = st.index) := by
  constructor
  · intro L s st hs hnof h
    exact replay_filter_unfinished s hs L initReplaySt initReplaySt st rfl
      (fun t _ => rfl) rfl hnof h
  · intro A T s pos st hs hA hT h
    rw [replay_append, replay_append] at h
    cases hA1 : replay A initReplaySt with
    | none =>
      rw [hA1] at h
      simp only [Option.none_bind] at h
      cases h
    | some stA =>
      rw [hA1, Option.some_bind] at h
      have hpsA : assocGet stA.pending s = none := by
        rw [replay_pending_untouched s A initReplaySt stA hA hA1]
        rfl
      cases T with
      | nil =>
        rw [List.map_nil] at h
        rw [show replay ([] : List (LogRecord × LogRecordPos)) stA = some stA
          from rfl, Option.some_bind] at h
        rw [replay_cons, replayStep_fin_no_buffer stA s pos hs hpsA,
          Option.none_bind] at h
        cases h
      | cons t T' =>
        have hp1 : parseLogRecordKey (txnRecordOf s t).1.key =
            some (t.realKey, s) := parseLogRecordKey_withSeq _ _
        have hfin1 : (txnRecordOf s t).1.recType ≠ .txnFinished :=
          hT t (List.mem_cons_self _ _)
        have hstep1 := replayStep_push stA (txnRecordOf s t) t.realKey s hp1
          hs hfin1
        have hgP : assocGet (bumpMax
            { stA with pending := (pendingPush stA.pending s
                ⟨⟨t.realKey, (txnRecordOf s t).1.value,
                  (txnRecordOf s t).1.recType⟩,
                  (txnRecordOf s t).2⟩) } s).pending s =
            some [toTxnRecord t] := by
          rw [bumpMax_pending]
          dsimp only
          rw [pendingPush_lookup_self, hpsA]
          rfl
        obtain ⟨stT, hrepT, hidxT, hgT, _⟩ :=
          replay_txn_buffered_some s hs T' _
            (fun t' ht' => hT t' (List.mem_cons_of_mem _ ht'))
            [toTxnRecord t] hgP
        rw [List.map_cons, replay_cons, hstep1, Option.some_bind, hrepT,
          Option.some_bind] at h
        have hpfin : parseLogRecordKey (batchFinRecord s, pos).1.key =
            some (TXN_FIN_KEY, s) := parseLogRecordKey_withSeq _ _
        have hgfin : assocGet stT.pending s =
            some ((t :: T').map toTxnRecord) := by
          rw [hgT]
          rfl
        rw [replay_cons, replayStep_fin stT (batchFinRecord s, pos)
          TXN_FIN_KEY s _ hpfin hs rfl hgfin, Option.some_bind] at h
        injection h with h
        obtain ⟨st0f, hrep0, hidx0, _⟩ := replay_txn_seq0 (t :: T') stA
        refine ⟨st0f, ?_, ?_⟩
        · rw [replay_append, hA1, Option.some_bind]
          exact hrep0
        · rw [hidx0, ← h, bumpMax_index]
          dsimp only
          rw [foldl_updateIndex_index, hidxT, bumpMax_index]

/-- Witness for C1: a never-finished one-record transaction is discarded
(part 1) and a finished one-record transaction applies like the same
non-transactional put (part 2). -/
theorem c1_txn_applied_iff_finished_witness :
    (∃ st', replay (([(batchDataRecord [107] [118] 1,
          (⟨0, 0, 14⟩ : LogRecordPos))]).filter (fun e =>
          decide ((parseLogRecordKey e.1.key).map (fun q => q.2) ≠ some 1)))
        initReplaySt = some st' ∧
      st'.index = (⟨[], 0, [(1, [⟨⟨[107], [118], .normal⟩, ⟨0, 0, 14⟩⟩])], 1⟩ :
        ReplaySt).index) ∧
    (∃ st', replay (([] : List (LogRecord × LogRecordPos)) ++
        ([⟨[107], [118], .normal, ⟨0, 0, 14⟩⟩] : List TxnOp).map (txnRecordOf 0))
        initReplaySt = some st' ∧
      st'.index = (⟨[([107], ⟨0, 0, 14⟩)], 0, [], 1⟩ : ReplaySt).index) :=
  ⟨c1_txn_applied_iff_finished.1
      [(batchDataRecord [107] [118] 1, ⟨0, 0, 14⟩)] 1
      ⟨[], 0, [(1, [⟨⟨[107], [118], .normal⟩, ⟨0, 0, 14⟩⟩])], 1⟩
      (by decide) (by decide) (by decide),
   c1_txn_applied_iff_finished.2 [] [⟨[107], [118], .normal, ⟨0, 0, 14⟩⟩] 1
      ⟨0, 0, 22⟩ ⟨[([107], ⟨0, 0, 14⟩)], 0, [], 1⟩
      (by decide) (by decide) (by decide) (by decide)⟩

/-! ## Scanning a data file

Both the recovery loop (`src/db.rs` lines 573–637) and the merge loop
(`src/merge.rs` lines 71–94) read records sequentially from offset 0 until
`ReadDataFileEOF`. -/

/-- The bytes of a list of records laid down back to back. -/
def concatEnc : List LogRecord → List Nat
  | [] => []
  | r :: rest => r.encode ++ concatEnc rest

/-- A record as a byte-string record: nonempty key, byte-valued key and
value, lengths within the 5-byte varint bound of the header. -/
def WFRec (r : LogRecord) : Prop :=
  r.key ≠ [] ∧ (∀ b ∈ r.key, b < 256) ∧ (∀ b ∈ r.value, b < 256) ∧
  r.key.length < 2 ^ 35 ∧ r.value.length < 2 ^ 35

instance (r : LogRecord) : Decidable (WFRec r) := by
  unfold WFRec
  infer_instance

/-- The scan loop; `fuel` dominates the remaining bytes, so the `0` case
is unreachable at every call site. Returns the records with their offsets
and sizes, and the offset the scan stopped at. -/
def scanFileAux (content : List Nat) :
    Nat → Nat → List (LogRecord × Nat × Nat) →
    Option (Except Errors (List (LogRecord × Nat × Nat) × Nat))
  | 0, _, _ => none
  | fuel + 1, offset, acc =>
    match readLogRecord content offset with
    | none => none
    | some (.error e) =>
      if e = .ReadDataFileEOF then some (.ok (acc, offset))
      else some (.error e)
    | some (.ok (r, size)) =>
      scanFileAux content fuel (offset + size) (acc ++ [(r, offset, size)])

def scanFile (content : List Nat) :
    Option (Except Errors (List (LogRecord × Nat × Nat) × Nat)) :=
  scanFileAux content (content.length + 1) 0 []

/-- The entries a scan reports for records laid down from `base`. -/
def entriesFrom : Nat → List LogRecord → List (LogRecord × Nat × Nat)
  | _, [] => []
  | base, r :: rest =>
      (r, base, r.encode.length) :: entriesFrom (base + r.encode.length) rest

theorem encode_length_pos (r : LogRecord) : 0 < r.encode.length := by
  unfold LogRecord.encode encodePayload
  simp

theorem concatEnc_append (l1 l2 : List LogRecord) :
    concatEnc (l1 ++ l2) = concatEnc l1 ++ concatEnc l2 := by
  induction l1 with
  | nil => rfl
  | cons r l1 ih =>
    show r.encode ++ concatEnc (l1 ++ l2) = (r.encode ++ concatEnc l1) ++ _
    rw [ih, List.append_assoc]

theorem concatEnc_eq_nil (l : List LogRecord) (h : concatEnc l = []) :
    l = [] := by
  cases l with
  | nil => rfl
  | cons r rest =>
    exfalso
    have := encode_length_pos r
    have hlen : (concatEnc (r :: rest)).length = 0 := by rw [h]; rfl
    have : (r.encode ++ concatEnc rest).length = 0 := hlen
    rw [List.length_append] at this
    omega

theorem entriesFrom_append (base : Nat) (l1 l2 : List LogRecord) :
    entriesFrom base (l1 ++ l2) =
      entriesFrom base l1 ++
        entriesFrom (base + (concatEnc l1).length) l2 := by
  induction l1 generalizing base with
  | nil => simp [entriesFrom, concatEnc]
  | cons r l1 ih =>
    show (r, base, r.encode.length) :: entriesFrom (base + r.encode.length) (l1 ++ l2) = _
    rw [ih]
    show _ = (r, base, r.encode.length) :: (entriesFrom (base + r.encode.length) l1 ++ _)
    have hlen : base + (concatEnc (r :: l1)).length =
        base + r.encode.length + (concatEnc l1).length := by
      show base + (r.encode ++ concatEnc l1).length = _
      rw [List.length_append]
      omega
    rw [hlen]

theorem entriesFrom_offset_bounds (l : List LogRecord) :
    ∀ base e, e ∈ entriesFrom base l →
      base ≤ e.2.1 ∧ e.2.1 < base + (concatEnc l).length := by
  induction l with
  | nil => intro base e he; simp [entriesFrom] at he
  | cons r l ih =>
    intro base e he
    have hcl : (concatEnc (r :: l)).length =
        r.encode.length + (concatEnc l).length := by
      show (r.encode ++ concatEnc l).length = _
      rw [List.length_append]
    rw [show entriesFrom base (r :: l) =
      (r, base, r.encode.length) :: entriesFrom (base + r.encode.length) l
      from rfl] at he
    rcases List.mem_cons.mp he with rfl | he
    · have := encode_length_pos r
      constructor
      · exact le_refl _
      · show base < base + (concatEnc (r :: l)).length
        omega
    · have := ih (base + r.encode.length) e he
      constructor
      · omega
      · omega

/-- Reading at the end of the laid-down bytes hits the zero padding and
reports `ReadDataFileEOF` (key and value size decode to 0). -/
theorem readLogRecord_eof (content : List Nat) (offset : Nat)
    (h : content.drop offset = []) :
    readLogRecord content offset = some (.error .ReadDataFileEOF) := by
  unfold readLogRecord
  rw [h]
  rfl

/-- The scan of a file holding exactly the encodings of `records` returns
those records with their offsets and sizes, stopping at the total byte
length. -/
theorem scanFileAux_spec (content : List Nat) (records : List LogRecord)
    (hwf : ∀ r ∈ records, WFRec r) :
    ∀ (offset fuel : Nat) (acc : List (LogRecord × Nat × Nat)),
      content.drop offset = concatEnc records →
      (concatEnc records).length + 1 ≤ fuel →
      scanFileAux content fuel offset acc =
        some (.ok (acc ++ entriesFrom offset records,
          offset + (concatEnc records).length)) := by
  induction records with
  | nil =>
    intro offset fuel acc hdrop hfuel
    cases fuel with
    | zero => omega
    | succ fuel =>
      unfold scanFileAux
      rw [readLogRecord_eof content offset hdrop]
      simp [entriesFrom, concatEnc]
  | cons r rest ih =>
    intro offset fuel acc hdrop hfuel
    obtain ⟨hk, hkb, hvb, hkl, hvl⟩ := hwf r (List.mem_cons_self _ _)
    have hr : readLogRecord content offset =
        some (.ok (r, r.encode.length)) := by
      apply readLogRecord_at r content offset (concatEnc rest) hdrop
      · intro hh
        exact hk (List.length_eq_zero.mp hh.1)
      · exact hkb
      · exact hvb
      · exact hkl
      · exact hvl
    have hlen : (concatEnc (r :: rest)).length =
        r.encode.length + (concatEnc rest).length := by
      show (r.encode ++ concatEnc rest).length = _
      rw [List.length_append]
    cases fuel with
    | zero =>
      have := encode_length_pos r
      omega
    | succ fuel =>
      unfold scanFileAux
      rw [hr]
      dsimp only
      have hdrop' : content.drop (offset + r.encode.length) = concatEnc rest := by
        rw [← List.drop_drop, hdrop]
        show (r.encode ++ concatEnc rest).drop r.encode.length = _
        rw [List.drop_left]
      rw [ih (fun r' hr' => hwf r' (List.mem_cons_of_mem _ hr'))
        (offset + r.encode.length) fuel (acc ++ [(r, offset, r.encode.length)])
        hdrop' (by have := encode_length_pos r; omega)]
      rw [show entriesFrom offset (r :: rest) =
        (r, offset, r.encode.length) :: entriesFrom (offset + r.encode.length) rest
        from rfl]
      rw [List.append_assoc, hlen, ← Nat.add_assoc]
      rfl

theorem scanFile_spec (content : List Nat) (records : List LogRecord)
    (hwf : ∀ r ∈ records, WFRec r) (h : content = concatEnc records) :
    scanFile content =
      some (.ok (entriesFrom 0 records, (concatEnc records).length)) := by
  unfold scanFile
  rw [scanFileAux_spec content records hwf 0 (content.length + 1) []
    (by rw [List.drop_zero, h]) (by rw [h])]
  simp

/-! ## Decimal and position codecs

The merge-finished marker stores the first non-merged file id as ASCII
decimal (`non_merge_file_id.to_string()` / `parse::<u32>()`); the hint
file stores encoded positions. -/

def natToDecimalAux : Nat → Nat → List Nat
  | 0, n => [48 + n % 10]
  | fuel + 1, n =>
    if n < 10 then [48 + n]
    else natToDecimalAux fuel (n / 10) ++ [48 + n % 10]

/-- ASCII decimal digits of a natural number (`to_string().into_bytes()`). -/
def natToDecimal (n : Nat) : List Nat := natToDecimalAux n n

/-- ASCII decimal parsing (`String::parse::<u32>()` on canonical input). -/
def decimalToNat (l : List Nat) : Nat :=
  l.foldl (fun acc d => acc * 10 + (d - 48)) 0

theorem natToDecimalAux_congr (f1 : Nat) : ∀ f2 n, n ≤ f1 → n ≤ f2 →
    natToDecimalAux f1 n = natToDecimalAux f2 n := by
  induction f1 with
  | zero =>
    intro f2 n h1 _
    interval_cases n
    cases f2 <;> simp [natToDecimalAux]
  | succ f1 ih =>
    intro f2 n h1 h2
    cases f2 with
    | zero =>
      interval_cases n
      simp [natToDecimalAux]
    | succ f2 =>
      simp only [natToDecimalAux]
      by_cases h : n < 10
      · simp [h]
      · have hdiv : n / 10 < n := Nat.div_lt_self (by omega) (by omega)
        simp only [if_neg h]
        rw [ih f2 (n / 10) (by omega) (by omega)]

theorem natToDecimal_eq (n : Nat) :
    natToDecimal n =
      if n < 10 then [48 + n] else natToDecimal (n / 10) ++ [48 + n % 10] := by
  unfold natToDecimal
  cases hn : n with
  | zero => simp [natToDecimalAux]
  | succ m =>
    simp only [natToDecimalAux]
    by_cases h : m + 1 < 10
    · simp [h]
    · have hdiv : (m + 1) / 10 < m + 1 := Nat.div_lt_self (by omega) (by omega)
      simp only [if_neg h]
      rw [natToDecimalAux_congr m ((m + 1) / 10) ((m + 1) / 10) (by omega)
        (le_refl _)]

theorem decimalToNat_append_digit (l : List Nat) (d : Nat) :
    decimalToNat (l ++ [d]) = decimalToNat l * 10 + (d - 48) := by
  unfold decimalToNat
  rw [List.foldl_append]
  rfl

theorem decimalToNat_natToDecimal (n : Nat) :
    decimalToNat (natToDecimal n) = n := by
  induction n using Nat.strong_induction_on with
  | _ n ih =>
    rw [natToDecimal_eq]
    by_cases h : n < 10
    · rw [if_pos h]
      show 0 * 10 + (48 + n - 48) = n
      omega
    · have hdiv : n / 10 < n := Nat.div_lt_self (by omega) (by omega)
      rw [if_neg h, decimalToNat_append_digit, ih (n / 10) hdiv]
      omega

theorem natToDecimal_lt_256 (n : Nat) : ∀ b ∈ natToDecimal n, b < 256 := by
  induction n using Nat.strong_induction_on with
  | _ n ih =>
    rw [natToDecimal_eq]
    by_cases h : n < 10
    · simp [h]; omega
    · have hdiv : n / 10 < n := Nat.div_lt_self (by omega) (by omega)
      simp only [if_neg h, List.mem_append, List.mem_singleton]
      rintro b (hb | rfl)
      · exact ih (n / 10) hdiv b hb
      · have := Nat.mod_lt n (y := 10) (by omega)
        omega

theorem natToDecimal_length_le (n : Nat) : (natToDecimal n).length ≤ n + 1 := by
  induction n using Nat.strong_induction_on with
  | _ n ih =>
    rw [natToDecimal_eq]
    by_cases h : n < 10
    · simp [h]
    · have hdiv : n / 10 < n := Nat.div_lt_self (by omega) (by omega)
      rw [if_neg h, List.length_append]
      have := ih (n / 10) hdiv
      simp only [List.length_singleton]
      omega

/-- A varint of a value below `128^k` takes at most `k+1` bytes. -/
theorem encodeVarint_length_le_pow (k : Nat) : ∀ n, n < 128 ^ k →
    (encodeVarint n).length ≤ k + 1 := by
  induction k with
  | zero =>
    intro n h
    interval_cases n
    simp [encodeVarint, encodeVarintAux]
  | succ k ih =>
    intro n h
    rw [encodeVarint_eq]
    by_cases h1 : n < 128
    · simp [h1]
    · rw [if_neg h1, List.length_cons]
      have : n / 128 < 128 ^ k := by
        rw [Nat.div_lt_iff_lt_mul (by norm_num)]
        calc n < 128 ^ (k + 1) := h
        _ = 128 ^ k * 128 := by rw [pow_succ]
      have := ih (n / 128) this
      omega

theorem decodeLogRecordPos_encode (p : LogRecordPos) :
    decodeLogRecordPos p.encode = some p := by
  unfold decodeLogRecordPos LogRecordPos.encode
  rw [List.append_assoc, decodeVarint_encodeVarint]
  dsimp only
  rw [decodeVarint_encodeVarint]
  dsimp only
  rw [show encodeVarint p.size = encodeVarint p.size ++ [] from
    (List.append_nil _).symm, decodeVarint_encodeVarint]

/-! ## Abstraction of the append path: files as record lists

`AppendSt` views the engine's segment files as lists of records; `filesRel`
ties it to the byte-level `EngineState`. All engine writes go through
`append_log_record`, so the relation is preserved by `appendOne`. -/

structure AppendSt where
  fid : Nat
  cur : List LogRecord
  old : List (Nat × List LogRecord)

/-- Record-level mirror of `append_log_record`. -/
def appendOne (dfs : Nat) (a : AppendSt) (r : LogRecord) :
    AppendSt × LogRecordPos :=
  if (concatEnc a.cur).length + r.encode.length > dfs then
    (⟨a.fid + 1, [r], assocInsert a.old a.fid a.cur⟩,
     ⟨a.fid + 1, 0, r.encode.length⟩)
  else
    (⟨a.fid, a.cur ++ [r], a.old⟩,
     ⟨a.fid, (concatEnc a.cur).length, r.encode.length⟩)

/-- The records of segment `fid` in the abstract view. -/
def recsOf (a : AppendSt) (fid : Nat) : List LogRecord :=
  if fid = a.fid then a.cur else (assocGet a.old fid).getD []

/-- Total number of records across all segments. -/
def recCount (a : AppendSt) : Nat :=
  a.cur.length + (a.old.map (fun e => e.2.length)).sum

/-- A stored record as written by `put`/`delete`: key carries the seq-0
prefix of a real key within the spec §8 size bounds, value within bounds. -/
def WFStored (r : LogRecord) : Prop :=
  (∃ rk, rk ≠ [] ∧ rk.length ≤ 2 ^ 16 ∧ r.key = logRecordKeyWithSeq rk 0) ∧
  (∀ b ∈ r.key, b < 256) ∧ (∀ b ∈ r.value, b < 256) ∧
  r.value.length ≤ 2 ^ 20

/-- Structural invariant of the abstract file view: segment ids are
`0..fid-1` for old files, every old segment is nonempty, every segment's
bytes fit in `dfs`, and every record is well formed. -/
def AppendInv (dfs : Nat) (a : AppendSt) : Prop :=
  a.old.map Prod.fst = List.range a.fid ∧
  (∀ e ∈ a.old, e.2 ≠ []) ∧
  (concatEnc a.cur).length ≤ dfs ∧
  (∀ e ∈ a.old, (concatEnc e.2).length ≤ dfs) ∧
  (∀ fid, ∀ r ∈ recsOf a fid, WFStored r)

/-- The byte-level/abstract correspondence for the engine's files. -/
def filesRel (st : EngineState) (a : AppendSt) : Prop :=
  st.active.fileId = a.fid ∧
  st.active.content = concatEnc a.cur ∧
  st.active.writeOff = (concatEnc a.cur).length ∧
  st.oldFiles.map Prod.fst = a.old.map Prod.fst ∧
  ∀ fid, (oldLookup st.oldFiles fid).map DataFile.content =
    (assocGet a.old fid).map concatEnc

/-- `pos` is the position of record `r` in the abstract file view. -/
def fileEntry (a : AppendSt) (pos : LogRecordPos) (r : LogRecord) : Prop :=
  (r, pos.offset, r.encode.length) ∈ entriesFrom 0 (recsOf a pos.fileId)

theorem encode_length_formula (r : LogRecord) :
    r.encode.length =
      1 + (encodeVarint r.key.length).length +
        (encodeVarint r.value.length).length +
        r.key.length + r.value.length + 4 := by
  unfold LogRecord.encode encodePayload be32
  simp [List.length_append]
  omega

theorem logRecordKeyWithSeq_zero (rk : List Nat) :
    logRecordKeyWithSeq rk 0 = 0 :: rk := by
  unfold logRecordKeyWithSeq
  rw [show encodeVarint 0 = [0] from rfl]
  rfl

theorem WFStored_key_length (r : LogRecord) (h : WFStored r) :
    r.key.length ≤ 2 ^ 16 + 1 := by
  obtain ⟨⟨rk, _, hlen, hk⟩, _, _, _⟩ := h
  rw [hk, logRecordKeyWithSeq_zero]
  simp
  omega

theorem WFStored_encode_le (r : LogRecord) (h : WFStored r) :
    r.encode.length ≤ 2 ^ 21 := by
  have hk := WFStored_key_length r h
  obtain ⟨_, _, _, hv⟩ := h
  have h1 : (encodeVarint r.key.length).length ≤ 5 :=
    encodeVarint_length_le _ (by omega)
  have h2 : (encodeVarint r.value.length).length ≤ 5 :=
    encodeVarint_length_le _ (by omega)
  rw [encode_length_formula]
  omega

theorem WFStored_WFRec (r : LogRecord) (h : WFStored r) : WFRec r := by
  obtain ⟨⟨rk, hne, hlen, hk⟩, hkb, hvb, hv⟩ := h
  refine ⟨?_, hkb, hvb, ?_, by omega⟩
  · rw [hk, logRecordKeyWithSeq_zero]
    simp
  · rw [hk, logRecordKeyWithSeq_zero]
    simp
    omega

/-- A fresh engine's abstract view. -/
def freshAppendSt : AppendSt := ⟨0, [], []⟩

theorem freshAppendSt_inv (dfs : Nat) : AppendInv dfs freshAppendSt := by
  refine ⟨rfl, by simp [freshAppendSt], by simp [freshAppendSt, concatEnc], by simp [freshAppendSt], ?_⟩
  intro fid r hr
  unfold recsOf freshAppendSt at hr
  by_cases h : fid = 0 <;> simp [h, assocGet] at hr

theorem appendOne_fid (dfs : Nat) (a : AppendSt) (r : LogRecord) :
    (appendOne dfs a r).1.fid = a.fid ∨
      (appendOne dfs a r).1.fid = a.fid + 1 := by
  unfold appendOne
  by_cases h : (concatEnc a.cur).length + r.encode.length > dfs
  · rw [if_pos h]; right; rfl
  · rw [if_neg h]; left; rfl

theorem appendOne_cur_ne_nil (dfs : Nat) (a : AppendSt) (r : LogRecord) :
    (appendOne dfs a r).1.cur ≠ [] := by
  unfold appendOne
  by_cases h : (concatEnc a.cur).length + r.encode.length > dfs
  · rw [if_pos h]; simp
  · rw [if_neg h]; simp

theorem appendOne_recCount (dfs : Nat) (a : AppendSt) (r : LogRecord)
    (hids : a.old.map Prod.fst = List.range a.fid) :
    recCount (appendOne dfs a r).1 = recCount a + 1 := by
  unfold appendOne
  by_cases h : (concatEnc a.cur).length + r.encode.length > dfs
  · rw [if_pos h]
    unfold recCount
    dsimp only
    have hnotmem : assocGet a.old a.fid = none := by
      cases hg : assocGet a.old a.fid with
      | none => rfl
      | some v =>
        exfalso
        have : a.fid ∈ a.old.map Prod.fst := by
          unfold assocGet at hg
          cases hf : a.old.find? (fun e => decide (e.1 = a.fid)) with
          | none => rw [hf] at hg; exact absurd hg (by simp)
          | some e =>
            have := List.find?_some hf
            have hmem := List.mem_of_find?_eq_some hf
            simp at this
            exact this ▸ List.mem_map_of_mem Prod.fst hmem
        rw [hids] at this
        simp at this
    unfold assocInsert
    rw [hnotmem]
    rw [List.map_append, List.sum_append]
    simp
    omega
  · rw [if_neg h]
    unfold recCount
    simp
    omega

theorem assocGet_none_of_not_mem {ν κ : Type} [DecidableEq κ]
    (l : List (κ × ν)) (k : κ) (h : k ∉ l.map Prod.fst) :
    assocGet l k = none := by
  induction l with
  | nil => rfl
  | cons e l ih =>
    rw [List.map_cons, List.mem_cons] at h
    push_neg at h
    rw [assocGet_cons, if_neg (fun hh => h.1 hh.symm), ih h.2]

theorem mem_of_assocGet_some {ν κ : Type} [DecidableEq κ]
    (l : List (κ × ν)) (k : κ) (v : ν) (h : assocGet l k = some v) :
    k ∈ l.map Prod.fst := by
  by_contra hmem
  rw [assocGet_none_of_not_mem l k hmem] at h
  exact absurd h (by simp)

theorem assocInsert_of_not_mem {ν κ : Type} [DecidableEq κ]
    (l : List (κ × ν)) (k : κ) (v : ν) (h : k ∉ l.map Prod.fst) :
    assocInsert l k v = l ++ [(k, v)] := by
  unfold assocInsert
  rw [assocGet_none_of_not_mem l k h]

theorem assocGet_map_pair {ν μ κ : Type} [DecidableEq κ] (g : ν → μ) :
    ∀ (l : List (κ × ν)) (k : κ),
      assocGet (l.map (fun e => (e.1, g e.2))) k = (assocGet l k).map g := by
  intro l
  induction l with
  | nil => intro k; rfl
  | cons e l ih =>
    intro k
    rw [List.map_cons, assocGet_cons, assocGet_cons]
    by_cases h : e.1 = k
    · rw [if_pos h, if_pos h]
      rfl
    · rw [if_neg h, if_neg h]
      exact ih k

theorem fid_succ_not_mem_range (n : Nat) : n + 1 ∉ List.range n := by
  simp

/-- Rotation in `appendOne` happens only with a nonempty current segment
when records fit in `dfs`. -/
theorem rot_cur_ne_nil (dfs : Nat) (a : AppendSt) (r : LogRecord)
    (hr : r.encode.length ≤ dfs)
    (h : (concatEnc a.cur).length + r.encode.length > dfs) : a.cur ≠ [] := by
  intro hc
  rw [hc] at h
  simp [concatEnc] at h
  omega

theorem appendOne_inv (dfs : Nat) (a : AppendSt) (r : LogRecord)
    (hinv : AppendInv dfs a) (hr : WFStored r) (hdfs : 2 ^ 21 ≤ dfs) :
    AppendInv dfs (appendOne dfs a r).1 := by
  obtain ⟨hids, hne, hcur, hold, hwf⟩ := hinv
  have hrenc : r.encode.length ≤ dfs := le_trans (WFStored_encode_le r hr) hdfs
  unfold appendOne
  by_cases h : (concatEnc a.cur).length + r.encode.length > dfs
  · rw [if_pos h]
    have hnm : a.fid ∉ a.old.map Prod.fst := by
      rw [hids]; simp
    have hins := assocInsert_of_not_mem a.old a.fid a.cur hnm
    refine ⟨?_, ?_, ?_, ?_, ?_⟩
    · show (assocInsert a.old a.fid a.cur).map Prod.fst = List.range (a.fid + 1)
      rw [hins, List.map_append, hids, List.range_succ]
      rfl
    · show ∀ e ∈ assocInsert a.old a.fid a.cur, e.2 ≠ []
      rw [hins]
      intro e he
      rcases List.mem_append.mp he with he | he
      · exact hne e he
      · rw [List.mem_singleton.mp he]
        exact rot_cur_ne_nil dfs a r hrenc h
    · show (concatEnc [r]).length ≤ dfs
      show (r.encode ++ concatEnc []).length ≤ dfs
      rw [List.length_append]
      show r.encode.length + 0 ≤ dfs
      omega
    · show ∀ e ∈ assocInsert a.old a.fid a.cur, (concatEnc e.2).length ≤ dfs
      rw [hins]
      intro e he
      rcases List.mem_append.mp he with he | he
      · exact hold e he
      · rw [List.mem_singleton.mp he]
        exact hcur
    · intro fid r0 hr0
      unfold recsOf at hr0
      dsimp only at hr0
      by_cases hf : fid = a.fid + 1
      · rw [if_pos hf] at hr0
        rw [List.mem_singleton.mp hr0]
        exact hr
      · rw [if_neg hf] at hr0
        by_cases hf2 : fid = a.fid
        · rw [hf2, assocGet_insert_self] at hr0
          have := hwf a.fid
          unfold recsOf at this
          rw [if_pos rfl] at this
          exact this r0 hr0
        · rw [assocGet_insert_other a.old a.fid fid a.cur hf2] at hr0
          have := hwf fid
          unfold recsOf at this
          rw [if_neg hf2] at this
          exact this r0 hr0
  · rw [if_neg h]
    refine ⟨hids, hne, ?_, hold, ?_⟩
    · show (concatEnc (a.cur ++ [r])).length ≤ dfs
      rw [concatEnc_append, List.length_append]
      show (concatEnc a.cur).length + (r.encode ++ concatEnc []).length ≤ dfs
      rw [List.length_append]
      show (concatEnc a.cur).length + (r.encode.length + 0) ≤ dfs
      omega
    · intro fid r0 hr0
      unfold recsOf at hr0
      dsimp only at hr0
      by_cases hf : fid = a.fid
      · rw [if_pos hf] at hr0
        rcases List.mem_append.mp hr0 with hr0 | hr0
        · have := hwf a.fid
          unfold recsOf at this
          rw [if_pos rfl] at this
          exact this r0 hr0
        · rw [List.mem_singleton.mp hr0]
          exact hr
      · rw [if_neg hf] at hr0
        have := hwf fid
        unfold recsOf at this
        rw [if_neg hf] at this
        exact this r0 hr0

theorem appendOne_rot_recsOf (dfs : Nat) (a : AppendSt) (r : LogRecord)
    (hids : a.old.map Prod.fst = List.range a.fid)
    (h : (concatEnc a.cur).length + r.encode.length > dfs) (fid : Nat) :
    recsOf (appendOne dfs a r).1 fid =
      if fid = a.fid + 1 then [r] else recsOf a fid := by
  unfold appendOne
  rw [if_pos h]
  unfold recsOf
  dsimp only
  by_cases hf : fid = a.fid + 1
  · rw [if_pos hf, if_pos hf]
  · rw [if_neg hf, if_neg hf]
    by_cases hf2 : fid = a.fid
    · rw [hf2, assocGet_insert_self, if_pos rfl]
      rfl
    · rw [assocGet_insert_other a.old a.fid fid a.cur hf2, if_neg hf2]

theorem appendOne_keep_recsOf (dfs : Nat) (a : AppendSt) (r : LogRecord)
    (h : ¬ (concatEnc a.cur).length + r.encode.length > dfs) (fid : Nat) :
    recsOf (appendOne dfs a r).1 fid =
      if fid = a.fid then a.cur ++ [r] else recsOf a fid := by
  unfold appendOne
  rw [if_neg h]
  unfold recsOf
  dsimp only
  by_cases hf : fid = a.fid
  · rw [if_pos hf, if_pos hf]
  · simp only [if_neg hf]

theorem fileEntry_appendOne (dfs : Nat) (a : AppendSt) (r : LogRecord)
    (pos : LogRecordPos) (r0 : LogRecord)
    (hids : a.old.map Prod.fst = List.range a.fid)
    (hent : fileEntry a pos r0) :
    fileEntry (appendOne dfs a r).1 pos r0 := by
  unfold fileEntry at hent ⊢
  by_cases h : (concatEnc a.cur).length + r.encode.length > dfs
  · rw [appendOne_rot_recsOf dfs a r hids h]
    by_cases hf : pos.fileId = a.fid + 1
    · exfalso
      unfold recsOf at hent
      rw [if_neg (by omega)] at hent
      rw [hf, assocGet_none_of_not_mem a.old (a.fid + 1)
        (by rw [hids]; exact fid_succ_not_mem_range a.fid)] at hent
      simp [entriesFrom] at hent
    · rw [if_neg hf]
      exact hent
  · rw [appendOne_keep_recsOf dfs a r h]
    by_cases hf : pos.fileId = a.fid
    · rw [if_pos hf]
      unfold recsOf at hent
      rw [if_pos hf] at hent
      rw [entriesFrom_append]
      exact List.mem_append_left _ hent
    · rw [if_neg hf]
      exact hent

theorem fileEntry_appendOne_new (dfs : Nat) (a : AppendSt) (r : LogRecord)
    (hids : a.old.map Prod.fst = List.range a.fid) :
    fileEntry (appendOne dfs a r).1 (appendOne dfs a r).2 r := by
  unfold fileEntry
  by_cases h : (concatEnc a.cur).length + r.encode.length > dfs
  · rw [appendOne_rot_recsOf dfs a r hids h]
    have hpos : (appendOne dfs a r).2 = ⟨a.fid + 1, 0, r.encode.length⟩ := by
      unfold appendOne
      rw [if_pos h]
    rw [hpos]
    dsimp only
    rw [if_pos rfl]
    show _ ∈ (r, 0, r.encode.length) :: entriesFrom (0 + r.encode.length) []
    exact List.mem_cons_self _ _
  · rw [appendOne_keep_recsOf dfs a r h]
    have hpos : (appendOne dfs a r).2 =
        ⟨a.fid, (concatEnc a.cur).length, r.encode.length⟩ := by
      unfold appendOne
      rw [if_neg h]
    rw [hpos]
    dsimp only
    rw [if_pos rfl, entriesFrom_append]
    apply List.mem_append_right
    show _ ∈ (r, 0 + (concatEnc a.cur).length, r.encode.length) ::
      entriesFrom (0 + (concatEnc a.cur).length + r.encode.length) []
    rw [Nat.zero_add]
    exact List.mem_cons_self _ _

theorem sync_fileId (f : DataFile) : f.sync.fileId = f.fileId := rfl

theorem sync_content (f : DataFile) : f.sync.content = f.content := rfl

/-- One engine append refines one abstract append: the relation is
preserved and the returned positions agree. -/
theorem appendLogRecord_rel (st : EngineState) (a : AppendSt) (r : LogRecord)
    (hrel : filesRel st a)
    (hids : a.old.map Prod.fst = List.range a.fid) :
    filesRel (appendLogRecord st r).1 (appendOne st.options.dataFileSize a r).1 ∧
    (appendLogRecord st r).2 = (appendOne st.options.dataFileSize a r).2 := by
  obtain ⟨hfid, hcont, hwo, hkeys, hlook⟩ := hrel
  have hwoC : st.active.writeOff = st.active.content.length := by
    rw [hwo, hcont]
  have hcond : (st.active.writeOff + r.encode.length > st.options.dataFileSize) ↔
      ((concatEnc a.cur).length + r.encode.length > st.options.dataFileSize) := by
    rw [hwo]
  by_cases h : (concatEnc a.cur).length + r.encode.length > st.options.dataFileSize
  · have hrotE : st.active.writeOff + r.encode.length > st.options.dataFileSize :=
      hcond.mpr h
    have hrS : rotatedState st r =
        { st with
          active := DataFile.new (st.active.sync.fileId + 1),
          oldFiles := oldInsert st.oldFiles st.active.sync.fileId
            ⟨st.active.sync.fileId, st.active.sync.content, 0, true⟩ } := by
      unfold rotatedState
      rw [if_pos hrotE]
    have haO : (appendOne st.options.dataFileSize a r).1 =
        ⟨a.fid + 1, [r], assocInsert a.old a.fid a.cur⟩ := by
      unfold appendOne
      rw [if_pos h]
    have haP : (appendOne st.options.dataFileSize a r).2 =
        ⟨a.fid + 1, 0, r.encode.length⟩ := by
      unfold appendOne
      rw [if_pos h]
    have hrc : (appendLogRecord st r).1.active.content = r.encode := by
      rw [appendLogRecord_content, hrS]
      rfl
    have hrich : (appendLogRecord st r).1.active.fileId = a.fid + 1 := by
      rw [appendLogRecord_as_rotated]
      dsimp only
      rw [iteSync_fileId]
      show (rotatedState st r).active.fileId = a.fid + 1
      rw [hrS]
      show st.active.sync.fileId + 1 = a.fid + 1
      rw [sync_fileId, hfid]
    refine ⟨⟨?_, ?_, ?_, ?_, ?_⟩, ?_⟩
    · rw [hrich, haO]
    · rw [hrc, haO]
      show r.encode = r.encode ++ concatEnc []
      rw [show concatEnc [] = ([] : List Nat) from rfl, List.append_nil]
    · rw [appendLogRecord_writeOff_inv st r hwoC, hrc, haO]
      show r.encode.length = (r.encode ++ concatEnc []).length
      rw [show concatEnc [] = ([] : List Nat) from rfl, List.append_nil]
    · rw [appendLogRecord_oldFiles, hrS, haO]
      show (oldInsert st.oldFiles st.active.sync.fileId _).map Prod.fst =
        (assocInsert a.old a.fid a.cur).map Prod.fst
      rw [sync_fileId, hfid]
      have hnmA : a.fid ∉ a.old.map Prod.fst := by
        rw [hids]; simp
      have hnmS : a.fid ∉ st.oldFiles.map Prod.fst := by
        rw [hkeys]; exact hnmA
      unfold oldInsert
      rw [assocInsert_of_not_mem _ _ _ hnmS, assocInsert_of_not_mem _ _ _ hnmA,
        List.map_append, List.map_append, hkeys]
      rfl
    · intro fid
      rw [appendLogRecord_oldFiles, hrS, haO]
      show ((oldLookup (oldInsert st.oldFiles st.active.sync.fileId _) fid).map
          DataFile.content) = (assocGet (assocInsert a.old a.fid a.cur) fid).map concatEnc
      rw [sync_fileId, hfid]
      by_cases hf : fid = a.fid
      · rw [hf]
        unfold oldLookup oldInsert
        rw [assocGet_insert_self, assocGet_insert_self]
        show some st.active.sync.content = some (concatEnc a.cur)
        rw [sync_content, hcont]
      · unfold oldLookup oldInsert
        rw [assocGet_insert_other _ _ _ _ hf, assocGet_insert_other _ _ _ _ hf]
        exact hlook fid
    · rw [appendLogRecord_as_rotated, haP]
      dsimp only
      show (⟨_, (rotatedState st r).active.writeOff, r.encode.length⟩ : LogRecordPos) = _
      rw [iteSync_fileId]
      show (⟨((rotatedState st r).active.write r.encode).fileId, _, _⟩ : LogRecordPos) = _
      unfold DataFile.write
      dsimp only
      rw [hrS]
      show (⟨st.active.sync.fileId + 1, 0, r.encode.length⟩ : LogRecordPos) = _
      rw [sync_fileId, hfid]
  · have hrotE : ¬ st.active.writeOff + r.encode.length > st.options.dataFileSize :=
      fun hh => h (hcond.mp hh)
    have hrS : rotatedState st r = st := by
      unfold rotatedState
      rw [if_neg hrotE]
    have haO : (appendOne st.options.dataFileSize a r).1 =
        ⟨a.fid, a.cur ++ [r], a.old⟩ := by
      unfold appendOne
      rw [if_neg h]
    have haP : (appendOne st.options.dataFileSize a r).2 =
        ⟨a.fid, (concatEnc a.cur).length, r.encode.length⟩ := by
      unfold appendOne
      rw [if_neg h]
    have hrc : (appendLogRecord st r).1.active.content = concatEnc (a.cur ++ [r]) := by
      rw [appendLogRecord_content, hrS, hcont, concatEnc_append]
      show _ = concatEnc a.cur ++ (r.encode ++ concatEnc [])
      rw [show concatEnc [] = ([] : List Nat) from rfl, List.append_nil]
    have hrich : (appendLogRecord st r).1.active.fileId = a.fid := by
      rw [appendLogRecord_as_rotated]
      dsimp only
      rw [iteSync_fileId]
      show (rotatedState st r).active.fileId = a.fid
      rw [hrS]
      exact hfid
    refine ⟨⟨?_, ?_, ?_, ?_, ?_⟩, ?_⟩
    · rw [hrich, haO]
    · rw [hrc, haO]
    · rw [appendLogRecord_writeOff_inv st r hwoC, hrc, haO]
    · rw [appendLogRecord_oldFiles, hrS, haO]
      exact hkeys
    · intro fid
      rw [appendLogRecord_oldFiles, hrS, haO]
      exact hlook fid
    · rw [appendLogRecord_as_rotated, haP]
      dsimp only
      rw [iteSync_fileId]
      show (⟨((rotatedState st r).active.write r.encode).fileId,
        (rotatedState st r).active.writeOff, r.encode.length⟩ : LogRecordPos) = _
      unfold DataFile.write
      dsimp only
      rw [hrS, hfid, hwo]

/-! ## Datasets as operation sequences (`Engine::put` / `Engine::delete`) -/

inductive Op where
  | put (key value : List Nat)
  | del (key : List Nat)
  deriving DecidableEq, Repr

/-- Spec §8 operation bounds: nonempty byte-valued keys up to 64 KiB,
byte-valued values up to 1 MiB. -/
def WFOp : Op → Prop
  | .put k v => k ≠ [] ∧ (∀ b ∈ k, b < 256) ∧ k.length ≤ 2 ^ 16 ∧
      (∀ b ∈ v, b < 256) ∧ v.length ≤ 2 ^ 20
  | .del k => k ≠ [] ∧ (∀ b ∈ k, b < 256) ∧ k.length ≤ 2 ^ 16

instance instDecidableWFOp : (op : Op) → Decidable (WFOp op)
  | .put k v => by unfold WFOp; infer_instance
  | .del k => by unfold WFOp; infer_instance

def applyOp (st : EngineState) : Op → Except Errors EngineState
  | .put k v => Engine.put st k v
  | .del k => Engine.delete st k

def applyOps : List Op → EngineState → Except Errors EngineState
  | [], st => .ok st
  | op :: ops, st =>
    match applyOp st op with
    | .error e => .error e
    | .ok st1 => applyOps ops st1

/-- `Engine::open` on an empty directory. -/
def freshEngine (opts : EngineOptions) : EngineState :=
  { active := DataFile.new 0, oldFiles := [], index := [], seqNo := 1,
    bytesWrite := 0, reclaimSize := 0, options := opts }

/-- Every index entry points at the boundary of a live normal record with
the seq-0 key prefix. -/
def IndexInv (idx : Index) (a : AppendSt) : Prop :=
  ∀ k pos, assocGet idx k = some pos →
    k ≠ [] ∧ ∃ v, fileEntry a pos ⟨logRecordKeyWithSeq k 0, v, .normal⟩

/-- Engine invariant after at most `n` appends. -/
def EngInv (n : Nat) (st : EngineState) : Prop :=
  ∃ a : AppendSt, filesRel st a ∧ AppendInv st.options.dataFileSize a ∧
    IndexInv st.index a ∧ recCount a ≤ n

theorem freshEngine_inv (opts : EngineOptions) : EngInv 0 (freshEngine opts) := by
  refine ⟨freshAppendSt, ⟨rfl, rfl, rfl, rfl, fun fid => rfl⟩,
    freshAppendSt_inv _, ?_, le_refl _⟩
  intro k pos h
  rw [show (freshEngine opts).index = [] from rfl, assocGet_nil] at h
  exact absurd h (by simp)

theorem engPut_inv (st : EngineState) (k v : List Nat) (n : Nat)
    (hinv : EngInv n st)
    (hk : k ≠ []) (hkb : ∀ b ∈ k, b < 256) (hkl : k.length ≤ 2 ^ 16)
    (hvb : ∀ b ∈ v, b < 256) (hvl : v.length ≤ 2 ^ 20)
    (hdfs : 2 ^ 21 ≤ st.options.dataFileSize) :
    ∃ st1, Engine.put st k v = .ok st1 ∧ EngInv (n + 1) st1 ∧
      st1.options = st.options := by
  obtain ⟨a, hrel, hainv, hidx, hcount⟩ := hinv
  have hids := hainv.1
  set record : LogRecord :=
    { key := logRecordKeyWithSeq k NON_TXN_SEQ_NO, value := v, recType := .normal }
    with hrecord
  have hwfr : WFStored record := by
    refine ⟨⟨k, hk, hkl, rfl⟩, ?_, hvb, hvl⟩
    rw [hrecord]
    show ∀ b ∈ logRecordKeyWithSeq k 0, b < 256
    rw [logRecordKeyWithSeq_zero]
    intro b hb
    rcases List.mem_cons.mp hb with rfl | hb
    · omega
    · exact hkb b hb
  obtain ⟨hrel1, hpos⟩ := appendLogRecord_rel st a record hrel hids
  have hopts : (appendLogRecord st record).1.options = st.options := by
    rw [appendLogRecord_as_rotated]
    dsimp only
    unfold rotatedState
    by_cases hh : st.active.writeOff + record.encode.length > st.options.dataFileSize
    · rw [if_pos hh]
    · rw [if_neg hh]
  have hIdxA : (appendLogRecord st record).1.index = st.index :=
    appendLogRecord_index st record
  have hstep : ∃ st1, Engine.put st k v = .ok st1 ∧
      st1.index = (assocInsert st.index k (appendLogRecord st record).2) ∧
      st1.active = (appendLogRecord st record).1.active ∧
      st1.oldFiles = (appendLogRecord st record).1.oldFiles ∧
      st1.options = st.options := by
    unfold Engine.put
    rw [if_neg hk]
    dsimp only
    rw [← hrecord]
    unfold idxPut
    rw [hIdxA]
    cases hold : assocGet st.index k with
    | none =>
      dsimp only
      exact ⟨_, rfl, rfl, rfl, rfl, hopts⟩
    | some oldPos =>
      dsimp only
      exact ⟨_, rfl, rfl, rfl, rfl, hopts⟩
  obtain ⟨st1, hput, hst1idx, hst1act, hst1old, hst1opt⟩ := hstep
  refine ⟨st1, hput, ?_, hst1opt⟩
  refine ⟨(appendOne st.options.dataFileSize a record).1, ?_, ?_, ?_, ?_⟩
  · obtain ⟨r1, r2, r3, r4, r5⟩ := hrel1
    refine ⟨?_, ?_, ?_, ?_, ?_⟩
    · rw [hst1act]; exact r1
    · rw [hst1act]; exact r2
    · rw [hst1act]; exact r3
    · rw [hst1old]; exact r4
    · intro fid
      rw [hst1old]
      exact r5 fid
  · rw [hst1opt]
    exact appendOne_inv st.options.dataFileSize a record hainv hwfr hdfs
  · intro k' pos' hget
    rw [hst1idx] at hget
    by_cases hkk : k' = k
    · subst hkk
      rw [assocGet_insert_self] at hget
      cases hget
      refine ⟨hk, ⟨v, ?_⟩⟩
      rw [hpos]
      exact fileEntry_appendOne_new st.options.dataFileSize a record hids
    · rw [assocGet_insert_other _ _ _ _ hkk] at hget
      obtain ⟨hne', v', hent⟩ := hidx k' pos' hget
      exact ⟨hne', v', fileEntry_appendOne _ a record pos' _ hids hent⟩
  · rw [appendOne_recCount _ a record hids]
    omega

theorem engDelete_inv (st : EngineState) (k : List Nat) (n : Nat)
    (hinv : EngInv n st)
    (hk : k ≠ []) (hkb : ∀ b ∈ k, b < 256) (hkl : k.length ≤ 2 ^ 16)
    (hdfs : 2 ^ 21 ≤ st.options.dataFileSize) :
    ∃ st1, Engine.delete st k = .ok st1 ∧ EngInv (n + 1) st1 ∧
      st1.options = st.options := by
  obtain ⟨a, hrel, hainv, hidx, hcount⟩ := hinv
  have hids := hainv.1
  cases hmiss : idxGet st.index k with
  | none =>
    refine ⟨st, ?_, ⟨a, hrel, hainv, hidx, by omega⟩, rfl⟩
    unfold Engine.delete
    rw [if_neg hk, hmiss]
  | some curPos =>
    set record : LogRecord :=
      { key := logRecordKeyWithSeq k NON_TXN_SEQ_NO, value := [], recType := .deleted }
      with hrecord
    have hwfr : WFStored record := by
      refine ⟨⟨k, hk, hkl, rfl⟩, ?_, by simp, by simp⟩
      rw [hrecord]
      show ∀ b ∈ logRecordKeyWithSeq k 0, b < 256
      rw [logRecordKeyWithSeq_zero]
      intro b hb
      rcases List.mem_cons.mp hb with rfl | hb
      · omega
      · exact hkb b hb
    obtain ⟨hrel1, hpos⟩ := appendLogRecord_rel st a record hrel hids
    have hopts : (appendLogRecord st record).1.options = st.options := by
      rw [appendLogRecord_as_rotated]
      dsimp only
      unfold rotatedState
      by_cases hh : st.active.writeOff + record.encode.length > st.options.dataFileSize
      · rw [if_pos hh]
      · rw [if_neg hh]
    have hIdxA : (appendLogRecord st record).1.index = st.index :=
      appendLogRecord_index st record
    have hstep : ∃ st1, Engine.delete st k = .ok st1 ∧
        st1.index = assocErase st.index k ∧
        st1.active = (appendLogRecord st record).1.active ∧
        st1.oldFiles = (appendLogRecord st record).1.oldFiles ∧
        st1.options = st.options := by
      unfold Engine.delete
      rw [if_neg hk, hmiss]
      rw [← hrecord]
      unfold idxDelete
      dsimp only
      rw [hIdxA]
      cases hold : assocGet st.index k with
      | none =>
        dsimp only
        exact ⟨_, rfl, rfl, rfl, rfl, hopts⟩
      | some oldPos =>
        dsimp only
        exact ⟨_, rfl, rfl, rfl, rfl, hopts⟩
    obtain ⟨st1, hdel, hst1idx, hst1act, hst1old, hst1opt⟩ := hstep
    refine ⟨st1, hdel, ?_, hst1opt⟩
    refine ⟨(appendOne st.options.dataFileSize a record).1, ?_, ?_, ?_, ?_⟩
    · obtain ⟨r1, r2, r3, r4, r5⟩ := hrel1
      refine ⟨?_, ?_, ?_, ?_, ?_⟩
      · rw [hst1act]; exact r1
      · rw [hst1act]; exact r2
      · rw [hst1act]; exact r3
      · rw [hst1old]; exact r4
      · intro fid
        rw [hst1old]
        exact r5 fid
    · rw [hst1opt]
      exact appendOne_inv st.options.dataFileSize a record hainv hwfr hdfs
    · intro k' pos' hget
      rw [hst1idx] at hget
      by_cases hkk : k' = k
      · subst hkk
        rw [assocGet_erase_self] at hget
        exact absurd hget (by simp)
      · rw [assocGet_erase_other _ _ _ hkk] at hget
        obtain ⟨hne', v', hent⟩ := hidx k' pos' hget
        exact ⟨hne', v', fileEntry_appendOne _ a record pos' _ hids hent⟩
    · rw [appendOne_recCount _ a record hids]
      omega

theorem applyOps_inv : ∀ (ops : List Op) (st : EngineState) (n : Nat),
    EngInv n st → (∀ op ∈ ops, WFOp op) →
    2 ^ 21 ≤ st.options.dataFileSize →
    ∀ E, applyOps ops st = .ok E →
      EngInv (n + ops.length) E ∧ E.options = st.options := by
  intro ops
  induction ops with
  | nil =>
    intro st n hinv _ _ E happ
    cases happ
    exact ⟨by simpa using hinv, rfl⟩
  | cons op ops ih =>
    intro st n hinv hwf hdfs E happ
    unfold applyOps at happ
    cases op with
    | put k v =>
      obtain ⟨hk, hkb, hkl, hvb, hvl⟩ := hwf (.put k v) (List.mem_cons_self _ _)
      obtain ⟨st1, hput, hinv1, hopt1⟩ :=
        engPut_inv st k v n hinv hk hkb hkl hvb hvl hdfs
      rw [show applyOp st (.put k v) = Engine.put st k v from rfl, hput] at happ
      dsimp only at happ
      have := ih st1 (n + 1) hinv1
        (fun op' hop' => hwf op' (List.mem_cons_of_mem _ hop'))
        (by rw [hopt1]; exact hdfs) E happ
      refine ⟨?_, by rw [this.2, hopt1]⟩
      have h1 := this.1
      have hlen : n + (Op.put k v :: ops).length = n + 1 + ops.length := by
        rw [List.length_cons]
        omega
      rw [hlen]
      exact h1
    | del k =>
      obtain ⟨hk, hkb, hkl⟩ := hwf (.del k) (List.mem_cons_self _ _)
      obtain ⟨st1, hdel, hinv1, hopt1⟩ :=
        engDelete_inv st k n hinv hk hkb hkl hdfs
      rw [show applyOp st (.del k) = Engine.delete st k from rfl, hdel] at happ
      dsimp only at happ
      have := ih st1 (n + 1) hinv1
        (fun op' hop' => hwf op' (List.mem_cons_of_mem _ hop'))
        (by rw [hopt1]; exact hdfs) E happ
      refine ⟨?_, by rw [this.2, hopt1]⟩
      have h1 := this.1
      have hlen : n + (Op.del k :: ops).length = n + 1 + ops.length := by
        rw [List.length_cons]
        omega
      rw [hlen]
      exact h1

theorem mem_entriesFrom_drop (L : List LogRecord) :
    ∀ base r off sz, (r, off, sz) ∈ entriesFrom base L →
      ∃ tail : List LogRecord,
        (concatEnc L).drop (off - base) = r.encode ++ concatEnc tail ∧
        base ≤ off ∧ sz = r.encode.length := by
  induction L with
  | nil =>
    intro base r off sz h
    simp [entriesFrom] at h
  | cons hd t ih =>
    intro base r off sz h
    rw [show entriesFrom base (hd :: t) =
      (hd, base, hd.encode.length) :: entriesFrom (base + hd.encode.length) t
      from rfl] at h
    rcases List.mem_cons.mp h with heq | h
    · obtain ⟨h1, h2, h3⟩ := Prod.mk.injEq .. ▸ heq
      injection heq with e1 e2
      injection e2 with e3 e4
      refine ⟨t, ?_, by omega, by rw [e1, e4]⟩
      rw [e1, e3]
      simp
      rfl
    · obtain ⟨tail, hdrop, hbase, hsz⟩ := ih (base + hd.encode.length) r off sz h
      refine ⟨tail, ?_, by omega, hsz⟩
      show (hd.encode ++ concatEnc t).drop (off - base) = _
      have hsplit : off - base = hd.encode.length + (off - base - hd.encode.length) := by
        omega
      rw [hsplit, ← List.drop_drop, List.drop_left]
      have : off - base - hd.encode.length = off - (base + hd.encode.length) := by
        omega
      rw [this]
      exact hdrop

/-- Reading a position of the abstract view returns exactly the record
stored there. -/
theorem getValue_of_entry (st : EngineState) (a : AppendSt) (pos : LogRecordPos)
    (r : LogRecord) (hrel : filesRel st a) (hent : fileEntry a pos r)
    (hwf : WFRec r) :
    Engine.getValueByPosition st pos =
      some (if r.recType = .deleted then .error .KeyNotFound else .ok r.value) := by
  obtain ⟨hfid, hcont, hwo, hkeys, hlook⟩ := hrel
  obtain ⟨hkne, hkb, hvb, hkl, hvl⟩ := hwf
  unfold fileEntry at hent
  have hread : ∀ content, content = concatEnc (recsOf a pos.fileId) →
      readLogRecord content pos.offset = some (.ok (r, r.encode.length)) := by
    intro content hc
    obtain ⟨tail, hdrop, _, _⟩ :=
      mem_entriesFrom_drop (recsOf a pos.fileId) 0 r pos.offset r.encode.length hent
    rw [Nat.sub_zero] at hdrop
    apply readLogRecord_at r content pos.offset (concatEnc tail)
    · rw [hc]; exact hdrop
    · intro hh
      exact hkne (List.length_eq_zero.mp hh.1)
    · exact hkb
    · exact hvb
    · exact hkl
    · exact hvl
  unfold Engine.getValueByPosition
  by_cases hb : st.active.fileId = pos.fileId
  · rw [if_pos hb]
    have hcur : recsOf a pos.fileId = a.cur := by
      unfold recsOf
      rw [if_pos (by rw [← hb, hfid])]
    rw [hread st.active.content (by rw [hcont, hcur])]
    dsimp only
    by_cases hdel : r.recType = .deleted
    · rw [if_pos hdel, if_pos hdel]
    · rw [if_neg hdel, if_neg hdel]
  · rw [if_neg hb]
    have hnc : ¬ pos.fileId = a.fid := by
      rw [← hfid]; exact fun hh => hb hh.symm
    have hrecs : recsOf a pos.fileId = (assocGet a.old pos.fileId).getD [] := by
      unfold recsOf
      rw [if_neg hnc]
    cases hgo : assocGet a.old pos.fileId with
    | none =>
      exfalso
      rw [hrecs, hgo] at hent
      simp [entriesFrom] at hent
    | some recs =>
      have := hlook pos.fileId
      rw [hgo] at this
      cases holdf : oldLookup st.oldFiles pos.fileId with
      | none =>
        rw [holdf] at this
        exact absurd this (by simp)
      | some f =>
        rw [holdf] at this
        have hfc : f.content = concatEnc recs := by
          injection this
        dsimp only
        rw [hread f.content (by rw [hfc, hrecs, hgo]; rfl)]
        dsimp only
        by_cases hdel : r.recType = .deleted
        · rw [if_pos hdel, if_pos hdel]
        · rw [if_neg hdel, if_neg hdel]

theorem engineGet_some (st : EngineState) (a : AppendSt) (k : List Nat)
    (pos : LogRecordPos) (v : List Nat) (hrel : filesRel st a) (hk : k ≠ [])
    (hl : idxGet st.index k = some pos)
    (hent : fileEntry a pos ⟨logRecordKeyWithSeq k 0, v, .normal⟩)
    (hwf : WFRec ⟨logRecordKeyWithSeq k 0, v, .normal⟩) :
    Engine.get st k = some (.ok v) := by
  unfold Engine.get
  rw [if_neg hk, hl]
  dsimp only
  rw [getValue_of_entry st a pos _ hrel hent hwf]
  rw [if_neg (by intro hh; cases hh)]

/-! ## Merge (`src/merge.rs`)

`Engine::merge` rotates the active file, opens a scratch engine in the
staging directory, copies every record that the in-memory index still
points at (rewritten to seq 0), writes a hint record per copy, and records
the first non-merged file id in the merge-finished file.
`load_merge_files` promotes the staged files into the live directory at
the next open. The disk-space total and the `f32` threshold comparison are
parameters of the model. -/

/-- The bytes of `"merge.finished"`. -/
def MERGE_FIN_KEY : List Nat :=
  [109, 101, 114, 103, 101, 46, 102, 105, 110, 105, 115, 104, 101, 100]

/-- `Engine::is_engine_empty`. -/
def isEngineEmpty (st : EngineState) : Bool :=
  decide (st.active.writeOff = 0) && decide (st.oldFiles = [])

/-- `Engine::rotate_merge_files`: collect old ids, sync and retire the
active file, open a fresh active, return the sorted merge file ids. -/
def rotateMergeFiles (st : EngineState) : EngineState × List Nat :=
  let ids := st.oldFiles.map Prod.fst
  let a := st.active.fileId
  ({ st with
     active := DataFile.new (a + 1),
     oldFiles := oldInsert st.oldFiles a ⟨a, st.active.sync.content, 0, true⟩ },
   List.insertionSort (· ≤ ·) (ids ++ [a]))

/-- The bytes of file `fid` as the merge scan reads them back. -/
def engineFileContent (st : EngineState) (fid : Nat) : List Nat :=
  if fid = st.active.fileId then st.active.content
  else ((oldLookup st.oldFiles fid).map DataFile.content).getD []

/-- One record of the merge scan loop (`src/merge.rs` lines 84–92):
copy it into the scratch engine and emit a hint record when the index
still points exactly here. -/
def mergeStep (idx : Index) (fid : Nat) (acc : EngineState × List LogRecord)
    (e : LogRecord × Nat × Nat) : Option (EngineState × List LogRecord) :=
  match parseLogRecordKey e.1.key with
  | none => none
  | some (realKey, _) =>
    match idxGet idx realKey with
    | some indexPos =>
      if indexPos.fileId = fid ∧ indexPos.offset = e.2.1 then
        let rewrittenRec := { e.1 with key := logRecordKeyWithSeq realKey NON_TXN_SEQ_NO }
        let ap := appendLogRecord acc.1 rewrittenRec
        some (ap.1, acc.2 ++ [⟨realKey, ap.2.encode, .normal⟩])
      else some acc
    | none => some acc

def mergeFileEntries (idx : Index) (fid : Nat) :
    List (LogRecord × Nat × Nat) → EngineState × List LogRecord →
    Option (EngineState × List LogRecord)
  | [], acc => some acc
  | e :: es, acc =>
    match mergeStep idx fid acc e with
    | none => none
    | some acc1 => mergeFileEntries idx fid es acc1

/-- The per-file merge loop (`src/merge.rs` lines 71–94). -/
def mergeScanFiles (idx : Index) (src : EngineState) :
    List Nat → EngineState × List LogRecord →
    Option (Except Errors (EngineState × List LogRecord))
  | [], acc => some (.ok acc)
  | fid :: rest, acc =>
    match scanFile (engineFileContent src fid) with
    | none => none
    | some (.error e) => some (.error e)
    | some (.ok (es, _)) =>
      match mergeFileEntries idx fid es acc with
      | none => none
      | some acc1 => mergeScanFiles idx src rest acc1

/-- `Options::default()` with the live engine's `data_file_size`
(`src/merge.rs` lines 64–66). -/
def mergeOptions (opts : EngineOptions) : EngineOptions :=
  { dataFileSize := opts.dataFileSize, syncWrites := false, bytesPerSync := 0 }

structure MergeOut where
  mergeDb : EngineState
  hint : List LogRecord
  finValue : List Nat

/-- `Engine::merge`. Returns the live engine state after the rotation and
the staged outputs; `none` for the unreachable panics. `thresholdOk` is
the outcome of the `f32` ratio comparison and `totalSize`/`availableSpace`
are the disk statistics. -/
def mergeModel (st : EngineState) (thresholdOk : Bool)
    (totalSize availableSpace : Nat) :
    Option (Except Errors (EngineState × Option MergeOut)) :=
  if isEngineEmpty st then some (.ok (st, none))
  else if thresholdOk = false then some (.error .MergeThresholdUnreached)
  else if mergeSpaceCheckFails totalSize st.reclaimSize availableSpace then
    some (.error .MergeNoEnoughSpace)
  else
    let rot := rotateMergeFiles st
    match mergeScanFiles st.index rot.1 rot.2
      (freshEngine (mergeOptions st.options), []) with
    | none => none
    | some (.error e) => some (.error e)
    | some (.ok (mdb, hint)) =>
      match rot.2.getLast? with
      | none => none
      | some lastId =>
        some (.ok (rot.1, some ⟨mdb, hint, natToDecimal (lastId + 1)⟩))

/-! ## Directories and reopening (`src/db.rs` `Engine::open`,
`load_data_files`; `src/merge.rs` `load_merge_files`) -/

/-- A database directory: the `.data` files by id, the hint file's bytes
and the merge-finished file's bytes. -/
structure Dir where
  dataFiles : List (Nat × List Nat)
  hintFile : Option (List Nat)
  mergeFin : Option (List Nat)

/-- The named data files the engine's directory holds. -/
def dirDataFilesOf (st : EngineState) : List (Nat × List Nat) :=
  st.oldFiles.map (fun e => (e.1, e.2.content)) ++
    [(st.active.fileId, st.active.content)]

/-- The staged `.data` files `load_merge_files` moves: zero-length data
files are skipped. -/
def stagedDataFiles (out : MergeOut) : List (Nat × List Nat) :=
  (dirDataFilesOf out.mergeDb).filter (fun e => !decide (e.2 = []))

/-- `load_merge_files` on the live directory when staged outputs exist:
read the merge-finished record, delete live data files below the first
non-merged id, move the staged files (and hint/fin files) in. -/
def promote (live : List (Nat × List Nat)) (out : MergeOut) :
    Option (Except Errors Dir) :=
  let finContent := LogRecord.encode ⟨MERGE_FIN_KEY, out.finValue, .normal⟩
  match readLogRecord finContent 0 with
  | none => none
  | some (.error e) => some (.error e)
  | some (.ok (r, _)) =>
    if r.value ≠ [] ∧ ∀ b ∈ r.value, 48 ≤ b ∧ b ≤ 57 then
      let F := decimalToNat r.value
      let surv := live.filter (fun e => !decide (e.1 < F))
      let staged := stagedDataFiles out
      some (.ok
        { dataFiles :=
            surv.filter (fun e => !decide (e.1 ∈ staged.map Prod.fst)) ++ staged,
          hintFile := some (concatEnc out.hint),
          mergeFin := some finContent })
    else none

/-- `Engine::load_index_from_hint_file` applied to scanned hint entries:
decode each position (panic on malformed bytes) and put it. -/
def hintEntriesToIndex : List (LogRecord × Nat × Nat) → Index → Option Index
  | [], idx => some idx
  | e :: es, idx =>
    match decodeLogRecordPos e.1.value with
    | none => none
    | some pos => hintEntriesToIndex es (idxPut idx e.1.key pos).1

def loadHintIndex (d : Dir) : Option (Except Errors Index) :=
  match d.hintFile with
  | none => some (.ok [])
  | some bytes =>
    match scanFile bytes with
    | none => none
    | some (.error e) => some (.error e)
    | some (.ok (es, _)) =>
      match hintEntriesToIndex es [] with
      | none => none
      | some idx => some (.ok idx)

/-- Reading the merge-finished marker during `load_index_from_data_files`
(`src/db.rs` lines 548–558): absent file means no merge; a present file is
read at offset 0 and its value parsed as a decimal id (panicking on
non-digit bytes). -/
def finInfo (d : Dir) : Option (Except Errors (Bool × Nat)) :=
  match d.mergeFin with
  | none => some (.ok (false, 0))
  | some bytes =>
    match readLogRecord bytes 0 with
    | none => none
    | some (.error e) => some (.error e)
    | some (.ok (r, _)) =>
      if r.value ≠ [] ∧ ∀ b ∈ r.value, 48 ≤ b ∧ b ≤ 57 then
        some (.ok (true, decimalToNat r.value))
      else none

/-- The per-file replay loop of `load_index_from_data_files`: skip merged
files, scan and replay the rest, tracking the write offset the last file
leaves for the active file. -/
def replayDirAux (d : Dir) (hasMerged : Bool) (F : Nat) :
    List Nat → ReplaySt → Nat → Option (Except Errors (ReplaySt × Nat))
  | [], st, wo => some (.ok (st, wo))
  | fid :: rest, st, _ =>
    if hasMerged ∧ fid < F then replayDirAux d hasMerged F rest st 0
    else
      match scanFile ((assocGet d.dataFiles fid).getD []) with
      | none => none
      | some (.error e) => some (.error e)
      | some (.ok (es, endOff)) =>
        match replay (es.map (fun e => (e.1, ⟨fid, e.2.1, e.2.2⟩))) st with
        | none => none
        | some st1 => replayDirAux d hasMerged F rest st1 endOff

/-- `Engine::open` on a directory, for the standard (non-B+tree) index:
sort the data file ids, load the hint index, replay non-merged data files,
and assemble the engine with the largest id as the active file. -/
def openFromDir (opts : EngineOptions) (d : Dir) :
    Option (Except Errors EngineState) :=
  match loadHintIndex d with
  | none => none
  | some (.error e) => some (.error e)
  | some (.ok idx0) =>
    match List.insertionSort (· ≤ ·) (d.dataFiles.map Prod.fst) with
    | [] =>
      some (.ok { active := DataFile.new 0, oldFiles := [], index := idx0,
                  seqNo := 1, bytesWrite := 0, reclaimSize := 0, options := opts })
    | fid0 :: restIds =>
      match finInfo d with
      | none => none
      | some (.error e) => some (.error e)
      | some (.ok (hasMerged, F)) =>
        match replayDirAux d hasMerged F (fid0 :: restIds) ⟨idx0, 0, [], 0⟩ 0 with
        | none => none
        | some (.error e) => some (.error e)
        | some (.ok (rst, wo)) =>
          let lastId := (fid0 :: restIds).getLast?.getD 0
          some (.ok
            { active := ⟨lastId, (assocGet d.dataFiles lastId).getD [], wo, true⟩,
              oldFiles := ((fid0 :: restIds).dropLast).map
                (fun i => (i, (⟨i, (assocGet d.dataFiles i).getD [], 0, true⟩ : DataFile))),
              index := rst.index,
              seqNo := openSeqNo rst.maxSeq, bytesWrite := 0,
              reclaimSize := rst.reclaimSize, options := opts })

/-- The full pipeline of claim C2: `merge()`, promotion of the staged
files at the next open, and the open itself. When the engine was empty
merge stages nothing and the open sees the engine's own directory. -/
def mergeAndReopen (st : EngineState) (thresholdOk : Bool)
    (totalSize availableSpace : Nat) : Option (Except Errors EngineState) :=
  match mergeModel st thresholdOk totalSize availableSpace with
  | none => none
  | some (.error e) => some (.error e)
  | some (.ok (live, none)) =>
    openFromDir live.options
      { dataFiles := dirDataFilesOf live, hintFile := none, mergeFin := none }
  | some (.ok (live, some out)) =>
    match promote (dirDataFilesOf live) out with
    | none => none
    | some (.error e) => some (.error e)
    | some (.ok d) => openFromDir live.options d

/-! ### Scan-entry bookkeeping -/

theorem entriesFrom_records : ∀ (base : Nat) (L : List LogRecord),
    (entriesFrom base L).map Prod.fst = L := by
  intro base L
  induction L generalizing base with
  | nil => rfl
  | cons r t ih =>
    show (r, base, r.encode.length).1 :: (entriesFrom (base + r.encode.length) t).map Prod.fst = _
    rw [ih]

theorem mem_entriesFrom_rec (base : Nat) (L : List LogRecord)
    (e : LogRecord × Nat × Nat) (h : e ∈ entriesFrom base L) : e.1 ∈ L := by
  have := entriesFrom_records base L
  rw [← this]
  exact List.mem_map_of_mem Prod.fst h

theorem entriesFrom_offsets_pairwise (L : List LogRecord) : ∀ base,
    (entriesFrom base L).Pairwise (fun e1 e2 => e1.2.1 ≠ e2.2.1) := by
  induction L with
  | nil => intro base; exact List.Pairwise.nil
  | cons r t ih =>
    intro base
    show ((r, base, r.encode.length) :: entriesFrom (base + r.encode.length) t).Pairwise _
    refine List.pairwise_cons.mpr ⟨?_, ih (base + r.encode.length)⟩
    intro e he
    have hb := (entriesFrom_offset_bounds t (base + r.encode.length) e he).1
    have hp := encode_length_pos r
    show base ≠ e.2.1
    omega

theorem natToDecimal_ne_nil (n : Nat) : natToDecimal n ≠ [] := by
  rw [natToDecimal_eq]
  by_cases h : n < 10
  · rw [if_pos h]; simp
  · rw [if_neg h]; simp

theorem natToDecimal_digits (n : Nat) : ∀ b ∈ natToDecimal n, 48 ≤ b ∧ b ≤ 57 := by
  induction n using Nat.strong_induction_on with
  | _ n ih =>
    rw [natToDecimal_eq]
    by_cases h : n < 10
    · simp [h]; omega
    · have hdiv : n / 10 < n := Nat.div_lt_self (by omega) (by omega)
      simp only [if_neg h, List.mem_append, List.mem_singleton]
      rintro b (hb | rfl)
      · exact ih (n / 10) hdiv b hb
      · have := Nat.mod_lt n (y := 10) (by omega)
        omega

theorem encodeVarint_length_le_self (n : Nat) :
    (encodeVarint n).length ≤ n + 1 := by
  induction n using Nat.strong_induction_on with
  | _ n ih =>
    rw [encodeVarint_eq]
    by_cases h : n < 128
    · simp [h]
    · have hdiv : n / 128 < n := Nat.div_lt_self (by omega) (by omega)
      rw [if_neg h, List.length_cons]
      have := ih (n / 128) hdiv
      omega

/-- The abstract view after `rotate_merge_files`. -/
def rotAbs (a : AppendSt) : AppendSt :=
  ⟨a.fid + 1, [], assocInsert a.old a.fid a.cur⟩

theorem rotAbs_recsOf (a : AppendSt)
    (hids : a.old.map Prod.fst = List.range a.fid) (fid : Nat) :
    recsOf (rotAbs a) fid = if fid = a.fid + 1 then [] else recsOf a fid := by
  unfold rotAbs recsOf
  dsimp only
  by_cases hf : fid = a.fid + 1
  · rw [if_pos hf, if_pos hf]
  · rw [if_neg hf, if_neg hf]
    by_cases hf2 : fid = a.fid
    · rw [hf2, assocGet_insert_self, if_pos rfl]
      rfl
    · rw [assocGet_insert_other a.old a.fid fid a.cur hf2, if_neg hf2]

theorem fileEntry_rotAbs (a : AppendSt) (pos : LogRecordPos) (r : LogRecord)
    (hids : a.old.map Prod.fst = List.range a.fid)
    (hent : fileEntry a pos r) : fileEntry (rotAbs a) pos r := by
  unfold fileEntry at hent ⊢
  rw [rotAbs_recsOf a hids]
  by_cases hf : pos.fileId = a.fid + 1
  · exfalso
    unfold recsOf at hent
    rw [if_neg (by omega), hf, assocGet_none_of_not_mem a.old (a.fid + 1)
      (by rw [hids]; exact fid_succ_not_mem_range a.fid)] at hent
    simp [entriesFrom] at hent
  · rw [if_neg hf]
    exact hent

/-- Any position holding a record lies in a segment with id at most the
active id. -/
theorem fileEntry_fid_le (a : AppendSt) (pos : LogRecordPos) (r : LogRecord)
    (hids : a.old.map Prod.fst = List.range a.fid)
    (hent : fileEntry a pos r) : pos.fileId ≤ a.fid := by
  by_contra hgt
  unfold fileEntry recsOf at hent
  rw [if_neg (by omega), assocGet_none_of_not_mem a.old pos.fileId
    (by rw [hids]; simp; omega)] at hent
  simp [entriesFrom] at hent

theorem fid_le_recCount (a : AppendSt)
    (hids : a.old.map Prod.fst = List.range a.fid)
    (hne : ∀ e ∈ a.old, e.2 ≠ []) : a.fid ≤ recCount a := by
  unfold recCount
  have hlen : a.old.length = a.fid := by
    have := congrArg List.length hids
    rw [List.length_map, List.length_range] at this
    exact this
  have hsum : ∀ l : List (Nat × List LogRecord), (∀ e ∈ l, e.2 ≠ []) →
      l.length ≤ (l.map (fun e => e.2.length)).sum := by
    intro l
    induction l with
    | nil => intro _; simp
    | cons e t ih =>
      intro hne1
      rw [List.map_cons, List.sum_cons, List.length_cons]
      have he := hne1 e (List.mem_cons_self e t)
      have h1 : 1 ≤ e.2.length := by
        cases hc : e.2 with
        | nil => exact absurd hc he
        | cons x xs => simp
      have := ih (fun e1 he1 => hne1 e1 (List.mem_cons_of_mem e he1))
      omega
  have := hsum a.old hne
  omega

theorem sortedIds_range (n : Nat) :
    List.insertionSort (· ≤ ·) (List.range n ++ [n]) = List.range (n + 1) := by
  rw [← List.range_succ]
  exact List.Sorted.insertionSort_eq (List.sorted_le_range (n + 1))

/-! ### What the merge scan copies -/

/-- Whether the merge loop copies one scan entry, and the pair it copies. -/
def copyFn (idx : Index) (fid : Nat) (e : LogRecord × Nat × Nat) :
    Option (List Nat × LogRecord) :=
  match parseLogRecordKey e.1.key with
  | none => none
  | some (rk, _) =>
    match idxGet idx rk with
    | some ip =>
      if ip.fileId = fid ∧ ip.offset = e.2.1 then
        some (rk, { e.1 with key := logRecordKeyWithSeq rk NON_TXN_SEQ_NO })
      else none
    | none => none

/-- The (real key, record) pairs the merge loop copies out of one file's
scan entries. -/
def copyPairsOfEntries (idx : Index) (fid : Nat)
    (es : List (LogRecord × Nat × Nat)) : List (List Nat × LogRecord) :=
  es.filterMap (copyFn idx fid)

/-- One copy into the scratch engine plus its hint record. -/
def mergeAppend (acc : EngineState × List LogRecord)
    (p : List Nat × LogRecord) : EngineState × List LogRecord :=
  let ap := appendLogRecord acc.1 p.2
  (ap.1, acc.2 ++ [⟨p.1, ap.2.encode, .normal⟩])

theorem mergeFileEntries_spec (idx : Index) (fid : Nat) :
    ∀ (es : List (LogRecord × Nat × Nat)) (acc : EngineState × List LogRecord),
      (∀ e ∈ es, (parseLogRecordKey e.1.key).isSome) →
      mergeFileEntries idx fid es acc =
        some (List.foldl mergeAppend acc (copyPairsOfEntries idx fid es)) := by
  intro es
  induction es with
  | nil => intro acc _; rfl
  | cons e es ih =>
    intro acc hp
    have hpe := hp e (List.mem_cons_self _ _)
    unfold mergeFileEntries mergeStep
    cases hparse : parseLogRecordKey e.1.key with
    | none => rw [hparse] at hpe; exact absurd hpe (by simp)
    | some pr =>
      obtain ⟨rk, sq⟩ := pr
      dsimp only
      have hcp : copyPairsOfEntries idx fid (e :: es) =
          (match idxGet idx rk with
           | some ip =>
             if ip.fileId = fid ∧ ip.offset = e.2.1 then
               (rk, { e.1 with key := logRecordKeyWithSeq rk NON_TXN_SEQ_NO }) ::
                 copyPairsOfEntries idx fid es
             else copyPairsOfEntries idx fid es
           | none => copyPairsOfEntries idx fid es) := by
        unfold copyPairsOfEntries
        rw [List.filterMap_cons]
        unfold copyFn
        rw [hparse]
        dsimp only
        cases idxGet idx rk with
        | none => rfl
        | some ip =>
          dsimp only
          by_cases hc : ip.fileId = fid ∧ ip.offset = e.2.1
          · rw [if_pos hc, if_pos hc]
          · rw [if_neg hc, if_neg hc]
      rw [hcp]
      cases idxGet idx rk with
      | none =>
        dsimp only
        exact ih acc (fun e1 he1 => hp e1 (List.mem_cons_of_mem e he1))
      | some ip =>
        dsimp only
        by_cases hc : ip.fileId = fid ∧ ip.offset = e.2.1
        · rw [if_pos hc, if_pos hc]
          rw [List.foldl_cons]
          exact ih _ (fun e1 he1 => hp e1 (List.mem_cons_of_mem e he1))
        · rw [if_neg hc, if_neg hc]
          exact ih acc (fun e1 he1 => hp e1 (List.mem_cons_of_mem e he1))

/-- All pairs copied across the sorted source files. -/
def copyPairsAll (idx : Index) (recs : Nat → List LogRecord)
    (ids : List Nat) : List (List Nat × LogRecord) :=
  (ids.map (fun fid => copyPairsOfEntries idx fid (entriesFrom 0 (recs fid)))).flatten

theorem mergeScanFiles_spec (idx : Index) (src : EngineState)
    (recs : Nat → List LogRecord) :
    ∀ (ids : List Nat) (acc : EngineState × List LogRecord),
      (∀ fid ∈ ids, engineFileContent src fid = concatEnc (recs fid)) →
      (∀ fid ∈ ids, ∀ r ∈ recs fid, WFRec r ∧ (parseLogRecordKey r.key).isSome) →
      mergeScanFiles idx src ids acc =
        some (.ok (List.foldl mergeAppend acc (copyPairsAll idx recs ids))) := by
  intro ids
  induction ids with
  | nil =>
    intro acc _ _
    rfl
  | cons fid ids ih =>
    intro acc hc hwf
    unfold mergeScanFiles
    rw [hc fid (List.mem_cons_self _ _),
      scanFile_spec _ (recs fid)
        (fun r hr => (hwf fid (List.mem_cons_self _ _) r hr).1) rfl]
    dsimp only
    rw [mergeFileEntries_spec idx fid (entriesFrom 0 (recs fid)) acc ?hp]
    case hp =>
      intro e he
      exact (hwf fid (List.mem_cons_self _ _) e.1 (mem_entriesFrom_rec 0 _ e he)).2
    dsimp only
    rw [ih _ (fun f hf => hc f (List.mem_cons_of_mem _ hf))
      (fun f hf => hwf f (List.mem_cons_of_mem _ hf))]
    show _ = some (.ok (List.foldl mergeAppend acc
      (copyPairsOfEntries idx fid (entriesFrom 0 (recs fid)) ++ copyPairsAll idx recs ids)))
    rw [List.foldl_append]

/-- Record-level mirror of the sequence of appends the merge performs,
with the returned positions. -/
def appendAllA (dfs : Nat) : AppendSt → List LogRecord → AppendSt × List LogRecordPos
  | a, [] => (a, [])
  | a, r :: rs =>
    let x := appendOne dfs a r
    let y := appendAllA dfs x.1 rs
    (y.1, x.2 :: y.2)

theorem appendLogRecord_options (st : EngineState) (r : LogRecord) :
    (appendLogRecord st r).1.options = st.options := by
  rw [appendLogRecord_as_rotated]
  dsimp only
  unfold rotatedState
  by_cases hh : st.active.writeOff + r.encode.length > st.options.dataFileSize
  · rw [if_pos hh]
  · rw [if_neg hh]

theorem foldl_mergeAppend_rel :
    ∀ (ps : List (List Nat × LogRecord)) (mdb : EngineState)
      (hint : List LogRecord) (a : AppendSt),
      filesRel mdb a → AppendInv mdb.options.dataFileSize a →
      (∀ p ∈ ps, WFStored p.2) → 2 ^ 21 ≤ mdb.options.dataFileSize →
      filesRel (List.foldl mergeAppend (mdb, hint) ps).1
          (appendAllA mdb.options.dataFileSize a (ps.map Prod.snd)).1 ∧
        AppendInv mdb.options.dataFileSize
          (appendAllA mdb.options.dataFileSize a (ps.map Prod.snd)).1 ∧
        (List.foldl mergeAppend (mdb, hint) ps).2 =
          hint ++ List.zipWith (fun p q => (⟨p.1, q.encode, .normal⟩ : LogRecord))
            ps (appendAllA mdb.options.dataFileSize a (ps.map Prod.snd)).2 ∧
        (List.foldl mergeAppend (mdb, hint) ps).1.options = mdb.options := by
  intro ps
  induction ps with
  | nil =>
    intro mdb hint a hrel hinv _ _
    exact ⟨hrel, hinv, by simp, rfl⟩
  | cons p ps ih =>
    intro mdb hint a hrel hinv hwf hdfs
    have hwfp := hwf p (List.mem_cons_self _ _)
    obtain ⟨hrel1, hpos1⟩ := appendLogRecord_rel mdb a p.2 hrel hinv.1
    have hinv1 := appendOne_inv mdb.options.dataFileSize a p.2 hinv hwfp hdfs
    have hopt1 := appendLogRecord_options mdb p.2
    have hfold : List.foldl mergeAppend (mdb, hint) (p :: ps) =
        List.foldl mergeAppend
          ((appendLogRecord mdb p.2).1,
           hint ++ [⟨p.1, (appendLogRecord mdb p.2).2.encode, .normal⟩]) ps := rfl
    have hAA : appendAllA mdb.options.dataFileSize a ((p :: ps).map Prod.snd) =
        (let x := appendOne mdb.options.dataFileSize a p.2
         let y := appendAllA mdb.options.dataFileSize x.1 (ps.map Prod.snd)
         (y.1, x.2 :: y.2)) := rfl
    have hdfs1 : (appendLogRecord mdb p.2).1.options.dataFileSize =
        mdb.options.dataFileSize := by rw [hopt1]
    have hih := ih (appendLogRecord mdb p.2).1
      (hint ++ [⟨p.1, (appendLogRecord mdb p.2).2.encode, .normal⟩])
      (appendOne mdb.options.dataFileSize a p.2).1
      hrel1
      (by rw [hdfs1]; exact hinv1)
      (fun q hq => hwf q (List.mem_cons_of_mem p hq)) (by rw [hdfs1]; exact hdfs)
    rw [hdfs1] at hih
    obtain ⟨ih1, ih2, ih3, ih4⟩ := hih
    rw [hfold, hAA]
    refine ⟨ih1, ih2, ?_, by rw [ih4, hopt1]⟩
    rw [ih3]
    show hint ++ [(⟨p.1, (appendLogRecord mdb p.2).2.encode, .normal⟩ : LogRecord)] ++ _ =
      hint ++ List.zipWith _ (p :: ps) ((appendOne mdb.options.dataFileSize a p.2).2 ::
        (appendAllA mdb.options.dataFileSize
          (appendOne mdb.options.dataFileSize a p.2).1 (ps.map Prod.snd)).2)
    rw [List.zipWith_cons_cons, List.append_assoc]
    rw [hpos1]
    rfl

theorem appendAllA_inv (dfs : Nat) :
    ∀ (rs : List LogRecord) (a : AppendSt), AppendInv dfs a →
      (∀ r ∈ rs, WFStored r) → 2 ^ 21 ≤ dfs →
      AppendInv dfs (appendAllA dfs a rs).1 := by
  intro rs
  induction rs with
  | nil => intro a hinv _ _; exact hinv
  | cons r rs ih =>
    intro a hinv hwf hdfs
    exact ih (appendOne dfs a r).1
      (appendOne_inv dfs a r hinv (hwf r (List.mem_cons_self _ _)) hdfs)
      (fun q hq => hwf q (List.mem_cons_of_mem r hq)) hdfs

theorem fileEntry_appendAllA (dfs : Nat) :
    ∀ (rs : List LogRecord) (a : AppendSt) (pos : LogRecordPos) (r0 : LogRecord),
      AppendInv dfs a → (∀ r ∈ rs, WFStored r) → 2 ^ 21 ≤ dfs →
      fileEntry a pos r0 → fileEntry (appendAllA dfs a rs).1 pos r0 := by
  intro rs
  induction rs with
  | nil => intro a pos r0 _ _ _ h; exact h
  | cons r rs ih =>
    intro a pos r0 hinv hwf hdfs hent
    exact ih (appendOne dfs a r).1 pos r0
      (appendOne_inv dfs a r hinv (hwf r (List.mem_cons_self _ _)) hdfs)
      (fun q hq => hwf q (List.mem_cons_of_mem r hq)) hdfs
      (fileEntry_appendOne dfs a r pos r0 hinv.1 hent)

theorem appendAllA_zip_entries (dfs : Nat) :
    ∀ (rs : List LogRecord) (a : AppendSt), AppendInv dfs a →
      (∀ r ∈ rs, WFStored r) → 2 ^ 21 ≤ dfs →
      ∀ p ∈ List.zip rs (appendAllA dfs a rs).2,
        fileEntry (appendAllA dfs a rs).1 p.2 p.1 := by
  intro rs
  induction rs with
  | nil => intro a _ _ _ p hp; simp at hp
  | cons r rs ih =>
    intro a hinv hwf hdfs p hp
    have hz : List.zip (r :: rs) ((appendAllA dfs a (r :: rs)).2) =
        (r, (appendOne dfs a r).2) ::
          List.zip rs (appendAllA dfs (appendOne dfs a r).1 rs).2 := rfl
    rw [hz] at hp
    have hinv1 := appendOne_inv dfs a r hinv (hwf r (List.mem_cons_self _ _)) hdfs
    have hwf1 := fun q hq => hwf q (List.mem_cons_of_mem r hq)
    rcases List.mem_cons.mp hp with rfl | hp
    · show fileEntry (appendAllA dfs a (r :: rs)).1 (appendOne dfs a r).2 r
      have hh : (appendAllA dfs a (r :: rs)).1 =
          (appendAllA dfs (appendOne dfs a r).1 rs).1 := rfl
      rw [hh]
      exact fileEntry_appendAllA dfs rs (appendOne dfs a r).1 _ r hinv1 hwf1 hdfs
        (fileEntry_appendOne_new dfs a r hinv.1)
    · exact ih (appendOne dfs a r).1 hinv1 hwf1 hdfs p hp

theorem appendOne_entries_sub (dfs : Nat) (a : AppendSt) (r : LogRecord)
    (hids : a.old.map Prod.fst = List.range a.fid) (fid : Nat)
    (e : LogRecord × Nat × Nat)
    (he : e ∈ entriesFrom 0 (recsOf (appendOne dfs a r).1 fid)) :
    e ∈ entriesFrom 0 (recsOf a fid) ∨
      (e.1 = r ∧ (⟨fid, e.2.1, e.2.2⟩ : LogRecordPos) = (appendOne dfs a r).2) := by
  by_cases h : (concatEnc a.cur).length + r.encode.length > dfs
  · rw [appendOne_rot_recsOf dfs a r hids h] at he
    have hpos : (appendOne dfs a r).2 = ⟨a.fid + 1, 0, r.encode.length⟩ := by
      unfold appendOne
      rw [if_pos h]
    by_cases hf : fid = a.fid + 1
    · rw [if_pos hf] at he
      right
      have he2 : e = (r, 0, r.encode.length) := by
        have hee : entriesFrom 0 [r] = [(r, 0, r.encode.length)] := rfl
        rw [hee] at he
        exact List.mem_singleton.mp he
      rw [he2, hpos, hf]
      exact ⟨rfl, rfl⟩
    · rw [if_neg hf] at he
      exact Or.inl he
  · rw [appendOne_keep_recsOf dfs a r h] at he
    have hpos : (appendOne dfs a r).2 =
        ⟨a.fid, (concatEnc a.cur).length, r.encode.length⟩ := by
      unfold appendOne
      rw [if_neg h]
    by_cases hf : fid = a.fid
    · rw [if_pos hf, entriesFrom_append] at he
      rcases List.mem_append.mp he with he | he
      · left
        unfold recsOf
        rw [if_pos hf]
        exact he
      · right
        have he2 : e = (r, 0 + (concatEnc a.cur).length, r.encode.length) := by
          have hee : entriesFrom (0 + (concatEnc a.cur).length) [r] =
              [(r, 0 + (concatEnc a.cur).length, r.encode.length)] := rfl
          rw [hee] at he
          exact List.mem_singleton.mp he
        rw [he2, hpos, hf]
        refine ⟨rfl, ?_⟩
        show (⟨a.fid, 0 + (concatEnc a.cur).length, r.encode.length⟩ : LogRecordPos) =
          (⟨a.fid, (concatEnc a.cur).length, r.encode.length⟩ : LogRecordPos)
        rw [Nat.zero_add]
    · rw [if_neg hf] at he
      exact Or.inl he

theorem appendAllA_entries_complete (dfs : Nat) :
    ∀ (rs : List LogRecord) (a : AppendSt), AppendInv dfs a →
      (∀ r ∈ rs, WFStored r) → 2 ^ 21 ≤ dfs →
      ∀ (fid : Nat) (e : LogRecord × Nat × Nat),
        e ∈ entriesFrom 0 (recsOf (appendAllA dfs a rs).1 fid) →
        e ∈ entriesFrom 0 (recsOf a fid) ∨
          (e.1, (⟨fid, e.2.1, e.2.2⟩ : LogRecordPos)) ∈
            List.zip rs (appendAllA dfs a rs).2 := by
  intro rs
  induction rs with
  | nil => intro a _ _ _ fid e he; exact Or.inl he
  | cons r rs ih =>
    intro a hinv hwf hdfs fid e he
    have hinv1 := appendOne_inv dfs a r hinv (hwf r (List.mem_cons_self _ _)) hdfs
    have hwf1 := fun q hq => hwf q (List.mem_cons_of_mem r hq)
    have hh : (appendAllA dfs a (r :: rs)).1 =
        (appendAllA dfs (appendOne dfs a r).1 rs).1 := rfl
    rw [hh] at he
    have hz : List.zip (r :: rs) ((appendAllA dfs a (r :: rs)).2) =
        (r, (appendOne dfs a r).2) ::
          List.zip rs (appendAllA dfs (appendOne dfs a r).1 rs).2 := rfl
    rcases ih (appendOne dfs a r).1 hinv1 hwf1 hdfs fid e he with hcase | hcase
    · rcases appendOne_entries_sub dfs a r hinv.1 fid e hcase with h1 | h1
      · exact Or.inl h1
      · right
        rw [hz]
        rw [show (e.1, (⟨fid, e.2.1, e.2.2⟩ : LogRecordPos)) =
          (r, (appendOne dfs a r).2) from by rw [h1.1, h1.2]]
        exact List.mem_cons_self _ _
    · right
      rw [hz]
      exact List.mem_cons_of_mem _ hcase

theorem appendOne_fid_le_succ (dfs : Nat) (a : AppendSt) (r : LogRecord) :
    a.fid ≤ (appendOne dfs a r).1.fid ∧ (appendOne dfs a r).1.fid ≤ a.fid + 1 := by
  unfold appendOne
  by_cases h : (concatEnc a.cur).length + r.encode.length > dfs
  · rw [if_pos h]; exact ⟨Nat.le_succ _, le_refl _⟩
  · rw [if_neg h]; exact ⟨le_refl _, Nat.le_succ _⟩

theorem appendAllA_fid_bounds (dfs : Nat) :
    ∀ (rs : List LogRecord) (a : AppendSt),
      a.fid ≤ (appendAllA dfs a rs).1.fid ∧
      (appendAllA dfs a rs).1.fid ≤ a.fid + rs.length := by
  intro rs
  induction rs with
  | nil => intro a; exact ⟨le_refl _, Nat.le_add_right _ _⟩
  | cons r rs ih =>
    intro a
    have h1 := appendOne_fid_le_succ dfs a r
    have h2 := ih (appendOne dfs a r).1
    have hh : (appendAllA dfs a (r :: rs)).1 =
        (appendAllA dfs (appendOne dfs a r).1 rs).1 := rfl
    rw [hh, List.length_cons]
    omega

theorem appendAllA_pos_bounds (dfs : Nat) :
    ∀ (rs : List LogRecord) (a : AppendSt), AppendInv dfs a →
      (∀ r ∈ rs, WFStored r) → 2 ^ 21 ≤ dfs →
      ∀ q ∈ (appendAllA dfs a rs).2,
        q.offset ≤ dfs ∧ q.size ≤ 2 ^ 21 ∧
        q.fileId ≤ (appendAllA dfs a rs).1.fid := by
  intro rs
  induction rs with
  | nil => intro a _ _ _ q hq; simp [appendAllA] at hq
  | cons r rs ih =>
    intro a hinv hwf hdfs q hq
    have hinv1 := appendOne_inv dfs a r hinv (hwf r (List.mem_cons_self _ _)) hdfs
    have hwf1 := fun x hx => hwf x (List.mem_cons_of_mem r hx)
    have hh : (appendAllA dfs a (r :: rs)).1 =
        (appendAllA dfs (appendOne dfs a r).1 rs).1 := rfl
    have hz : (appendAllA dfs a (r :: rs)).2 =
        (appendOne dfs a r).2 :: (appendAllA dfs (appendOne dfs a r).1 rs).2 := rfl
    rw [hz] at hq
    rw [hh]
    rcases List.mem_cons.mp hq with rfl | hq
    · have hmono := (appendAllA_fid_bounds dfs rs (appendOne dfs a r).1).1
      have hsz := WFStored_encode_le r (hwf r (List.mem_cons_self _ _))
      unfold appendOne
      by_cases h : (concatEnc a.cur).length + r.encode.length > dfs
      · rw [if_pos h]
        refine ⟨Nat.zero_le dfs, hsz, ?_⟩
        show a.fid + 1 ≤ _
        unfold appendOne at hmono
        rw [if_pos h] at hmono
        exact hmono
      · rw [if_neg h]
        refine ⟨hinv.2.2.1, hsz, ?_⟩
        show a.fid ≤ _
        unfold appendOne at hmono
        rw [if_neg h] at hmono
        exact hmono
    · exact ih (appendOne dfs a r).1 hinv1 hwf1 hdfs q hq

theorem logRecordKeyWithSeq_zero_inj (k1 k2 : List Nat)
    (h : logRecordKeyWithSeq k1 0 = logRecordKeyWithSeq k2 0) : k1 = k2 := by
  rw [logRecordKeyWithSeq_zero, logRecordKeyWithSeq_zero] at h
  injection h

theorem pairwise_filterMap_of {α β : Type} (f : α → Option β)
    (R : α → α → Prop) (S : β → β → Prop)
    (h : ∀ a b, R a b → ∀ c, f a = some c → ∀ d, f b = some d → S c d) :
    ∀ l : List α, l.Pairwise R → (l.filterMap f).Pairwise S := by
  intro l
  induction l with
  | nil => intro _; exact List.Pairwise.nil
  | cons a l ih =>
    intro hp
    obtain ⟨hhead, htail⟩ := List.pairwise_cons.mp hp
    rw [List.filterMap_cons]
    cases hfa : f a with
    | none => exact ih htail
    | some c =>
      refine List.pairwise_cons.mpr ⟨?_, ih htail⟩
      intro d hd
      obtain ⟨b, hb, hfb⟩ := List.mem_filterMap.mp hd
      exact h a b (hhead b hb) c hfa d hfb

theorem copyFn_some (idx : Index) (fid : Nat) (e : LogRecord × Nat × Nat)
    (p : List Nat × LogRecord) (hfe : copyFn idx fid e = some p) :
    ∃ sq, parseLogRecordKey e.1.key = some (p.1, sq) ∧
      p.2 = { e.1 with key := logRecordKeyWithSeq p.1 NON_TXN_SEQ_NO } ∧
      ∃ ip, idxGet idx p.1 = some ip ∧ ip.fileId = fid ∧ ip.offset = e.2.1 := by
  unfold copyFn at hfe
  cases hparse : parseLogRecordKey e.1.key with
  | none => rw [hparse] at hfe; exact absurd hfe (by simp)
  | some pr =>
    obtain ⟨rk, sq⟩ := pr
    rw [hparse] at hfe
    dsimp only at hfe
    cases hip : idxGet idx rk with
    | none => rw [hip] at hfe; exact absurd hfe (by simp)
    | some ip =>
      rw [hip] at hfe
      dsimp only at hfe
      by_cases hc : ip.fileId = fid ∧ ip.offset = e.2.1
      · rw [if_pos hc] at hfe
        have hpe : p = (rk, { e.1 with key := logRecordKeyWithSeq rk NON_TXN_SEQ_NO }) := by
          injection hfe with hfe1
          exact hfe1.symm
        refine ⟨sq, ?_, ?_, ip, ?_, hc.1, hc.2⟩
        · rw [hpe]
        · rw [hpe]
        · rw [hpe]
          exact hip
      · rw [if_neg hc] at hfe
        exact absurd hfe (by simp)

/-- On a well-formed stored record the copied pair is the record itself
and its real key. -/
theorem copyFn_some_wf (idx : Index) (fid : Nat) (e : LogRecord × Nat × Nat)
    (hwfe : WFStored e.1) (p : List Nat × LogRecord)
    (hfe : copyFn idx fid e = some p) :
    p.2 = e.1 ∧ e.1.key = logRecordKeyWithSeq p.1 0 ∧
      ∃ ip, idxGet idx p.1 = some ip ∧ ip.fileId = fid ∧ ip.offset = e.2.1 := by
  obtain ⟨sq, hparse, hp2, hip⟩ := copyFn_some idx fid e p hfe
  obtain ⟨⟨rk, _, _, hrkey⟩, _, _, _⟩ := hwfe
  rw [hrkey, parseLogRecordKey_withSeq] at hparse
  have hkeq : rk = p.1 := by
    injection hparse with h1
    injection h1
  refine ⟨?_, by rw [hrkey, hkeq], hip⟩
  rw [hp2]
  show ({ e.1 with key := logRecordKeyWithSeq p.1 NON_TXN_SEQ_NO } : LogRecord) = e.1
  rw [show logRecordKeyWithSeq p.1 NON_TXN_SEQ_NO =
    logRecordKeyWithSeq p.1 0 from rfl, ← hkeq, ← hrkey]

/-- Distinct copied pairs carry distinct real keys. -/
theorem copyPairsAll_keys_pairwise (idx : Index) (recs : Nat → List LogRecord)
    (ids : List Nat) (hnd : ids.Pairwise (· ≠ ·)) :
    (copyPairsAll idx recs ids).Pairwise (fun p1 p2 => p1.1 ≠ p2.1) := by
  unfold copyPairsAll
  rw [List.pairwise_flatten]
  constructor
  · intro l hl
    obtain ⟨fid, _, rfl⟩ := List.mem_map.mp hl
    unfold copyPairsOfEntries
    apply pairwise_filterMap_of (copyFn idx fid) (fun e1 e2 => e1.2.1 ≠ e2.2.1)
    · intro e1 e2 hR c hc d hd hkey
      obtain ⟨_, _, _, ip1, hip1, _, ho1⟩ := copyFn_some idx fid e1 c hc
      obtain ⟨_, _, _, ip2, hip2, _, ho2⟩ := copyFn_some idx fid e2 d hd
      have hipEq : ip1 = ip2 := by
        rw [hkey] at hip1
        rw [hip1] at hip2
        injection hip2
      apply hR
      rw [← ho1, ← ho2, hipEq]
    · exact entriesFrom_offsets_pairwise (recs fid) 0
  · rw [List.pairwise_map]
    apply List.Pairwise.imp ?_ hnd
    intro fid1 fid2 hne x hx y hy hkey
    obtain ⟨e1, _, hc⟩ := List.mem_filterMap.mp hx
    obtain ⟨e2, _, hd⟩ := List.mem_filterMap.mp hy
    obtain ⟨_, _, _, ip1, hip1, hf1, _⟩ := copyFn_some idx fid1 e1 x hc
    obtain ⟨_, _, _, ip2, hip2, hf2, _⟩ := copyFn_some idx fid2 e2 y hd
    have hipEq : ip1 = ip2 := by
      rw [hkey] at hip1
      rw [hip1] at hip2
      injection hip2
    apply hne
    rw [← hf1, ← hf2, hipEq]

/-- Every key the index still points at is copied. -/
theorem copyPairsAll_total (idx : Index) (recs : Nat → List LogRecord)
    (ids : List Nat) (k : List Nat) (pos : LogRecordPos) (v : List Nat)
    (hget : idxGet idx k = some pos) (hfid : pos.fileId ∈ ids)
    (hent : ((⟨logRecordKeyWithSeq k 0, v, .normal⟩ : LogRecord), pos.offset,
      (⟨logRecordKeyWithSeq k 0, v, .normal⟩ : LogRecord).encode.length) ∈
        entriesFrom 0 (recs pos.fileId)) :
    (k, (⟨logRecordKeyWithSeq k 0, v, .normal⟩ : LogRecord)) ∈
      copyPairsAll idx recs ids := by
  unfold copyPairsAll
  rw [List.mem_flatten]
  refine ⟨copyPairsOfEntries idx pos.fileId (entriesFrom 0 (recs pos.fileId)),
    List.mem_map.mpr ⟨pos.fileId, hfid, rfl⟩, ?_⟩
  unfold copyPairsOfEntries
  apply List.mem_filterMap.mpr
  refine ⟨_, hent, ?_⟩
  unfold copyFn
  dsimp only
  rw [parseLogRecordKey_withSeq]
  dsimp only
  rw [hget]
  dsimp only
  rw [if_pos ⟨rfl, rfl⟩]
  rfl

/-! ### The hint index built at reopen -/

theorem hintEntriesToIndex_spec :
    ∀ (es : List (LogRecord × Nat × Nat)) (idx0 : Index),
      (∀ e ∈ es, (decodeLogRecordPos e.1.value).isSome) →
      (es.map (fun e => e.1.key)).Pairwise (· ≠ ·) →
      ∃ idx, hintEntriesToIndex es idx0 = some idx ∧
        ∀ k, assocGet idx k =
          match es.find? (fun e => decide (e.1.key = k)) with
          | some e => decodeLogRecordPos e.1.value
          | none => assocGet idx0 k := by
  intro es
  induction es with
  | nil =>
    intro idx0 _ _
    exact ⟨idx0, rfl, fun k => rfl⟩
  | cons e es ih =>
    intro idx0 hdec hnd
    have hde := hdec e (List.mem_cons_self _ _)
    cases hdv : decodeLogRecordPos e.1.value with
    | none => rw [hdv] at hde; exact absurd hde (by simp)
    | some pos =>
      obtain ⟨hhead, htail⟩ := List.pairwise_cons.mp (by
        rw [List.map_cons] at hnd
        exact hnd)
      obtain ⟨idx, hrun, hprop⟩ := ih (idxPut idx0 e.1.key pos).1
        (fun x hx => hdec x (List.mem_cons_of_mem e hx)) htail
      refine ⟨idx, ?_, ?_⟩
      · unfold hintEntriesToIndex
        rw [hdv]
        exact hrun
      · intro k
        by_cases hk : e.1.key = k
        · rw [List.find?_cons_of_pos _ (by simpa using hk)]
          dsimp only
          have hnone : es.find? (fun x => decide (x.1.key = k)) = none := by
            apply List.find?_eq_none.mpr
            intro x hx
            have hxne := hhead x.1.key (List.mem_map_of_mem (fun y => y.1.key) hx)
            rw [hk] at hxne
            simpa using (Ne.symm hxne)
          rw [hprop k, hnone]
          show assocGet (assocInsert idx0 e.1.key pos) k = decodeLogRecordPos e.1.value
          rw [← hk, assocGet_insert_self, hdv]
        · rw [List.find?_cons_of_neg _ (by simpa using hk)]
          rw [hprop k]
          cases es.find? (fun x => decide (x.1.key = k)) with
          | some x => rfl
          | none =>
            show assocGet (assocInsert idx0 e.1.key pos) k = assocGet idx0 k
            exact assocGet_insert_other idx0 e.1.key k pos (fun hh => hk hh.symm)

theorem zipWith_eq_map_zip {α β γ : Type} (f : α → β → γ) :
    ∀ (l1 : List α) (l2 : List β),
      List.zipWith f l1 l2 = (l1.zip l2).map (fun x => f x.1 x.2) := by
  intro l1
  induction l1 with
  | nil => intro l2; rfl
  | cons a l1 ih =>
    intro l2
    cases l2 with
    | nil => rfl
    | cons b l2 =>
      show f a b :: List.zipWith f l1 l2 = f a b :: (l1.zip l2).map _
      rw [ih]

theorem appendAllA_len (dfs : Nat) :
    ∀ (rs : List LogRecord) (a : AppendSt),
      (appendAllA dfs a rs).2.length = rs.length := by
  intro rs
  induction rs with
  | nil => intro a; rfl
  | cons r rs ih =>
    intro a
    show ((appendOne dfs a r).2 :: (appendAllA dfs (appendOne dfs a r).1 rs).2).length = _
    rw [List.length_cons, ih, List.length_cons]

theorem bumpMax_zero (st : ReplaySt) : bumpMax st 0 = st := by
  unfold bumpMax
  rw [if_neg (by omega)]

/-- Replaying records that the index already points at (at exactly their
own positions) leaves every lookup unchanged. -/
theorem replay_pointed (hidx : Index) :
    ∀ (entries : List (LogRecord × LogRecordPos)),
      (∀ e ∈ entries, ∃ k, e.1.recType = .normal ∧
        e.1.key = logRecordKeyWithSeq k 0 ∧ assocGet hidx k = some e.2) →
      ∀ st : ReplaySt, (∀ k, assocGet st.index k = assocGet hidx k) →
        ∃ st1, replay entries st = some st1 ∧
          (∀ k, assocGet st1.index k = assocGet hidx k) ∧
          st1.maxSeq = st.maxSeq := by
  intro entries
  induction entries with
  | nil =>
    intro _ st hpt
    exact ⟨st, rfl, hpt, rfl⟩
  | cons e es ih =>
    intro hprops st hpt
    obtain ⟨k, hty, hkey, hhk⟩ := hprops e (List.mem_cons_self _ _)
    have hparse : parseLogRecordKey e.1.key = some (k, 0) := by
      rw [hkey]
      exact parseLogRecordKey_withSeq k 0
    have hupd : updateIndexOnLoad st k e.1.recType e.2 =
        { st with index := assocInsert st.index k e.2,
                  reclaimSize := st.reclaimSize + e.2.size } := by
      rw [hty]
      unfold updateIndexOnLoad
      rw [if_pos rfl]
      unfold idxPut
      rw [show assocGet st.index k = some e.2 from by rw [hpt k, hhk]]
    have hstep := replayStep_seq0 st e k hparse
    rw [hupd, bumpMax_zero] at hstep
    rw [replay_cons, hstep]
    have hpt1 : ∀ k', assocGet (assocInsert st.index k e.2) k' = assocGet hidx k' := by
      intro k'
      by_cases hk' : k' = k
      · rw [hk', assocGet_insert_self, hhk]
      · rw [assocGet_insert_other _ _ _ _ hk', hpt k']
    obtain ⟨st1, hrun, hpt2, hmax⟩ := ih
      (fun x hx => hprops x (List.mem_cons_of_mem e hx))
      { st with index := assocInsert st.index k e.2,
                reclaimSize := st.reclaimSize + e.2.size } hpt1
    exact ⟨st1, hrun, hpt2, hmax⟩

/-- The reopen scan leaves the hint-loaded index unchanged when every
scanned record is indexed at its own position. -/
theorem replayDirAux_noop (d : Dir) (hasMerged : Bool) (F : Nat) (hidx : Index) :
    ∀ (ids : List Nat) (st : ReplaySt) (wo : Nat),
      (∀ fid ∈ ids, ¬(hasMerged = true ∧ fid < F) → ∃ L : List LogRecord,
        (assocGet d.dataFiles fid).getD [] = concatEnc L ∧ (∀ r ∈ L, WFRec r) ∧
        ∀ e ∈ entriesFrom 0 L, ∃ k, e.1.recType = .normal ∧
          e.1.key = logRecordKeyWithSeq k 0 ∧
          assocGet hidx k = some (⟨fid, e.2.1, e.2.2⟩ : LogRecordPos)) →
      (∀ k, assocGet st.index k = assocGet hidx k) →
      ∃ st1 wo1, replayDirAux d hasMerged F ids st wo = some (.ok (st1, wo1)) ∧
        ∀ k, assocGet st1.index k = assocGet hidx k := by
  intro ids
  induction ids with
  | nil =>
    intro st wo _ hpt
    exact ⟨st, wo, rfl, hpt⟩
  | cons fid ids ih =>
    intro st wo hfiles hpt
    unfold replayDirAux
    by_cases hskip : hasMerged = true ∧ fid < F
    · rw [if_pos hskip]
      exact ih st 0 (fun f hf => hfiles f (List.mem_cons_of_mem fid hf)) hpt
    · rw [if_neg hskip]
      obtain ⟨L, hcontent, hwfL, hpoint⟩ :=
        hfiles fid (List.mem_cons_self _ _) hskip
      rw [hcontent, scanFile_spec _ L hwfL rfl]
      dsimp only
      have hprops : ∀ e ∈ (entriesFrom 0 L).map
          (fun e => ((e.1 : LogRecord), (⟨fid, e.2.1, e.2.2⟩ : LogRecordPos))),
          ∃ k, e.1.recType = .normal ∧ e.1.key = logRecordKeyWithSeq k 0 ∧
            assocGet hidx k = some e.2 := by
        intro x hx
        obtain ⟨e, he, rfl⟩ := List.mem_map.mp hx
        exact hpoint e he
      obtain ⟨st1, hrun, hpt1, _⟩ := replay_pointed hidx _ hprops st hpt
      rw [hrun]
      exact ih st1 ((concatEnc L).length)
        (fun f hf => hfiles f (List.mem_cons_of_mem fid hf)) hpt1

theorem assocGet_isSome_of_mem_keys {ν κ : Type} [DecidableEq κ]
    (l : List (κ × ν)) (k : κ) (h : k ∈ l.map Prod.fst) :
    ∃ v, assocGet l k = some v := by
  induction l with
  | nil => simp at h
  | cons e l ih =>
    rw [assocGet_cons]
    by_cases he : e.1 = k
    · exact ⟨e.2, by rw [if_pos he]⟩
    · rw [if_neg he]
      apply ih
      rw [List.map_cons] at h
      rcases List.mem_cons.mp h with h | h
      · exact absurd h.symm he
      · exact h

theorem copyPairsAll_mem (idx : Index) (recs : Nat → List LogRecord)
    (ids : List Nat)
    (hwf : ∀ fid ∈ ids, ∀ r ∈ recs fid, WFStored r)
    (p : List Nat × LogRecord) (hp : p ∈ copyPairsAll idx recs ids) :
    ∃ fid ∈ ids, ∃ e ∈ entriesFrom 0 (recs fid), p.2 = e.1 ∧
      e.1.key = logRecordKeyWithSeq p.1 0 ∧
      ∃ ip, idxGet idx p.1 = some ip ∧ ip.fileId = fid ∧ ip.offset = e.2.1 := by
  unfold copyPairsAll at hp
  obtain ⟨l, hl, hpl⟩ := List.mem_flatten.mp hp
  obtain ⟨fid, hfid, rfl⟩ := List.mem_map.mp hl
  obtain ⟨e, he, hfe⟩ := List.mem_filterMap.mp hpl
  obtain ⟨h1, h2, h3⟩ := copyFn_some_wf idx fid e
    (hwf fid hfid e.1 (mem_entriesFrom_rec 0 _ e he)) p hfe
  exact ⟨fid, hfid, e, he, h1, h2, h3⟩

theorem pos_encode_lt_256 (q : LogRecordPos) : ∀ b ∈ q.encode, b < 256 := by
  unfold LogRecordPos.encode
  intro b hb
  rcases List.mem_append.mp hb with hb | hb
  · rcases List.mem_append.mp hb with hb | hb
    · exact encodeVarint_lt_256 q.fileId b hb
    · exact encodeVarint_lt_256 q.offset b hb
  · exact encodeVarint_lt_256 q.size b hb

theorem pos_encode_len_lt (q : LogRecordPos) (hf : q.fileId ≤ 2 ^ 30)
    (ho : q.offset ≤ 2 ^ 40) (hs : q.size ≤ 2 ^ 21) :
    q.encode.length < 2 ^ 35 := by
  unfold LogRecordPos.encode
  rw [List.length_append, List.length_append]
  have h1 := encodeVarint_length_le_self q.fileId
  have h2 : (encodeVarint q.offset).length ≤ 7 :=
    encodeVarint_length_le_pow 6 q.offset (by
      have : (128 : Nat) ^ 6 = 2 ^ 42 := by norm_num
      omega)
  have h3 := encodeVarint_length_le_self q.size
  have hb : (2 : Nat) ^ 30 + 1 + 7 + (2 ^ 21 + 1) < 2 ^ 35 := by norm_num
  omega

/-- The WFStored key of a stored record determines its real key. -/
theorem WFStored_key_parts (r : LogRecord) (hw : WFStored r) (k : List Nat)
    (hk : r.key = logRecordKeyWithSeq k 0) :
    k ≠ [] ∧ k.length ≤ 2 ^ 16 ∧ (∀ b ∈ k, b < 256) := by
  obtain ⟨⟨rk, hne, hlen, hkey⟩, hkb, _, _⟩ := hw
  have hEq : rk = k := by
    apply logRecordKeyWithSeq_zero_inj
    rw [← hkey, ← hk]
  subst hEq
  refine ⟨hne, hlen, ?_⟩
  intro b hb
  apply hkb
  rw [hkey, logRecordKeyWithSeq_zero]
  exact List.mem_cons_of_mem 0 hb

theorem find?_of_unique {α : Type} (P : α → Bool) :
    ∀ (l : List α) (x : α), x ∈ l → P x = true →
      l.Pairwise (fun a b => ¬(P a = true ∧ P b = true)) →
      l.find? P = some x := by
  intro l
  induction l with
  | nil => intro x hx; simp at hx
  | cons a t ih =>
    intro x hx hPx hpw
    obtain ⟨hhead, htail⟩ := List.pairwise_cons.mp hpw
    by_cases hPa : P a = true
    · rw [List.find?_cons_of_pos _ hPa]
      rcases List.mem_cons.mp hx with rfl | hx
      · rfl
      · exact absurd ⟨hPa, hPx⟩ (hhead x hx)
    · rw [List.find?_cons_of_neg _ hPa]
      rcases List.mem_cons.mp hx with rfl | hx
      · exact absurd hPx hPa
      · exact ih x hx hPx htail

theorem pairwise_zip_left {α β : Type} (R : α → α → Prop) :
    ∀ (l1 : List α) (l2 : List β), l1.Pairwise R →
      (l1.zip l2).Pairwise (fun x y => R x.1 y.1) := by
  intro l1
  induction l1 with
  | nil => intro l2 _; exact List.Pairwise.nil
  | cons a t ih =>
    intro l2 hp
    obtain ⟨hhead, htail⟩ := List.pairwise_cons.mp hp
    cases l2 with
    | nil => exact List.Pairwise.nil
    | cons b t2 =>
      refine List.pairwise_cons.mpr ⟨?_, ih t2 htail⟩
      intro y hy
      exact hhead y.1 (List.of_mem_zip hy).1

theorem pairwise_of_map {α β : Type} (f : α → β) (R : β → β → Prop)
    (S : α → α → Prop) (h : ∀ a b, R (f a) (f b) → S a b) :
    ∀ l : List α, (l.map f).Pairwise R → l.Pairwise S := by
  intro l
  induction l with
  | nil => intro _; exact List.Pairwise.nil
  | cons a t ih =>
    intro hp
    rw [List.map_cons] at hp
    obtain ⟨hhead, htail⟩ := List.pairwise_cons.mp hp
    refine List.pairwise_cons.mpr ⟨?_, ih htail⟩
    intro b hb
    exact h a b (hhead (f b) (List.mem_map_of_mem f hb))

/-- Loading the hint file written by the merge gives exactly the copied
positions. -/
theorem loadHintIndex_merged (ps : List (List Nat × LogRecord))
    (qs : List LogRecordPos) (d : Dir)
    (hd : d.hintFile = some (concatEnc (List.zipWith
      (fun p q => (⟨p.1, q.encode, .normal⟩ : LogRecord)) ps qs)))
    (hlen : ps.length = qs.length)
    (hnd : ps.Pairwise (fun p1 p2 => p1.1 ≠ p2.1))
    (hwfH : ∀ r ∈ List.zipWith
      (fun p q => (⟨p.1, q.encode, .normal⟩ : LogRecord)) ps qs, WFRec r) :
    ∃ hidx, loadHintIndex d = some (.ok hidx) ∧
      (∀ pq ∈ ps.zip qs, assocGet hidx pq.1.1 = some pq.2) ∧
      (∀ k, k ∉ ps.map Prod.fst → assocGet hidx k = none) := by
  set recsH := List.zipWith
    (fun p q => (⟨p.1, q.encode, .normal⟩ : LogRecord)) ps qs with hrecsH
  have hmapH : recsH = (ps.zip qs).map
      (fun x => (⟨x.1.1, x.2.encode, .normal⟩ : LogRecord)) := by
    rw [hrecsH, zipWith_eq_map_zip]
  have hzpw : (ps.zip qs).Pairwise (fun x y => x.1.1 ≠ y.1.1) :=
    pairwise_zip_left _ ps qs hnd
  have hkeysH : (entriesFrom 0 recsH).Pairwise
      (fun e1 e2 => e1.1.key ≠ e2.1.key) := by
    apply pairwise_of_map Prod.fst (fun r1 r2 => r1.key ≠ r2.key)
    · intro a b hab; exact hab
    · rw [entriesFrom_records, hmapH]
      exact List.Pairwise.map _ (by
        intro x y hxy
        show (⟨x.1.1, x.2.encode, .normal⟩ : LogRecord).key ≠ _
        exact hxy) hzpw
  have hesfst : ∀ e ∈ entriesFrom 0 recsH,
      ∃ pq ∈ ps.zip qs, e.1 = (⟨pq.1.1, pq.2.encode, .normal⟩ : LogRecord) := by
    intro e he
    have h1 : e.1 ∈ recsH := mem_entriesFrom_rec 0 recsH e he
    rw [hmapH] at h1
    obtain ⟨pq, hpq, hEq⟩ := List.mem_map.mp h1
    exact ⟨pq, hpq, hEq.symm⟩
  obtain ⟨hidx, hrun, hprop⟩ := hintEntriesToIndex_spec (entriesFrom 0 recsH) []
    (by
      intro e he
      obtain ⟨pq, _, hEq⟩ := hesfst e he
      rw [hEq]
      show (decodeLogRecordPos pq.2.encode).isSome = true
      rw [decodeLogRecordPos_encode]
      rfl)
    (by
      apply List.Pairwise.map _ ?_ hkeysH
      intro e1 e2 h12
      exact h12)
  refine ⟨hidx, ?_, ?_, ?_⟩
  · unfold loadHintIndex
    rw [hd]
    dsimp only
    rw [scanFile_spec _ recsH hwfH rfl]
    dsimp only
    rw [hrun]
  · intro pq hpq
    have hmem : ∃ e ∈ entriesFrom 0 recsH,
        e.1 = (⟨pq.1.1, pq.2.encode, .normal⟩ : LogRecord) := by
      have : (⟨pq.1.1, pq.2.encode, .normal⟩ : LogRecord) ∈ recsH := by
        rw [hmapH]
        exact List.mem_map_of_mem _ hpq
      have h2 := entriesFrom_records 0 recsH
      rw [← h2] at this
      obtain ⟨e, he, hEq⟩ := List.mem_map.mp this
      exact ⟨e, he, hEq⟩
    obtain ⟨e, he, hEq⟩ := hmem
    have hfind : (entriesFrom 0 recsH).find?
        (fun x => decide (x.1.key = pq.1.1)) = some e := by
      apply find?_of_unique _ _ e he
      · rw [hEq]
        simp
      · apply List.Pairwise.imp ?_ hkeysH
        intro e1 e2 h12 hcontra
        obtain ⟨hc1, hc2⟩ := hcontra
        apply h12
        rw [decide_eq_true_iff] at hc1 hc2
        rw [hc1, hc2]
    rw [hprop pq.1.1, hfind]
    show decodeLogRecordPos e.1.value = some pq.2
    rw [hEq]
    exact decodeLogRecordPos_encode pq.2
  · intro k hk
    have hfind : (entriesFrom 0 recsH).find?
        (fun x => decide (x.1.key = k)) = none := by
      apply List.find?_eq_none.mpr
      intro e he
      obtain ⟨pq, hpq, hEq⟩ := hesfst e he
      rw [hEq]
      simp only [decide_eq_true_iff]
      intro hcontra
      apply hk
      have h1 : pq.1 ∈ ps := (List.of_mem_zip hpq).1
      have h2 : pq.1.1 ∈ ps.map Prod.fst := List.mem_map_of_mem Prod.fst h1
      have h3 : pq.1.1 = k := hcontra
      rw [← h3]
      exact h2
    rw [hprop k, hfind]
    exact assocGet_nil k

/-- The WFStored records of the abstract view make well-formed, parseable
scan entries. -/
theorem WFStored_scan_ready (a : AppendSt)
    (hwf : ∀ fid, ∀ r ∈ recsOf a fid, WFStored r) :
    ∀ fid, ∀ r ∈ recsOf a fid, WFRec r ∧ (parseLogRecordKey r.key).isSome := by
  intro fid r hr
  have hw := hwf fid r hr
  refine ⟨WFStored_WFRec r hw, ?_⟩
  obtain ⟨⟨rk, _, _, hkey⟩, _, _, _⟩ := hw
  rw [hkey, parseLogRecordKey_withSeq]
  rfl

/-- What a successful `merge()` stages: the rotated live engine, a scratch
engine holding exactly the still-indexed records appended in file order, a
hint record per copy, and the first non-merged id as decimal. -/
theorem merge_output_spec (E : EngineState) (a : AppendSt)
    (hrel : filesRel E a) (hainv : AppendInv E.options.dataFileSize a)
    (hdfs : 2 ^ 21 ≤ E.options.dataFileSize)
    (hnotempty : isEngineEmpty E = false)
    (total avail : Nat)
    (hspace : mergeSpaceCheckFails total E.reclaimSize avail = false) :
    ∃ mdb : EngineState,
      mergeModel E true total avail = some (.ok ((rotateMergeFiles E).1,
        some { mergeDb := mdb,
               hint := List.zipWith (fun p q => (⟨p.1, q.encode, .normal⟩ : LogRecord))
                 (copyPairsAll E.index (recsOf a) (List.range (a.fid + 1)))
                 (appendAllA E.options.dataFileSize freshAppendSt
                   ((copyPairsAll E.index (recsOf a) (List.range (a.fid + 1))).map
                     Prod.snd)).2,
               finValue := natToDecimal (a.fid + 1) })) ∧
      filesRel mdb (appendAllA E.options.dataFileSize freshAppendSt
        ((copyPairsAll E.index (recsOf a) (List.range (a.fid + 1))).map Prod.snd)).1 ∧
      mdb.options = mergeOptions E.options := by
  obtain ⟨hfid, hcont, hwo, hkeysR, hlook⟩ := hrel
  have hids : a.old.map Prod.fst = List.range a.fid := hainv.1
  have hkeys : E.oldFiles.map Prod.fst = List.range a.fid := by
    rw [hkeysR, hids]
  have hrot2 : (rotateMergeFiles E).2 = List.range (a.fid + 1) := by
    show List.insertionSort (· ≤ ·) (E.oldFiles.map Prod.fst ++ [E.active.fileId]) = _
    rw [hkeys, hfid]
    exact sortedIds_range a.fid
  have hrotact : (rotateMergeFiles E).1.active.fileId = a.fid + 1 := by
    show (DataFile.new (E.active.fileId + 1)).fileId = a.fid + 1
    rw [show (DataFile.new (E.active.fileId + 1)).fileId =
      E.active.fileId + 1 from rfl, hfid]
  have hcontent : ∀ fid ∈ List.range (a.fid + 1),
      engineFileContent (rotateMergeFiles E).1 fid = concatEnc (recsOf a fid) := by
    intro fid hfidm
    have hlt : fid < a.fid + 1 := List.mem_range.mp hfidm
    unfold engineFileContent
    rw [if_neg (by rw [hrotact]; omega)]
    show ((oldLookup (oldInsert E.oldFiles E.active.fileId
      ⟨E.active.fileId, E.active.sync.content, 0, true⟩) fid).map
        DataFile.content).getD [] = _
    by_cases hf : fid = a.fid
    · rw [hf, ← hfid, oldLookup_insert_self]
      show E.active.sync.content = _
      rw [sync_content, hcont]
      unfold recsOf
      rw [if_pos hfid]
    · rw [oldLookup_insert_other _ _ _ _ (by rw [hfid]; exact hf)]
      have hmem : fid ∈ a.old.map Prod.fst := by
        rw [hids]
        exact List.mem_range.mpr (by omega)
      obtain ⟨recs, hrecs⟩ := assocGet_isSome_of_mem_keys a.old fid hmem
      have hl := hlook fid
      rw [hrecs] at hl
      cases holdL : oldLookup E.oldFiles fid with
      | none =>
        rw [holdL] at hl
        exact absurd hl (by simp)
      | some f =>
        rw [holdL] at hl
        have hfc : f.content = concatEnc recs := by injection hl
        show f.content = _
        rw [hfc]
        unfold recsOf
        rw [if_neg hf, hrecs]
        rfl
  have hwfall : ∀ fid, ∀ r ∈ recsOf a fid, WFStored r := hainv.2.2.2.2
  have hscan := mergeScanFiles_spec E.index (rotateMergeFiles E).1 (recsOf a)
    (List.range (a.fid + 1))
    (freshEngine (mergeOptions E.options), [])
    hcontent
    (fun fid hf => WFStored_scan_ready a hwfall fid)
  have hwfps : ∀ p ∈ copyPairsAll E.index (recsOf a) (List.range (a.fid + 1)),
      WFStored p.2 := by
    intro p hp
    obtain ⟨fid, hfidm, e, he, hp2, _, _⟩ := copyPairsAll_mem E.index (recsOf a)
      (List.range (a.fid + 1)) (fun fid _ => hwfall fid) p hp
    rw [hp2]
    exact hwfall fid e.1 (mem_entriesFrom_rec 0 _ e he)
  have hfold := foldl_mergeAppend_rel
    (copyPairsAll E.index (recsOf a) (List.range (a.fid + 1)))
    (freshEngine (mergeOptions E.options)) [] freshAppendSt
    ⟨rfl, rfl, rfl, rfl, fun fid => rfl⟩
    (freshAppendSt_inv _) hwfps hdfs
  obtain ⟨hfrel, hfinv, hfh, hfopt⟩ := hfold
  cases hP : List.foldl mergeAppend (freshEngine (mergeOptions E.options), [])
      (copyPairsAll E.index (recsOf a) (List.range (a.fid + 1))) with
  | mk m hl =>
    rw [hP] at hfrel hfh hfopt
    dsimp only at hfrel hfh hfopt
    refine ⟨m, ?_, hfrel, hfopt⟩
    unfold mergeModel
    rw [if_neg (by rw [hnotempty]; exact Bool.false_ne_true)]
    rw [if_neg (by simp)]
    rw [if_neg (by rw [hspace]; exact Bool.false_ne_true)]
    dsimp only
    rw [hrot2, hscan, hP]
    dsimp only
    rw [List.range_succ, List.getLast?_concat]
    dsimp only
    rw [hfh]
    rw [List.nil_append, ← List.range_succ]
    rfl

theorem mem_eq_of_pairwise_fn {α β : Type} (f : α → β) :
    ∀ l : List α, l.Pairwise (fun a b => f a ≠ f b) →
      ∀ x ∈ l, ∀ y ∈ l, f x = f y → x = y := by
  intro l
  induction l with
  | nil => intro _ x hx; simp at hx
  | cons a t ih =>
    intro hpw x hx y hy hf
    obtain ⟨hhead, htail⟩ := List.pairwise_cons.mp hpw
    rcases List.mem_cons.mp hx with hxa | hxt
    · rcases List.mem_cons.mp hy with hya | hyt
      · rw [hxa, hya]
      · exfalso
        rw [hxa] at hf
        exact hhead y hyt hf
    · rcases List.mem_cons.mp hy with hya | hyt
      · exfalso
        rw [hya] at hf
        exact hhead x hxt hf.symm
      · exact ih htail x hxt y hyt hf

theorem mem_zip_of_mem_left {α β : Type} :
    ∀ (ps : List α) (qs : List β) (p : α), p ∈ ps → ps.length = qs.length →
      ∃ q, (p, q) ∈ ps.zip qs := by
  intro ps
  induction ps with
  | nil => intro qs p hp; simp at hp
  | cons a t ih =>
    intro qs p hp hlen
    cases qs with
    | nil => simp at hlen
    | cons b t2 =>
      rcases List.mem_cons.mp hp with rfl | hp
      · exact ⟨b, List.mem_cons_self _ _⟩
      · obtain ⟨q, hq⟩ := ih t2 p hp (by
          rw [List.length_cons, List.length_cons] at hlen
          omega)
        exact ⟨q, List.mem_cons_of_mem _ hq⟩

theorem mem_zip_map_snd {α β γ : Type} (f : α → β) :
    ∀ (ps : List α) (qs : List γ) (x : β × γ),
      x ∈ (ps.map f).zip qs → ∃ pq ∈ ps.zip qs, x = (f pq.1, pq.2) := by
  intro ps
  induction ps with
  | nil => intro qs x hx; simp at hx
  | cons a t ih =>
    intro qs x hx
    cases qs with
    | nil => simp at hx
    | cons b t2 =>
      rcases List.mem_cons.mp hx with rfl | hx
      · exact ⟨(a, b), List.mem_cons_self _ _, rfl⟩
      · obtain ⟨pq, hpq, hEq⟩ := ih t2 x hx
        exact ⟨pq, List.mem_cons_of_mem _ hpq, hEq⟩

theorem mem_zip_map_snd_rev {α β γ : Type} (f : α → β) :
    ∀ (ps : List α) (qs : List γ) (pq : α × γ), pq ∈ ps.zip qs →
      (f pq.1, pq.2) ∈ (ps.map f).zip qs := by
  intro ps
  induction ps with
  | nil => intro qs pq hpq; simp at hpq
  | cons a t ih =>
    intro qs pq hpq
    cases qs with
    | nil => simp at hpq
    | cons b t2 =>
      rcases List.mem_cons.mp hpq with rfl | hpq
      · exact List.mem_cons_self _ _
      · exact List.mem_cons_of_mem _ (ih t2 pq hpq)

theorem assocGet_map_fn {ν : Type} (f : Nat → ν) :
    ∀ (l : List Nat) (k : Nat), k ∈ l →
      assocGet (l.map (fun i => (i, f i))) k = some (f k) := by
  intro l
  induction l with
  | nil => intro k hk; simp at hk
  | cons a t ih =>
    intro k hk
    rw [List.map_cons, assocGet_cons]
    by_cases ha : a = k
    · rw [if_pos (by simpa using ha)]
      rw [ha]
    · rw [if_neg (by simpa using ha)]
      exact ih k (by
        rcases List.mem_cons.mp hk with rfl | hk
        · exact absurd rfl ha
        · exact hk)

theorem assocGet_of_mem_nodup {ν : Type} {κ : Type} [DecidableEq κ]
    (l : List (κ × ν)) (hnd : (l.map Prod.fst).Pairwise (· ≠ ·))
    (e : κ × ν) (he : e ∈ l) : assocGet l e.1 = some e.2 := by
  induction l with
  | nil => simp at he
  | cons a t ih =>
    rw [List.map_cons] at hnd
    obtain ⟨hhead, htail⟩ := List.pairwise_cons.mp hnd
    rw [assocGet_cons]
    rcases List.mem_cons.mp he with rfl | he
    · rw [if_pos rfl]
    · rw [if_neg ?_]
      · exact ih htail he
      · intro hcontra
        exact hhead e.1 (List.mem_map_of_mem Prod.fst he) hcontra

theorem entriesFrom_offset_inj (L : List LogRecord) (base : Nat)
    (e1 e2 : LogRecord × Nat × Nat) (h1 : e1 ∈ entriesFrom base L)
    (h2 : e2 ∈ entriesFrom base L) (hoff : e1.2.1 = e2.2.1) : e1 = e2 :=
  mem_eq_of_pairwise_fn (fun e => e.2.1) (entriesFrom base L)
    (entriesFrom_offsets_pairwise L base) e1 h1 e2 h2 hoff

theorem readLogRecord_single (r : LogRecord) (hwf : WFRec r) :
    readLogRecord r.encode 0 = some (.ok (r, r.encode.length)) := by
  obtain ⟨hkne, hkb, hvb, hkl, hvl⟩ := hwf
  apply readLogRecord_at r r.encode 0 []
  · rw [List.drop_zero, List.append_nil]
  · intro hh
    exact hkne (List.length_eq_zero.mp hh.1)
  · exact hkb
  · exact hvb
  · exact hkl
  · exact hvl

theorem appendAllA_cur_ne_nil (dfs : Nat) :
    ∀ (rs : List LogRecord) (a : AppendSt), rs ≠ [] →
      (appendAllA dfs a rs).1.cur ≠ [] := by
  intro rs
  induction rs with
  | nil => intro a h; exact absurd rfl h
  | cons r rs ih =>
    intro a _
    show (appendAllA dfs (appendOne dfs a r).1 rs).1.cur ≠ []
    cases hrs : rs with
    | nil =>
      show (appendOne dfs a r).1.cur ≠ []
      exact appendOne_cur_ne_nil dfs a r
    | cons r2 rs2 =>
      rw [← hrs]
      exact ih (appendOne dfs a r).1 (by rw [hrs]; simp)

/-- Reading a record boundary through the engine's file map. -/
theorem getValue_read (st : EngineState) (pos : LogRecordPos) (r : LogRecord)
    (L : List LogRecord)
    (hmem : (r, pos.offset, r.encode.length) ∈ entriesFrom 0 L)
    (hwf : WFRec r)
    (hcontent : (if st.active.fileId = pos.fileId then some st.active.content
       else (oldLookup st.oldFiles pos.fileId).map DataFile.content) =
        some (concatEnc L)) :
    Engine.getValueByPosition st pos =
      some (if r.recType = .deleted then .error .KeyNotFound else .ok r.value) := by
  obtain ⟨hkne, hkb, hvb, hkl, hvl⟩ := hwf
  have hread : ∀ content : List Nat, content = concatEnc L →
      readLogRecord content pos.offset = some (.ok (r, r.encode.length)) := by
    intro content hc
    obtain ⟨tail, hdrop, _, _⟩ :=
      mem_entriesFrom_drop L 0 r pos.offset r.encode.length hmem
    rw [Nat.sub_zero] at hdrop
    apply readLogRecord_at r content pos.offset (concatEnc tail)
    · rw [hc]; exact hdrop
    · intro hh
      exact hkne (List.length_eq_zero.mp hh.1)
    · exact hkb
    · exact hvb
    · exact hkl
    · exact hvl
  unfold Engine.getValueByPosition
  by_cases hb : st.active.fileId = pos.fileId
  · rw [if_pos hb]
    rw [if_pos hb] at hcontent
    have hc : st.active.content = concatEnc L := by injection hcontent
    rw [hread st.active.content hc]
    dsimp only
    by_cases hdel : r.recType = .deleted
    · rw [if_pos hdel, if_pos hdel]
    · rw [if_neg hdel, if_neg hdel]
  · rw [if_neg hb]
    rw [if_neg hb] at hcontent
    cases holdf : oldLookup st.oldFiles pos.fileId with
    | none =>
      rw [holdf] at hcontent
      exact absurd hcontent (by simp)
    | some f =>
      rw [holdf] at hcontent
      have hc : f.content = concatEnc L := by injection hcontent
      dsimp only
      rw [hread f.content hc]
      dsimp only
      by_cases hdel : r.recType = .deleted
      · rw [if_pos hdel, if_pos hdel]
      · rw [if_neg hdel, if_neg hdel]

/-- `Engine::open` on a nonempty directory, unfolded. -/
theorem openFromDir_spec (opts : EngineOptions) (d : Dir) (ids : List Nat)
    (hsort : List.insertionSort (· ≤ ·) (d.dataFiles.map Prod.fst) = ids)
    (hne : ids ≠ []) (idx0 : Index)
    (hhint : loadHintIndex d = some (.ok idx0))
    (hm : Bool) (F : Nat) (hfin : finInfo d = some (.ok (hm, F)))
    (rst : ReplaySt) (wo : Nat)
    (hreplay : replayDirAux d hm F ids ⟨idx0, 0, [], 0⟩ 0 = some (.ok (rst, wo))) :
    openFromDir opts d = some (.ok
      { active := ⟨ids.getLast?.getD 0,
          (assocGet d.dataFiles (ids.getLast?.getD 0)).getD [], wo, true⟩,
        oldFiles := (ids.dropLast).map
          (fun i => (i, (⟨i, (assocGet d.dataFiles i).getD [], 0, true⟩ : DataFile))),
        index := rst.index,
        seqNo := openSeqNo rst.maxSeq, bytesWrite := 0,
        reclaimSize := rst.reclaimSize, options := opts }) := by
  cases ids with
  | nil => exact absurd rfl hne
  | cons fid0 restIds =>
    unfold openFromDir
    rw [hhint]
    dsimp only
    rw [hsort]
    dsimp only
    rw [hfin]
    dsimp only
    rw [hreplay]

/-- `load_merge_files` with staged outputs whose merge-finished value is a
decimal id: removes live files below it and moves the staged files in. -/
theorem promote_spec (live : List (Nat × List Nat)) (out : MergeOut) (F : Nat)
    (hfin : out.finValue = natToDecimal F)
    (hwfF : WFRec ⟨MERGE_FIN_KEY, natToDecimal F, .normal⟩) :
    promote live out = some (.ok
      { dataFiles := (live.filter (fun e => !decide (e.1 < F))).filter
          (fun e => !decide (e.1 ∈ (stagedDataFiles out).map Prod.fst)) ++
          stagedDataFiles out,
        hintFile := some (concatEnc out.hint),
        mergeFin := some (LogRecord.encode ⟨MERGE_FIN_KEY, out.finValue, .normal⟩) }) := by
  unfold promote
  rw [hfin]
  dsimp only
  rw [readLogRecord_single _ hwfF]
  dsimp only
  rw [if_pos ⟨natToDecimal_ne_nil F, natToDecimal_digits F⟩]
  rw [decimalToNat_natToDecimal]

theorem mem_entriesFrom_size (L : List LogRecord) : ∀ (base : Nat)
    (e : LogRecord × Nat × Nat), e ∈ entriesFrom base L →
    (e.1, e.2.1, e.1.encode.length) = e := by
  induction L with
  | nil => intro base e he; simp [entriesFrom] at he
  | cons r t ih =>
    intro base e he
    rw [show entriesFrom base (r :: t) =
      (r, base, r.encode.length) :: entriesFrom (base + r.encode.length) t
      from rfl] at he
    rcases List.mem_cons.mp he with rfl | he
    · rfl
    · exact ih (base + r.encode.length) e he

/-- The records the merge copies, resolved against the index invariant:
each copied record is the live normal record its key maps to. -/
theorem ps_resolve (E : EngineState) (a : AppendSt)
    (hainv : AppendInv E.options.dataFileSize a)
    (hidxinv : IndexInv E.index a) :
    ∀ p ∈ copyPairsAll E.index (recsOf a) (List.range (a.fid + 1)),
      ∃ ip v, idxGet E.index p.1 = some ip ∧
        p.2 = ⟨logRecordKeyWithSeq p.1 0, v, .normal⟩ ∧
        fileEntry a ip p.2 ∧ WFStored p.2 ∧ ip.offset ≤ E.options.dataFileSize := by
  intro p hp
  obtain ⟨fid, hfidm, e, he, hp2, hkey, ip, hip, hipf, hipo⟩ :=
    copyPairsAll_mem E.index (recsOf a) (List.range (a.fid + 1))
      (fun fid _ => hainv.2.2.2.2 fid) p hp
  obtain ⟨hkne, v, hent⟩ := hidxinv p.1 ip hip
  unfold fileEntry at hent
  have hEq : ((⟨logRecordKeyWithSeq p.1 0, v, .normal⟩ : LogRecord), ip.offset,
      (⟨logRecordKeyWithSeq p.1 0, v, .normal⟩ : LogRecord).encode.length) =
      (e.1, e.2.1, e.1.encode.length) := by
    apply entriesFrom_offset_inj (recsOf a ip.fileId) 0
    · exact hent
    · rw [hipf]
      have hee : (e.1, e.2.1, e.1.encode.length) = e := by
        have hb := mem_entriesFrom_size (recsOf a fid) 0 e he
        exact hb
      rw [hee]
      exact he
    · show ip.offset = e.2.1
      exact hipo
  have hrec : e.1 = (⟨logRecordKeyWithSeq p.1 0, v, .normal⟩ : LogRecord) := by
    injection hEq with h1 _
    exact h1.symm
  have hbound : ip.offset ≤ E.options.dataFileSize := by
    have hb := entriesFrom_offset_bounds (recsOf a ip.fileId) 0 _ hent
    have hsz : (concatEnc (recsOf a ip.fileId)).length ≤ E.options.dataFileSize := by
      unfold recsOf
      by_cases hf : ip.fileId = a.fid
      · rw [if_pos hf]
        exact hainv.2.2.1
      · rw [if_neg hf]
        cases hg : assocGet a.old ip.fileId with
        | none => show (concatEnc []).length ≤ _; simp [concatEnc]
        | some recs =>
          have hmm : (ip.fileId, recs) ∈ a.old := by
            unfold assocGet at hg
            cases hfind : a.old.find? (fun x => decide (x.1 = ip.fileId)) with
            | none => rw [hfind] at hg; exact absurd hg (by simp)
            | some x =>
              rw [hfind] at hg
              have hxm := List.mem_of_find?_eq_some hfind
              have hxk := List.find?_some hfind
              simp at hxk
              have hx2 : x.2 = recs := by injection hg
              rw [← hxk, ← hx2]
              exact hxm
          show (concatEnc ((some recs).getD [])).length ≤ _
          exact hainv.2.2.2.1 (ip.fileId, recs) hmm
    dsimp only at hb
    omega
  refine ⟨ip, v, hip, ?_, ?_, ?_, hbound⟩
  · rw [hp2, hrec]
  · rw [hp2, hrec]
    unfold fileEntry
    rw [← hrec]
    have hee : (e.1, e.2.1, e.1.encode.length) = e :=
      mem_entriesFrom_size (recsOf a fid) 0 e he
    rw [hrec] at hee
    rw [show ip.offset = e.2.1 from hipo, hrec, hee]
    rw [hipf]
    exact he
  · rw [hp2]
    exact hainv.2.2.2.2 fid e.1 (mem_entriesFrom_rec 0 _ e he)

theorem assocGet_append_left {ν κ : Type} [DecidableEq κ]
    (l1 l2 : List (κ × ν)) (k : κ) (v : ν) (h : assocGet l1 k = some v) :
    assocGet (l1 ++ l2) k = some v := by
  induction l1 with
  | nil => rw [assocGet_nil] at h; exact absurd h (by simp)
  | cons e t ih =>
    rw [List.cons_append, assocGet_cons]
    rw [assocGet_cons] at h
    by_cases he : e.1 = k
    · rw [if_pos he] at h ⊢
      exact h
    · rw [if_neg he] at h ⊢
      exact ih h

theorem map_pair_fst (l : List (Nat × DataFile)) :
    (l.map (fun e => (e.1, e.2.content))).map Prod.fst = l.map Prod.fst := by
  rw [List.map_map]
  rfl

/-- Looking a staged data file up in the scratch engine's directory. -/
theorem staged_lookup (mdb : EngineState) (a2 : AppendSt)
    (hrel : filesRel mdb a2) (hids : a2.old.map Prod.fst = List.range a2.fid)
    (fid : Nat) (hf : fid ≤ a2.fid) :
    assocGet (dirDataFilesOf mdb) fid = some (concatEnc (recsOf a2 fid)) := by
  obtain ⟨hfid, hcont, _, hkeys, hlook⟩ := hrel
  unfold dirDataFilesOf
  by_cases hfa : fid = a2.fid
  · have hnone : assocGet (mdb.oldFiles.map (fun e => (e.1, e.2.content))) fid = none := by
      apply assocGet_none_of_not_mem
      rw [map_pair_fst, hkeys, hids, hfa]
      simp
    rw [hfid]
    rw [hfa]
    rw [hfa] at hnone
    rw [assocGet_append_single_self _ _ _ hnone, hcont]
    unfold recsOf
    rw [if_pos rfl]
  · have hlt : fid < a2.fid := by omega
    have hmemK : fid ∈ a2.old.map Prod.fst := by
      rw [hids]
      exact List.mem_range.mpr hlt
    obtain ⟨recs, hrecs⟩ := assocGet_isSome_of_mem_keys a2.old fid hmemK
    have hpre : assocGet (mdb.oldFiles.map (fun e => (e.1, e.2.content))) fid =
        some (concatEnc recs) := by
      rw [assocGet_map_pair]
      show (oldLookup mdb.oldFiles fid).map DataFile.content = some (concatEnc recs)
      have hl := hlook fid
      rw [hrecs] at hl
      rw [hl]
      rfl
    rw [assocGet_append_left _ _ _ _ hpre]
    unfold recsOf
    rw [if_neg hfa, hrecs]
    rfl

theorem entriesFrom_length (L : List LogRecord) (base : Nat) :
    (entriesFrom base L).length = L.length := by
  have := congrArg List.length (entriesFrom_records base L)
  rw [List.length_map] at this
  exact this

/-- The number of copied pairs is at most the total record count. -/
theorem copyPairsAll_length_le (idx : Index) (a : AppendSt)
    (hids : a.old.map Prod.fst = List.range a.fid)
    (hnodup : (a.old.map Prod.fst).Pairwise (· ≠ ·)) :
    (copyPairsAll idx (recsOf a) (List.range (a.fid + 1))).length ≤ recCount a := by
  unfold copyPairsAll
  rw [List.length_flatten]
  have hperfile : ∀ fid, (copyPairsOfEntries idx fid
      (entriesFrom 0 (recsOf a fid))).length ≤ (recsOf a fid).length := by
    intro fid
    calc (copyPairsOfEntries idx fid (entriesFrom 0 (recsOf a fid))).length
        ≤ (entriesFrom 0 (recsOf a fid)).length := List.length_filterMap_le _ _
      _ = (recsOf a fid).length := entriesFrom_length _ 0
  have hsum : ((List.range (a.fid + 1)).map (fun fid =>
      (copyPairsOfEntries idx fid (entriesFrom 0 (recsOf a fid))).length)).sum ≤
      ((List.range (a.fid + 1)).map (fun fid => (recsOf a fid).length)).sum := by
    apply List.sum_le_sum
    intro fid _
    exact hperfile fid
  have htotal : ((List.range (a.fid + 1)).map
      (fun fid => (recsOf a fid).length)).sum = recCount a := by
    rw [List.range_succ, List.map_append, List.sum_append]
    have hcur : (([a.fid].map (fun fid => (recsOf a fid).length))).sum = a.cur.length := by
      show (recsOf a a.fid).length + 0 = a.cur.length
      unfold recsOf
      rw [if_pos rfl]
      omega
    have holds : ((List.range a.fid).map (fun fid => (recsOf a fid).length)).sum =
        (a.old.map (fun e => e.2.length)).sum := by
      rw [← hids, List.map_map]
      have hmc : (a.old.map ((fun fid => (recsOf a fid).length) ∘ Prod.fst)) =
          a.old.map (fun e => e.2.length) := by
        apply List.map_congr_left
        intro e he
        show (recsOf a e.1).length = e.2.length
        unfold recsOf
        have hemem : e.1 ∈ List.range a.fid := by
          rw [← hids]
          exact List.mem_map_of_mem Prod.fst he
        rw [if_neg (by
          have := List.mem_range.mp hemem
          omega)]
        rw [assocGet_of_mem_nodup a.old hnodup e he]
        rfl
      rw [hmc]
    rw [hcur, holds]
    unfold recCount
    omega
  rw [List.map_map]
  exact le_trans hsum (le_of_eq htotal)

/-- The hint records the merge writes are well-formed scan records. -/
theorem hint_records_wf (E : EngineState) (a : AppendSt)
    (hainv : AppendInv E.options.dataFileSize a)
    (hidxinv : IndexInv E.index a)
    (hdfs21 : 2 ^ 21 ≤ E.options.dataFileSize)
    (hdfs40 : E.options.dataFileSize ≤ 2 ^ 40)
    (hcount : recCount a ≤ 2 ^ 30) :
    ∀ r ∈ List.zipWith (fun p q => (⟨p.1, q.encode, .normal⟩ : LogRecord))
      (copyPairsAll E.index (recsOf a) (List.range (a.fid + 1)))
      (appendAllA E.options.dataFileSize freshAppendSt
        ((copyPairsAll E.index (recsOf a) (List.range (a.fid + 1))).map Prod.snd)).2,
      WFRec r := by
  intro r hr
  rw [zipWith_eq_map_zip] at hr
  obtain ⟨pq, hpq, hEq⟩ := List.mem_map.mp hr
  have hpmem := (List.of_mem_zip hpq).1
  have hqmem := (List.of_mem_zip hpq).2
  have hwfps : ∀ p ∈ copyPairsAll E.index (recsOf a) (List.range (a.fid + 1)),
      WFStored p.2 := by
    intro p hp
    obtain ⟨fid, _, e, he, hp2, _, _⟩ := copyPairsAll_mem E.index (recsOf a)
      (List.range (a.fid + 1)) (fun fid _ => hainv.2.2.2.2 fid) p hp
    rw [hp2]
    exact hainv.2.2.2.2 fid e.1 (mem_entriesFrom_rec 0 _ e he)
  have hwfrs : ∀ x ∈ (copyPairsAll E.index (recsOf a)
      (List.range (a.fid + 1))).map Prod.snd, WFStored x := by
    intro x hx
    obtain ⟨p, hp, rfl⟩ := List.mem_map.mp hx
    exact hwfps p hp
  obtain ⟨fid, _, e, he, hp2, hkeyEq, _⟩ := copyPairsAll_mem E.index (recsOf a)
    (List.range (a.fid + 1)) (fun fid _ => hainv.2.2.2.2 fid) pq.1 hpmem
  have hwfrec : WFStored pq.1.2 := hwfps pq.1 hpmem
  have hkparts := WFStored_key_parts e.1
    (hainv.2.2.2.2 fid e.1 (mem_entriesFrom_rec 0 _ e he)) pq.1.1 hkeyEq
  obtain ⟨hkne, hklen, hkb⟩ := hkparts
  have hqb := appendAllA_pos_bounds E.options.dataFileSize
    ((copyPairsAll E.index (recsOf a) (List.range (a.fid + 1))).map Prod.snd)
    freshAppendSt (freshAppendSt_inv _) hwfrs hdfs21 pq.2 hqmem
  obtain ⟨hqo, hqs, hqf⟩ := hqb
  have hfinfid : (appendAllA E.options.dataFileSize freshAppendSt
      ((copyPairsAll E.index (recsOf a) (List.range (a.fid + 1))).map
        Prod.snd)).1.fid ≤ 2 ^ 30 := by
    have hb := (appendAllA_fid_bounds E.options.dataFileSize
      ((copyPairsAll E.index (recsOf a) (List.range (a.fid + 1))).map Prod.snd)
      freshAppendSt).2
    have hlen : ((copyPairsAll E.index (recsOf a)
        (List.range (a.fid + 1))).map Prod.snd).length ≤ recCount a := by
      rw [List.length_map]
      exact copyPairsAll_length_le E.index a hainv.1
        (by rw [hainv.1]; exact List.nodup_range a.fid)
    show _ ≤ (2 : Nat) ^ 30
    have hfz : freshAppendSt.fid = 0 := rfl
    omega
  rw [← hEq]
  refine ⟨hkne, hkb, pos_encode_lt_256 pq.2, by
    show pq.1.1.length < 2 ^ 35
    have : (2 : Nat) ^ 16 < 2 ^ 35 := by norm_num
    omega, ?_⟩
  show pq.2.encode.length < 2 ^ 35
  exact pos_encode_len_lt pq.2 (by omega) (by omega) hqs

/-- An engine whose invariant shows no records has an everywhere-empty
index. -/
theorem index_none_of_no_records (E : EngineState) (a : AppendSt)
    (hidxinv : IndexInv E.index a) (hrecs : ∀ fid, recsOf a fid = []) :
    ∀ k, idxGet E.index k = none := by
  intro k
  cases hg : idxGet E.index k with
  | none => rfl
  | some pos =>
    exfalso
    obtain ⟨_, v, hent⟩ := hidxinv k pos hg
    unfold fileEntry at hent
    rw [hrecs pos.fileId] at hent
    simp [entriesFrom] at hent

/-- Abbreviations for the merge artifacts of an engine. -/
def psOf (E : EngineState) (a : AppendSt) : List (List Nat × LogRecord) :=
  copyPairsAll E.index (recsOf a) (List.range (a.fid + 1))

def mergeA (E : EngineState) (a : AppendSt) : AppendSt × List LogRecordPos :=
  appendAllA E.options.dataFileSize freshAppendSt ((psOf E a).map Prod.snd)

def hintRecsOf (E : EngineState) (a : AppendSt) : List LogRecord :=
  List.zipWith (fun p q => (⟨p.1, q.encode, .normal⟩ : LogRecord))
    (psOf E a) (mergeA E a).2

theorem psOf_wfstored (E : EngineState) (a : AppendSt)
    (hainv : AppendInv E.options.dataFileSize a) :
    ∀ p ∈ psOf E a, WFStored p.2 := by
  intro p hp
  obtain ⟨fid, _, e, he, hp2, _, _⟩ := copyPairsAll_mem E.index (recsOf a)
    (List.range (a.fid + 1)) (fun fid _ => hainv.2.2.2.2 fid) p hp
  rw [hp2]
  exact hainv.2.2.2.2 fid e.1 (mem_entriesFrom_rec 0 _ e he)

theorem rsOf_wfstored (E : EngineState) (a : AppendSt)
    (hainv : AppendInv E.options.dataFileSize a) :
    ∀ x ∈ (psOf E a).map Prod.snd, WFStored x := by
  intro x hx
  obtain ⟨p, hp, rfl⟩ := List.mem_map.mp hx
  exact psOf_wfstored E a hainv p hp

theorem mergeA_inv (E : EngineState) (a : AppendSt)
    (hainv : AppendInv E.options.dataFileSize a)
    (hdfs21 : 2 ^ 21 ≤ E.options.dataFileSize) :
    AppendInv E.options.dataFileSize (mergeA E a).1 :=
  appendAllA_inv E.options.dataFileSize _ freshAppendSt (freshAppendSt_inv _)
    (rsOf_wfstored E a hainv) hdfs21

theorem mergeA_len (E : EngineState) (a : AppendSt) :
    (psOf E a).length = (mergeA E a).2.length := by
  unfold mergeA
  rw [appendAllA_len, List.length_map]

theorem psOf_keys_pairwise (E : EngineState) (a : AppendSt) :
    (psOf E a).Pairwise (fun p1 p2 => p1.1 ≠ p2.1) :=
  copyPairsAll_keys_pairwise E.index (recsOf a) (List.range (a.fid + 1))
    (List.nodup_range (a.fid + 1))

theorem finRec_wf (E : EngineState) (a : AppendSt)
    (hainv : AppendInv E.options.dataFileSize a)
    (hcount : recCount a ≤ 2 ^ 30) :
    WFRec ⟨MERGE_FIN_KEY, natToDecimal (a.fid + 1), .normal⟩ := by
  have hfb : a.fid ≤ recCount a := fid_le_recCount a hainv.1 hainv.2.1
  have hvl : (natToDecimal (a.fid + 1)).length < 2 ^ 35 := by
    have h1 := natToDecimal_length_le (a.fid + 1)
    have h2 : (2 : Nat) ^ 30 + 2 < 2 ^ 35 := by norm_num
    omega
  refine ⟨?_, ?_, natToDecimal_lt_256 _, ?_, hvl⟩
  · show MERGE_FIN_KEY ≠ []
    decide
  · show ∀ b ∈ MERGE_FIN_KEY, b < 256
    decide
  · show MERGE_FIN_KEY.length < 2 ^ 35
    decide

theorem finInfo_merged (D : Dir) (F : Nat)
    (hDfin : D.mergeFin = some (LogRecord.encode
      ⟨MERGE_FIN_KEY, natToDecimal F, .normal⟩))
    (hwfF : WFRec ⟨MERGE_FIN_KEY, natToDecimal F, .normal⟩) :
    finInfo D = some (.ok (true, F)) := by
  unfold finInfo
  rw [hDfin]
  dsimp only
  rw [readLogRecord_single _ hwfF]
  dsimp only
  rw [if_pos ⟨natToDecimal_ne_nil F, natToDecimal_digits F⟩]
  rw [decimalToNat_natToDecimal]

theorem mem_of_assocGet_eq_some {ν κ : Type} [DecidableEq κ]
    (l : List (κ × ν)) (k : κ) (v : ν) (h : assocGet l k = some v) :
    (k, v) ∈ l := by
  unfold assocGet at h
  cases hf : l.find? (fun e => decide (e.1 = k)) with
  | none => rw [hf] at h; exact absurd h (by simp)
  | some e =>
    rw [hf] at h
    have hk := List.find?_some hf
    simp at hk
    have hm := List.mem_of_find?_eq_some hf
    have hv : e.2 = v := by injection h
    rw [← hk, ← hv]
    exact hm

/-- Get-equivalence of a reopened engine whose index mirrors the hint
index and whose files hold the merged records. -/
theorem reopen_get_equiv_final (E : EngineState) (a : AppendSt)
    (E2 : EngineState)
    (hrel : filesRel E a) (hainv : AppendInv E.options.dataFileSize a)
    (hidxinv : IndexInv E.index a)
    (hdfs21 : 2 ^ 21 ≤ E.options.dataFileSize)
    (hidx : Index)
    (hE2idx : ∀ k, idxGet E2.index k = assocGet hidx k)
    (hlookZip : ∀ pq ∈ (psOf E a).zip (mergeA E a).2,
      assocGet hidx pq.1.1 = some pq.2)
    (hlookNone : ∀ k, k ∉ (psOf E a).map Prod.fst → assocGet hidx k = none)
    (hE2read : ∀ q : LogRecordPos, q.fileId ≤ (mergeA E a).1.fid →
      (if E2.active.fileId = q.fileId then some E2.active.content
       else (oldLookup E2.oldFiles q.fileId).map DataFile.content) =
      some (concatEnc (recsOf (mergeA E a).1 q.fileId))) :
    ∀ k, Engine.get E2 k = Engine.get E k := by
  intro k
  by_cases hk : k = []
  · subst hk
    show Engine.get E2 [] = Engine.get E []
    unfold Engine.get
    rw [if_pos rfl, if_pos rfl]
  · cases hg : idxGet E.index k with
    | none =>
      rw [engineGet_miss E k hk hg]
      have hnotin : k ∉ (psOf E a).map Prod.fst := by
        intro hmem
        obtain ⟨p, hp, hpk⟩ := List.mem_map.mp hmem
        obtain ⟨ip, v, hip, _, _, _, _⟩ := ps_resolve E a hainv hidxinv p hp
        rw [hpk] at hip
        rw [hip] at hg
        exact absurd hg (by simp)
      exact engineGet_miss E2 k hk (by
        rw [show idxGet E2.index k = assocGet hidx k from hE2idx k]
        exact hlookNone k hnotin)
    | some pos =>
      obtain ⟨hkne, v, hent⟩ := hidxinv k pos hg
      have hwfrec : WFRec (⟨logRecordKeyWithSeq k 0, v, .normal⟩ : LogRecord) :=
        WFStored_WFRec _ (hainv.2.2.2.2 pos.fileId _
          (mem_entriesFrom_rec 0 _ _ hent))
      have hEv : Engine.get E k = some (.ok v) :=
        engineGet_some E a k pos v hrel hk hg hent hwfrec
      have hpair : (k, (⟨logRecordKeyWithSeq k 0, v, .normal⟩ : LogRecord)) ∈
          psOf E a := by
        apply copyPairsAll_total E.index (recsOf a) (List.range (a.fid + 1)) k pos v hg
        · exact List.mem_range.mpr (by
            have := fileEntry_fid_le a pos _ hainv.1 hent
            omega)
        · exact hent
      obtain ⟨q, hq⟩ := mem_zip_of_mem_left (psOf E a) (mergeA E a).2 _ hpair
        (mergeA_len E a)
      have hq1 : assocGet hidx k = some q := hlookZip _ hq
      have hE2g : idxGet E2.index k = some q := by
        rw [hE2idx k, hq1]
      have hentry2 : fileEntry (mergeA E a).1 q
          (⟨logRecordKeyWithSeq k 0, v, .normal⟩ : LogRecord) := by
        have hzm := mem_zip_map_snd_rev Prod.snd (psOf E a) (mergeA E a).2 _ hq
        have := appendAllA_zip_entries E.options.dataFileSize
          ((psOf E a).map Prod.snd) freshAppendSt (freshAppendSt_inv _)
          (rsOf_wfstored E a hainv) hdfs21 _ hzm
        exact this
      have hqfid : q.fileId ≤ (mergeA E a).1.fid := by
        have hqmem := (List.of_mem_zip hq).2
        exact (appendAllA_pos_bounds E.options.dataFileSize
          ((psOf E a).map Prod.snd) freshAppendSt (freshAppendSt_inv _)
          (rsOf_wfstored E a hainv) hdfs21 q hqmem).2.2
      have hE2v : Engine.get E2 k = some (.ok v) := by
        unfold Engine.get
        rw [if_neg hk, hE2g]
        dsimp only
        rw [getValue_read E2 q _ (recsOf (mergeA E a).1 q.fileId) hentry2 hwfrec
          (hE2read q hqfid)]
        rw [if_neg (by intro hh; cases hh)]
      rw [hE2v, hEv]

/-- Every record in the merged files is indexed by the hint index at its
own position. -/
theorem staged_entries_pointed (E : EngineState) (a : AppendSt)
    (hainv : AppendInv E.options.dataFileSize a)
    (hidxinv : IndexInv E.index a)
    (hdfs21 : 2 ^ 21 ≤ E.options.dataFileSize)
    (hidx : Index)
    (hlookZip : ∀ pq ∈ (psOf E a).zip (mergeA E a).2,
      assocGet hidx pq.1.1 = some pq.2) :
    ∀ fid, ∀ e ∈ entriesFrom 0 (recsOf (mergeA E a).1 fid),
      ∃ k, e.1.recType = .normal ∧ e.1.key = logRecordKeyWithSeq k 0 ∧
        assocGet hidx k = some (⟨fid, e.2.1, e.2.2⟩ : LogRecordPos) := by
  intro fid e he
  rcases appendAllA_entries_complete E.options.dataFileSize
    ((psOf E a).map Prod.snd) freshAppendSt (freshAppendSt_inv _)
    (rsOf_wfstored E a hainv) hdfs21 fid e he with hbase | hzip
  · exfalso
    unfold recsOf freshAppendSt at hbase
    dsimp only at hbase
    by_cases hf : fid = 0
    · rw [if_pos hf] at hbase
      simp [entriesFrom] at hbase
    · rw [if_neg hf] at hbase
      rw [assocGet_nil] at hbase
      simp [entriesFrom] at hbase
  · obtain ⟨pq, hpq, hEq⟩ := mem_zip_map_snd Prod.snd (psOf E a)
      (mergeA E a).2 _ hzip
    injection hEq with hEq1 hEq2
    obtain ⟨ip, v, hip, hrec, _, _, _⟩ := ps_resolve E a hainv hidxinv pq.1
      (List.of_mem_zip hpq).1
    refine ⟨pq.1.1, ?_, ?_, ?_⟩
    · rw [hEq1, hrec]
    · rw [hEq1, hrec]
    · rw [hEq2]
      exact hlookZip pq hpq

/-- Reopening the promoted directory of a successful merge: every lookup
agrees with the pre-merge engine. -/
theorem reopen_merged (opts : EngineOptions) (E : EngineState) (a : AppendSt)
    (mdb : EngineState)
    (hrel : filesRel E a) (hainv : AppendInv E.options.dataFileSize a)
    (hidxinv : IndexInv E.index a)
    (hdfs21 : 2 ^ 21 ≤ E.options.dataFileSize)
    (hdfs40 : E.options.dataFileSize ≤ 2 ^ 40)
    (hcount : recCount a ≤ 2 ^ 30)
    (hmrel : filesRel mdb (mergeA E a).1)
    (hpsne : psOf E a ≠ [])
    (D : Dir)
    (hDdata : D.dataFiles =
      ([((a.fid + 1 : Nat), ([] : List Nat))].filter
        (fun e => !decide (e.1 ∈ (stagedDataFiles
          ⟨mdb, hintRecsOf E a, natToDecimal (a.fid + 1)⟩).map Prod.fst))) ++
        stagedDataFiles ⟨mdb, hintRecsOf E a, natToDecimal (a.fid + 1)⟩)
    (hDhint : D.hintFile = some (concatEnc (hintRecsOf E a)))
    (hDfin : D.mergeFin = some (LogRecord.encode
      ⟨MERGE_FIN_KEY, natToDecimal (a.fid + 1), .normal⟩)) :
    ∃ E2, openFromDir opts D = some (.ok E2) ∧
      ∀ k, Engine.get E2 k = Engine.get E k := by
  have ha2inv : AppendInv E.options.dataFileSize (mergeA E a).1 :=
    mergeA_inv E a hainv hdfs21
  have ha2ids := ha2inv.1
  obtain ⟨hidx, hloadEq, hlookZip, hlookNone⟩ :=
    loadHintIndex_merged (psOf E a) (mergeA E a).2 D hDhint (mergeA_len E a)
      (psOf_keys_pairwise E a)
      (hint_records_wf E a hainv hidxinv hdfs21 hdfs40 hcount)
  have hfinEq := finInfo_merged D (a.fid + 1) hDfin (finRec_wf E a hainv hcount)
  have hcurne : (mergeA E a).1.cur ≠ [] := by
    apply appendAllA_cur_ne_nil
    intro hmapnil
    exact hpsne (List.map_eq_nil_iff.mp hmapnil)
  have hstagedAll : stagedDataFiles
      ⟨mdb, hintRecsOf E a, natToDecimal (a.fid + 1)⟩ = dirDataFilesOf mdb := by
    unfold stagedDataFiles
    apply List.filter_eq_self.mpr
    intro e he
    show (!decide (e.2 = [])) = true
    unfold dirDataFilesOf at he
    rcases List.mem_append.mp he with he | he
    · obtain ⟨x, hx, hxe⟩ := List.mem_map.mp he
      have hkeysnd : (mdb.oldFiles.map Prod.fst).Pairwise (· ≠ ·) := by
        rw [hmrel.2.2.2.1, ha2ids]
        exact List.nodup_range _
      have hget := assocGet_of_mem_nodup mdb.oldFiles hkeysnd x hx
      have hl := hmrel.2.2.2.2 x.1
      rw [show oldLookup mdb.oldFiles x.1 = assocGet mdb.oldFiles x.1 from rfl,
        hget] at hl
      cases hg2 : assocGet (mergeA E a).1.old x.1 with
      | none =>
        rw [hg2] at hl
        exact absurd hl (by simp)
      | some recs =>
        rw [hg2] at hl
        have hxc : x.2.content = concatEnc recs := by injection hl
        have hmem2 := mem_of_assocGet_eq_some _ _ _ hg2
        have hne2 := ha2inv.2.1 _ hmem2
        have hcne : ¬ x.2.content = [] := by
          rw [hxc]
          intro hcc
          exact hne2 (concatEnc_eq_nil recs hcc)
        rw [← hxe]
        simpa using hcne
    · rw [List.mem_singleton] at he
      have hcne : ¬ mdb.active.content = [] := by
        rw [hmrel.2.1]
        intro hcc
        exact hcurne (concatEnc_eq_nil _ hcc)
      rw [he]
      simpa using hcne
  have hstagedIds : (dirDataFilesOf mdb).map Prod.fst =
      List.range ((mergeA E a).1.fid + 1) := by
    unfold dirDataFilesOf
    rw [List.map_append, map_pair_fst, hmrel.2.2.2.1, ha2ids]
    show List.range _ ++ [mdb.active.fileId] = _
    rw [hmrel.1, List.range_succ]
  have hwfrecs2 : ∀ fid, ∀ r ∈ recsOf (mergeA E a).1 fid, WFRec r := by
    intro fid r hr
    exact WFStored_WFRec r (ha2inv.2.2.2.2 fid r hr)
  have hpointed := staged_entries_pointed E a hainv hidxinv hdfs21 hidx hlookZip
  by_cases hAB : a.fid + 1 ≤ (mergeA E a).1.fid
  · have hmemstaged : (a.fid + 1) ∈ (stagedDataFiles
        ⟨mdb, hintRecsOf E a, natToDecimal (a.fid + 1)⟩).map Prod.fst := by
      rw [hstagedAll, hstagedIds]
      exact List.mem_range.mpr (by omega)
    have hfilA : ([((a.fid + 1 : Nat), ([] : List Nat))].filter
        (fun e => !decide (e.1 ∈ (stagedDataFiles
          ⟨mdb, hintRecsOf E a, natToDecimal (a.fid + 1)⟩).map Prod.fst))) = [] := by
      simp [hmemstaged]
    have hDdataA : D.dataFiles = dirDataFilesOf mdb := by
      rw [hDdata, hfilA, List.nil_append, hstagedAll]
    have hDGet : ∀ fid, fid ≤ (mergeA E a).1.fid →
        assocGet D.dataFiles fid =
          some (concatEnc (recsOf (mergeA E a).1 fid)) := by
      intro fid hf
      rw [hDdataA]
      exact staged_lookup mdb (mergeA E a).1 hmrel ha2ids fid hf
    have hsortA : List.insertionSort (· ≤ ·) (D.dataFiles.map Prod.fst) =
        List.range ((mergeA E a).1.fid + 1) := by
      rw [hDdataA, hstagedIds]
      exact List.Sorted.insertionSort_eq (List.sorted_le_range _)
    obtain ⟨rst, wo1, hrun, hpt⟩ := replayDirAux_noop D true (a.fid + 1) hidx
      (List.range ((mergeA E a).1.fid + 1)) ⟨hidx, 0, [], 0⟩ 0
      (by
        intro fid hfm hns
        refine ⟨recsOf (mergeA E a).1 fid, ?_, ?_, ?_⟩
        · rw [hDGet fid (by
            have := List.mem_range.mp hfm
            omega)]
          rfl
        · exact hwfrecs2 fid
        · exact hpointed fid)
      (fun k => rfl)
    refine ⟨_, openFromDir_spec opts D (List.range ((mergeA E a).1.fid + 1))
      hsortA (by simp) hidx hloadEq true (a.fid + 1) hfinEq rst wo1 hrun, ?_⟩
    apply reopen_get_equiv_final E a _ hrel hainv hidxinv hdfs21 hidx
    · intro k
      exact hpt k
    · exact hlookZip
    · exact hlookNone
    · intro q hqf
      show (if (List.range ((mergeA E a).1.fid + 1)).getLast?.getD 0 = q.fileId
        then some ((assocGet D.dataFiles
          ((List.range ((mergeA E a).1.fid + 1)).getLast?.getD 0)).getD [])
        else (oldLookup ((List.range ((mergeA E a).1.fid + 1)).dropLast.map
          (fun i => (i, (⟨i, (assocGet D.dataFiles i).getD [], 0, true⟩ : DataFile))))
            q.fileId).map DataFile.content) = _
      have hlast : (List.range ((mergeA E a).1.fid + 1)).getLast?.getD 0 =
          (mergeA E a).1.fid := by
        rw [List.range_succ, List.getLast?_concat]
        rfl
      have hdrop : (List.range ((mergeA E a).1.fid + 1)).dropLast =
          List.range (mergeA E a).1.fid := by
        rw [List.range_succ, List.dropLast_concat]
      rw [hlast, hdrop]
      by_cases hqa : (mergeA E a).1.fid = q.fileId
      · rw [if_pos hqa]
        rw [hqa, hDGet q.fileId hqf]
        rfl
      · rw [if_neg hqa]
        have hqlt : q.fileId ∈ List.range (mergeA E a).1.fid :=
          List.mem_range.mpr (by omega)
        show (assocGet (List.map (fun i =>
          (i, (⟨i, (assocGet D.dataFiles i).getD [], 0, true⟩ : DataFile)))
          (List.range (mergeA E a).1.fid)) q.fileId).map DataFile.content = _
        rw [assocGet_map_fn _ _ _ hqlt]
        show some ((assocGet D.dataFiles q.fileId).getD []) = _
        rw [hDGet q.fileId hqf]
        rfl
  · have hnotmem : (a.fid + 1) ∉ (stagedDataFiles
        ⟨mdb, hintRecsOf E a, natToDecimal (a.fid + 1)⟩).map Prod.fst := by
      rw [hstagedAll, hstagedIds]
      intro hmem
      exact hAB (by
        have := List.mem_range.mp hmem
        omega)
    have hfilB : ([((a.fid + 1 : Nat), ([] : List Nat))].filter
        (fun e => !decide (e.1 ∈ (stagedDataFiles
          ⟨mdb, hintRecsOf E a, natToDecimal (a.fid + 1)⟩).map Prod.fst))) =
        [((a.fid + 1 : Nat), ([] : List Nat))] := by
      simp [hnotmem]
    have hDdataB : D.dataFiles =
        ((a.fid + 1 : Nat), ([] : List Nat)) :: dirDataFilesOf mdb := by
      rw [hDdata, hfilB, hstagedAll]
      rfl
    have hDGet : ∀ fid, fid ≤ (mergeA E a).1.fid →
        assocGet D.dataFiles fid =
          some (concatEnc (recsOf (mergeA E a).1 fid)) := by
      intro fid hf
      rw [hDdataB, assocGet_cons, if_neg (by
        show ¬ (a.fid + 1 = fid)
        omega)]
      exact staged_lookup mdb (mergeA E a).1 hmrel ha2ids fid hf
    have hDGetTop : assocGet D.dataFiles (a.fid + 1) = some [] := by
      rw [hDdataB, assocGet_cons, if_pos rfl]
    have hsortB : List.insertionSort (· ≤ ·) (D.dataFiles.map Prod.fst) =
        List.range ((mergeA E a).1.fid + 1) ++ [a.fid + 1] := by
      have hmap : D.dataFiles.map Prod.fst =
          (a.fid + 1) :: List.range ((mergeA E a).1.fid + 1) := by
        rw [hDdataB, List.map_cons, hstagedIds]
      rw [hmap]
      have hs2 : (List.range ((mergeA E a).1.fid + 1) ++
          [a.fid + 1]).Sorted (· ≤ ·) := by
        rw [List.Sorted, List.pairwise_append]
        refine ⟨List.sorted_le_range _, List.pairwise_singleton _ _, ?_⟩
        intro x hx y hy
        rw [List.mem_singleton] at hy
        have := List.mem_range.mp hx
        omega
      exact List.eq_of_perm_of_sorted
        ((List.perm_insertionSort _ _).trans
          (List.perm_append_singleton _ _).symm)
        (List.sorted_insertionSort _ _) hs2
    obtain ⟨rst, wo1, hrun, hpt⟩ := replayDirAux_noop D true (a.fid + 1) hidx
      (List.range ((mergeA E a).1.fid + 1) ++ [a.fid + 1]) ⟨hidx, 0, [], 0⟩ 0
      (by
        intro fid hfm hns
        rcases List.mem_append.mp hfm with hfm | hfm
        · exfalso
          apply hns
          refine ⟨rfl, ?_⟩
          have := List.mem_range.mp hfm
          omega
        · rw [List.mem_singleton] at hfm
          subst hfm
          refine ⟨[], ?_, by intro r hr; simp at hr, by
            intro e he; simp [entriesFrom] at he⟩
          rw [hDGetTop]
          rfl)
      (fun k => rfl)
    refine ⟨_, openFromDir_spec opts D
      (List.range ((mergeA E a).1.fid + 1) ++ [a.fid + 1])
      hsortB (by simp) hidx hloadEq true (a.fid + 1) hfinEq rst wo1 hrun, ?_⟩
    apply reopen_get_equiv_final E a _ hrel hainv hidxinv hdfs21 hidx
    · intro k
      exact hpt k
    · exact hlookZip
    · exact hlookNone
    · intro q hqf
      have hlast : ((List.range ((mergeA E a).1.fid + 1) ++
          [a.fid + 1]).getLast?.getD 0) = a.fid + 1 := by
        rw [List.getLast?_concat]
        rfl
      have hdrop : (List.range ((mergeA E a).1.fid + 1) ++ [a.fid + 1]).dropLast =
          List.range ((mergeA E a).1.fid + 1) := List.dropLast_concat
      show (if (List.range ((mergeA E a).1.fid + 1) ++
          [a.fid + 1]).getLast?.getD 0 = q.fileId
        then some ((assocGet D.dataFiles ((List.range ((mergeA E a).1.fid + 1) ++
          [a.fid + 1]).getLast?.getD 0)).getD [])
        else (oldLookup ((List.range ((mergeA E a).1.fid + 1) ++
          [a.fid + 1]).dropLast.map
          (fun i => (i, (⟨i, (assocGet D.dataFiles i).getD [], 0, true⟩ : DataFile))))
            q.fileId).map DataFile.content) = _
      rw [hlast, hdrop]
      rw [if_neg (by omega)]
      have hqlt : q.fileId ∈ List.range ((mergeA E a).1.fid + 1) :=
        List.mem_range.mpr (by omega)
      show (assocGet (List.map (fun i =>
        (i, (⟨i, (assocGet D.dataFiles i).getD [], 0, true⟩ : DataFile)))
        (List.range ((mergeA E a).1.fid + 1))) q.fileId).map DataFile.content = _
      rw [assocGet_map_fn _ _ _ hqlt]
      show some ((assocGet D.dataFiles q.fileId).getD []) = _
      rw [hDGet q.fileId hqf]
      rfl

/-- The live data files surviving `load_merge_files`' deletion pass after
a full rotation: only the fresh (empty) active file. -/
theorem rotated_survivors (E : EngineState) (a : AppendSt)
    (hrel : filesRel E a) (hainv : AppendInv E.options.dataFileSize a) :
    (dirDataFilesOf (rotateMergeFiles E).1).filter
      (fun e => !decide (e.1 < a.fid + 1)) =
      [((a.fid + 1 : Nat), ([] : List Nat))] := by
  have hkeys : E.oldFiles.map Prod.fst = List.range a.fid := by
    rw [hrel.2.2.2.1, hainv.1]
  have hins : oldInsert E.oldFiles E.active.fileId
      ⟨E.active.fileId, E.active.sync.content, 0, true⟩ =
      E.oldFiles ++ [(E.active.fileId,
        (⟨E.active.fileId, E.active.sync.content, 0, true⟩ : DataFile))] := by
    apply assocInsert_of_not_mem
    rw [hkeys, hrel.1]
    simp
  have hdd : dirDataFilesOf (rotateMergeFiles E).1 =
      (oldInsert E.oldFiles E.active.fileId
        ⟨E.active.fileId, E.active.sync.content, 0, true⟩).map
        (fun e => (e.1, e.2.content)) ++
      [(E.active.fileId + 1, [])] := rfl
  rw [hdd, hins, List.map_append, List.filter_append, List.filter_append]
  have h1 : (E.oldFiles.map (fun e => (e.1, e.2.content))).filter
      (fun e => !decide (e.1 < a.fid + 1)) = [] := by
    apply List.filter_eq_nil_iff.mpr
    intro e he
    obtain ⟨x, hx, hxe⟩ := List.mem_map.mp he
    have hx1 : x.1 ∈ List.range a.fid := by
      rw [← hkeys]
      exact List.mem_map_of_mem Prod.fst hx
    have hlt := List.mem_range.mp hx1
    rw [← hxe]
    simp
    omega
  have h2 : ([(E.active.fileId,
      (⟨E.active.fileId, E.active.sync.content, 0, true⟩ : DataFile))].map
        (fun e => (e.1, e.2.content))).filter
      (fun e => !decide (e.1 < a.fid + 1)) = [] := by
    simp [hrel.1]
  have h3 : [((E.active.fileId + 1 : Nat), ([] : List Nat))].filter
      (fun e => !decide (e.1 < a.fid + 1)) =
      [((a.fid + 1 : Nat), ([] : List Nat))] := by
    simp [hrel.1]
  rw [h1, h2, h3, List.nil_append, List.nil_append]

/-- Reopening the promoted directory of a merge that copied nothing:
every lookup returns `KeyNotFound` on both sides. -/
theorem reopen_merged_empty (opts : EngineOptions) (E : EngineState)
    (a : AppendSt) (mdb : EngineState)
    (hainv : AppendInv E.options.dataFileSize a)
    (hidxinv : IndexInv E.index a)
    (hcount : recCount a ≤ 2 ^ 30)
    (hmrel : filesRel mdb (mergeA E a).1)
    (hps : psOf E a = [])
    (D : Dir)
    (hDdata : D.dataFiles =
      ([((a.fid + 1 : Nat), ([] : List Nat))].filter
        (fun e => !decide (e.1 ∈ (stagedDataFiles
          ⟨mdb, hintRecsOf E a, natToDecimal (a.fid + 1)⟩).map Prod.fst))) ++
        stagedDataFiles ⟨mdb, hintRecsOf E a, natToDecimal (a.fid + 1)⟩)
    (hDhint : D.hintFile = some (concatEnc (hintRecsOf E a)))
    (hDfin : D.mergeFin = some (LogRecord.encode
      ⟨MERGE_FIN_KEY, natToDecimal (a.fid + 1), .normal⟩)) :
    ∃ E2, openFromDir opts D = some (.ok E2) ∧
      ∀ k, Engine.get E2 k = Engine.get E k := by
  have hmA : mergeA E a = (freshAppendSt, []) := by
    unfold mergeA
    rw [hps]
    rfl
  have hhintnil : hintRecsOf E a = [] := by
    unfold hintRecsOf
    rw [hps]
    rfl
  obtain ⟨hidx, hloadEq, _, hlookNone⟩ :=
    loadHintIndex_merged [] [] D (by rw [hDhint, hhintnil]; rfl) rfl
      List.Pairwise.nil (by intro r hr; simp at hr)
  have hnone : ∀ k, assocGet hidx k = none := fun k => hlookNone k (by simp)
  have hfinEq := finInfo_merged D (a.fid + 1) hDfin (finRec_wf E a hainv hcount)
  have holdkeys : mdb.oldFiles.map Prod.fst = [] := by
    rw [hmrel.2.2.2.1, hmA]
    rfl
  have hold : mdb.oldFiles = [] := List.map_eq_nil_iff.mp holdkeys
  have hcont0 : mdb.active.content = [] := by
    have h := hmrel.2.1
    rw [hmA] at h
    exact h
  have hstaged : stagedDataFiles
      ⟨mdb, hintRecsOf E a, natToDecimal (a.fid + 1)⟩ = [] := by
    show (dirDataFilesOf mdb).filter _ = []
    unfold dirDataFilesOf
    rw [hold, hcont0]
    simp
  have hDfiles : D.dataFiles = [((a.fid + 1 : Nat), ([] : List Nat))] := by
    rw [hDdata, hstaged]
    simp
  have hsort : List.insertionSort (· ≤ ·) (D.dataFiles.map Prod.fst) =
      [a.fid + 1] := by
    rw [hDfiles]
    exact List.Sorted.insertionSort_eq (List.sorted_singleton _)
  obtain ⟨rst, wo1, hrun, hpt⟩ := replayDirAux_noop D true (a.fid + 1) hidx
    [a.fid + 1] ⟨hidx, 0, [], 0⟩ 0
    (by
      intro fid hfm hns
      rw [List.mem_singleton] at hfm
      subst hfm
      refine ⟨[], ?_, by intro r hr; simp at hr, by
        intro e he; simp [entriesFrom] at he⟩
      rw [hDfiles, assocGet_cons, if_pos rfl]
      rfl)
    (fun k => rfl)
  refine ⟨_, openFromDir_spec opts D [a.fid + 1] hsort (by simp) hidx hloadEq
    true (a.fid + 1) hfinEq rst wo1 hrun, ?_⟩
  intro k
  by_cases hk : k = []
  · subst hk
    unfold Engine.get
    rw [if_pos rfl, if_pos rfl]
  · have hE : idxGet E.index k = none := by
      cases hg : idxGet E.index k with
      | none => rfl
      | some pos =>
        exfalso
        obtain ⟨hkne, v, hent⟩ := hidxinv k pos hg
        have hfle : pos.fileId ≤ a.fid := fileEntry_fid_le a pos _ hainv.1 hent
        unfold fileEntry at hent
        have hmem := copyPairsAll_total E.index (recsOf a)
          (List.range (a.fid + 1)) k pos v hg
          (List.mem_range.mpr (by omega)) hent
        rw [show copyPairsAll E.index (recsOf a) (List.range (a.fid + 1)) =
          psOf E a from rfl, hps] at hmem
        simp at hmem
    rw [engineGet_miss E k hk hE]
    apply engineGet_miss _ k hk
    show assocGet rst.index k = none
    rw [hpt k, hnone k]

/-- Reopening an empty engine's own directory (`merge()` returned without
staging anything): every lookup returns `KeyNotFound` on both sides. -/
theorem reopen_empty_engine (E : EngineState) (a : AppendSt)
    (hrel : filesRel E a) (hainv : AppendInv E.options.dataFileSize a)
    (hidxinv : IndexInv E.index a)
    (hemp : isEngineEmpty E = true) :
    ∃ E2, openFromDir E.options
      { dataFiles := dirDataFilesOf E, hintFile := none, mergeFin := none } =
        some (.ok E2) ∧
      ∀ k, Engine.get E2 k = Engine.get E k := by
  have hemp2 := hemp
  unfold isEngineEmpty at hemp2
  rw [Bool.and_eq_true] at hemp2
  have hwo : E.active.writeOff = 0 := of_decide_eq_true hemp2.1
  have hof : E.oldFiles = [] := of_decide_eq_true hemp2.2
  have hcur : a.cur = [] := by
    apply concatEnc_eq_nil
    have h : (concatEnc a.cur).length = 0 := by
      rw [← hrel.2.2.1, hwo]
    exact List.length_eq_zero.mp h
  have holdn : a.old = [] := by
    apply List.map_eq_nil_iff.mp
    rw [← hrel.2.2.2.1, hof]
    rfl
  have hfid0 : a.fid = 0 := by
    have h := hainv.1
    rw [holdn] at h
    exact (List.range_eq_nil).mp h.symm
  have hrecs : ∀ fid, recsOf a fid = [] := by
    intro fid
    unfold recsOf
    by_cases hf : fid = a.fid
    · rw [if_pos hf, hcur]
    · rw [if_neg hf, holdn, assocGet_nil]
      rfl
  have hdd : dirDataFilesOf E = [((0 : Nat), ([] : List Nat))] := by
    unfold dirDataFilesOf
    rw [hof, hrel.1, hfid0, hrel.2.1, hcur]
    rfl
  have hsort : List.insertionSort (· ≤ ·)
      ((({ dataFiles := dirDataFilesOf E, hintFile := none,
           mergeFin := none } : Dir).dataFiles).map Prod.fst) = [0] := by
    show List.insertionSort (· ≤ ·) ((dirDataFilesOf E).map Prod.fst) = [0]
    rw [hdd]
    exact List.Sorted.insertionSort_eq (List.sorted_singleton _)
  obtain ⟨rst, wo1, hrun, hpt⟩ := replayDirAux_noop
    ({ dataFiles := dirDataFilesOf E, hintFile := none, mergeFin := none } : Dir)
    false 0 [] [0] ⟨[], 0, [], 0⟩ 0
    (by
      intro fid hfm hns
      rw [List.mem_singleton] at hfm
      subst hfm
      refine ⟨[], ?_, by intro r hr; simp at hr, by
        intro e he; simp [entriesFrom] at he⟩
      show (assocGet (dirDataFilesOf E) 0).getD [] = concatEnc []
      rw [hdd, assocGet_cons, if_pos rfl]
      rfl)
    (fun k => rfl)
  refine ⟨_, openFromDir_spec E.options
    ({ dataFiles := dirDataFilesOf E, hintFile := none, mergeFin := none } : Dir)
    [0] hsort (by simp) [] rfl false 0 rfl rst wo1 hrun, ?_⟩
  intro k
  by_cases hk : k = []
  · subst hk
    unfold Engine.get
    rw [if_pos rfl, if_pos rfl]
  · rw [engineGet_miss E k hk (index_none_of_no_records E a hidxinv hrecs k)]
    apply engineGet_miss _ k hk
    show assocGet rst.index k = none
    rw [hpt k]
    exact assocGet_nil k

/-- C2: for any dataset applied as a sequence of puts and deletes on
nonempty keys (within the spec's SS8 size bounds, at most 2^30 operations,
with a data-file-size option between 2 MiB and 1 TiB), running `merge()`
(with the ratio threshold reached and the free-space check passing) and
then reopening the engine from the promoted directory yields, for every
key, the same `get()` result — the same value, or `KeyNotFound` — as the
pre-merge engine. -/
theorem c2_merge_reopen_get_equiv (opts : EngineOptions) (ops : List Op)
    (hdfs21 : 2 ^ 21 ≤ opts.dataFileSize)
    (hdfs40 : opts.dataFileSize ≤ 2 ^ 40)
    (hops : ∀ op ∈ ops, WFOp op) (hlen : ops.length ≤ 2 ^ 30)
    (E : EngineState) (hE : applyOps ops (freshEngine opts) = .ok E)
    (total avail : Nat)
    (hspace : mergeSpaceCheckFails total E.reclaimSize avail = false) :
    ∃ E2, mergeAndReopen E true total avail = some (.ok E2) ∧
      ∀ k, Engine.get E2 k = Engine.get E k := by
  obtain ⟨⟨a, hrel, hainv, hidxinv, hcnt⟩, hopts⟩ :=
    applyOps_inv ops (freshEngine opts) 0 (freshEngine_inv opts) hops hdfs21
      E hE
  have hEopts : E.options = opts := hopts
  have hd21 : 2 ^ 21 ≤ E.options.dataFileSize := by rw [hEopts]; exact hdfs21
  have hd40 : E.options.dataFileSize ≤ 2 ^ 40 := by rw [hEopts]; exact hdfs40
  have hcnt30 : recCount a ≤ 2 ^ 30 := le_trans hcnt (by omega)
  by_cases hemp : isEngineEmpty E = true
  · obtain ⟨E2, hopen, heq⟩ := reopen_empty_engine E a hrel hainv hidxinv hemp
    refine ⟨E2, ?_, heq⟩
    show mergeAndReopen E true total avail = some (.ok E2)
    unfold mergeAndReopen
    rw [show mergeModel E true total avail = some (.ok (E, none)) from by
      unfold mergeModel
      rw [hemp]
      rfl]
    exact hopen
  · have hnotemp : isEngineEmpty E = false := by
      cases h : isEngineEmpty E
      · rfl
      · exact absurd h hemp
    obtain ⟨mdb, hmm, hmrel, hmopts⟩ :=
      merge_output_spec E a hrel hainv hd21 hnotemp total avail hspace
    have hmm2 : mergeModel E true total avail = some (.ok
        ((rotateMergeFiles E).1,
         some ⟨mdb, hintRecsOf E a, natToDecimal (a.fid + 1)⟩)) := hmm
    have hmrel2 : filesRel mdb (mergeA E a).1 := hmrel
    have hprom := promote_spec (dirDataFilesOf (rotateMergeFiles E).1)
      ⟨mdb, hintRecsOf E a, natToDecimal (a.fid + 1)⟩ (a.fid + 1) rfl
      (finRec_wf E a hainv hcnt30)
    rw [rotated_survivors E a hrel hainv] at hprom
    have hopen2 : ∃ E2, openFromDir E.options
        { dataFiles :=
            ([((a.fid + 1 : Nat), ([] : List Nat))].filter
              (fun e => !decide (e.1 ∈ (stagedDataFiles
                ⟨mdb, hintRecsOf E a, natToDecimal (a.fid + 1)⟩).map Prod.fst))) ++
              stagedDataFiles ⟨mdb, hintRecsOf E a, natToDecimal (a.fid + 1)⟩,
          hintFile := some (concatEnc (hintRecsOf E a)),
          mergeFin := some (LogRecord.encode
            ⟨MERGE_FIN_KEY, natToDecimal (a.fid + 1), .normal⟩) } =
          some (.ok E2) ∧
        ∀ k, Engine.get E2 k = Engine.get E k := by
      by_cases hps : psOf E a = []
      · exact reopen_merged_empty E.options E a mdb hainv hidxinv hcnt30
          hmrel2 hps _ rfl rfl rfl
      · exact reopen_merged E.options E a mdb hrel hainv hidxinv hd21 hd40
          hcnt30 hmrel2 hps _ rfl rfl rfl
    obtain ⟨E2, hopen, heq⟩ := hopen2
    refine ⟨E2, ?_, heq⟩
    show mergeAndReopen E true total avail = some (.ok E2)
    unfold mergeAndReopen
    rw [hmm2]
    dsimp only
    rw [hprom]
    exact hopen

set_option maxRecDepth 40000 in
/-- Witness for C2: one put on a fresh 2 MiB-file engine, then merge and
reopen; every lookup agrees. -/
theorem c2_merge_reopen_get_equiv_witness :
    ∃ E, applyOps [Op.put [104] [119]]
        (freshEngine ⟨2 ^ 21, false, 0⟩) = .ok E ∧
      ∃ E2, mergeAndReopen E true 0 1 = some (.ok E2) ∧
        ∀ k, Engine.get E2 k = Engine.get E k := by
  cases hE : applyOps [Op.put [104] [119]] (freshEngine ⟨2 ^ 21, false, 0⟩) with
  | error e =>
    exfalso
    have hh : (applyOps [Op.put [104] [119]]
        (freshEngine ⟨2 ^ 21, false, 0⟩)).toOption.isSome = true := by decide
    rw [hE] at hh
    exact Bool.noConfusion hh
  | ok E =>
    refine ⟨E, rfl, c2_merge_reopen_get_equiv ⟨2 ^ 21, false, 0⟩
      [Op.put [104] [119]] (by decide) (by decide) (by decide) (by decide)
      E hE 0 1 ?_⟩
    unfold mergeSpaceCheckFails
    rw [Nat.zero_sub]
    rfl

end FlashKV
